import Mathlib

/-!
Collection: the index writer and the scoring of `src/collection.cpp`.

A shallow embedding of `Collection::add`, `Collection::remove`,
`Collection::score_results` and `_remove_and_shift_offset_index`.

* machine integers are `Nat`/`Int` with explicit reduction modulo `2^w`;
* a C++ exception is a value of `Error`; a function that can throw returns its
  result together with the state it leaves behind;
* the key-value store, the trie and `doc_scores` are finite maps, written as
  functions from keys to optional values.
-/

namespace Typesense

/-! ## Errors and machine integers -/

/-- The C++ exceptions raised by the calls the code makes: `json::parse`
(`parse_error`), a JSON conversion or `operator[]` on the wrong kind of value
(`type_error`), `std::stoi` (`invalid_argument`, `out_of_range`) and
`sparse_hash_map::at` (`out_of_range`). -/
inductive Error
  | parse_error
  | type_error
  | invalid_argument
  | out_of_range
  deriving DecidableEq, Repr

/-- Equality of results is decidable. -/
instance instDecidableEqExcept {ε α : Type} [DecidableEq ε] [DecidableEq α] :
    DecidableEq (Except ε α)
  | .ok a, .ok b => if h : a = b then isTrue (by rw [h]) else isFalse (fun h2 => h (by cases h2; rfl))
  | .error a, .error b =>
    if h : a = b then isTrue (by rw [h]) else isFalse (fun h2 => h (by cases h2; rfl))
  | .ok _, .error _ => isFalse (fun h => by cases h)
  | .error _, .ok _ => isFalse (fun h => by cases h)

/-- The constant `UINT32_MAX` of `<cstdint>`. -/
def UINT32_MAX : Nat := 4294967295

/-- Number of values of a `uint32_t`. -/
def U32 : Nat := 4294967296

/-- Number of values of a `uint64_t`. -/
def U64 : Nat := 18446744073709551616

/-! ## The compressed integer array `forarray` -/

/-- Modelled from the spec: `forarray::at`, the random access of the compressed
array (its class is not part of the sources). Inside the array it is the element;
outside it the C++ reads whatever the buffer holds, here `junk i`. -/
def forarray_at (junk : Nat → Nat) (a : List Nat) (i : Nat) : Nat :=
  (a.get? i).getD (junk i)

/-- Modelled from the spec: `forarray::indexOf`, the position of a value in the
array; a miss yields the length of the array. -/
def forarray_indexOf (a : List Nat) (v : Nat) : Nat :=
  a.indexOf v

/-- Modelled from the spec: `forarray::remove_index_unsorted(start, end)`, which
drops the elements whose index lies in `[start, end)`. -/
def remove_index_unsorted : List Nat → Nat → Nat → List Nat
  | [], _, _ => []
  | x :: xs, start_index, end_index =>
    if 0 < start_index then x :: remove_index_unsorted xs (start_index - 1) (end_index - 1)
    else if 0 < end_index then remove_index_unsorted xs 0 (end_index - 1)
    else x :: xs

/-- Modelled from the spec: `forarray::remove_values_sorted(values, 1)` with the
single value `v`: the array without `v`. -/
def remove_values_sorted (a : List Nat) (v : Nat) : List Nat :=
  a.filter (fun x => decide (x ≠ v))

/-! ## Trie leaves -/

/-- The posting record of one token: `leaf->values->ids`,
`leaf->values->offset_index`, `leaf->values->offsets` and `leaf->max_score`. -/
structure art_leaf where
  ids : List Nat
  offset_index : List Nat
  offsets : List Nat
  max_score : Nat
  deriving DecidableEq, Repr

/-- The record `art_document` handed to `art_insert`. -/
structure art_document where
  id : Nat
  score : Nat
  offsets : List Nat
  deriving DecidableEq, Repr

/-! ## Scoring (`Collection::score_results`) -/

/-- The result of the match scorer: `MatchScore{words_present, distance}`. -/
structure MatchScore where
  words_present : Nat
  distance : Nat
  deriving DecidableEq, Repr

/-- The start of the slice of `offsets` that belongs to `doc_id` in a leaf
(lines 320-321 and 429-438): `offset_index.at(ids.indexOf(doc_id))`. -/
def start_offset (junk : Nat → Nat) (leaf : art_leaf) (doc_id : Nat) : Nat :=
  forarray_at junk leaf.offset_index (forarray_indexOf leaf.ids doc_id)

/-- The end of that slice (lines 322-324 and 439-441): the length of `offsets`
for the last document, the next entry of `offset_index` otherwise. The
comparison is made on `uint32_t`, so `getLength() - 1` wraps for an empty
array. -/
def end_offset (junk : Nat → Nat) (leaf : art_leaf) (doc_id : Nat) : Nat :=
  if forarray_indexOf leaf.ids doc_id = (leaf.ids.length + U32 - 1) % U32
  then leaf.offsets.length
  else forarray_at junk leaf.offset_index (forarray_indexOf leaf.ids doc_id + 1)

/-- The positions of one token in one document (lines 319-329): the elements of
`offsets` from `start_offset` up to `end_offset`, each cast to `uint16_t`. -/
def token_positions (junk : Nat → Nat) (leaf : art_leaf) (doc_id : Nat) : List Nat :=
  (List.range' (start_offset junk leaf doc_id)
      (end_offset junk leaf doc_id - start_offset junk leaf doc_id)).map
    (fun i => forarray_at junk leaf.offsets i % 65536)

/-- The match score of one document (lines 312-335): the shortcut `(1, 1)` for a
suggestion of one leaf, the scorer on the position lists otherwise. The scorer
`MatchScore::match_score` is not part of the sources and is a parameter. -/
def mscore_of (match_score : Nat → List (List Nat) → MatchScore) (junk : Nat → Nat)
    (query_suggestion : List art_leaf) (doc_id : Nat) : MatchScore :=
  if query_suggestion.length = 1 then { words_present := 1, distance := 1 }
  else match_score doc_id (query_suggestion.map (fun leaf => token_positions junk leaf doc_id))

/-- The proximity and coverage term (line 337), computed on `int`:
`words_present * 32 + (MAX_SEARCH_TOKENS - distance)`. The constant
`MAX_SEARCH_TOKENS` is declared in a header that is not part of the sources and
is the parameter `max_search_tokens`. -/
def composite (max_search_tokens : Nat) (m : MatchScore) : Int :=
  (m.words_present : Int) * 32 + ((max_search_tokens : Int) - (m.distance : Int))

/-- The 64-bit score (lines 337-338): the composite term cast to `uint64_t`,
times `UINT32_MAX`, plus the static score of the document, on `uint64_t`. -/
def final_score (max_search_tokens : Nat) (m : MatchScore) (doc_score : Nat) : Nat :=
  ((composite max_search_tokens m % (U64 : Int)).toNat * UINT32_MAX % U64 + doc_score) % U64

/-- One turn of the loop of `score_results`: the pair `(doc_id, final_score)`
given to `topster.add`, or the exception of `doc_scores.at`. -/
def score_one (match_score : Nat → List (List Nat) → MatchScore) (junk : Nat → Nat)
    (max_search_tokens : Nat) (doc_scores : Nat → Option Nat)
    (query_suggestion : List art_leaf) (doc_id : Nat) : Except Error (Nat × Nat) :=
  match doc_scores doc_id with
  | none => .error .out_of_range
  | some s =>
    .ok (doc_id, final_score max_search_tokens (mscore_of match_score junk query_suggestion doc_id) s)

/-- The loop of `score_results` over `result_ids`: the calls `topster.add(key,
score)` it makes, in order. -/
def score_results (match_score : Nat → List (List Nat) → MatchScore) (junk : Nat → Nat)
    (max_search_tokens : Nat) (doc_scores : Nat → Option Nat)
    (query_suggestion : List art_leaf) : List Nat → Except Error (List (Nat × Nat))
  | [] => .ok []
  | doc_id :: rest =>
    match score_one match_score junk max_search_tokens doc_scores query_suggestion doc_id with
    | .error e => .error e
    | .ok p =>
      match score_results match_score junk max_search_tokens doc_scores query_suggestion rest with
      | .error e => .error e
      | .ok ps => .ok (p :: ps)

/-! ## Strings: `std::to_string`, `std::stoi`, `::tolower` -/

/-- The decimal digit `d` as a character. -/
def digit_char (d : Nat) : Char := Char.ofNat (48 + d)

/-- The decimal digits of `n`, most significant first, put before `acc`; `fuel`
bounds the number of digits. -/
def to_digits : Nat → Nat → List Char → List Char
  | 0, _, acc => acc
  | fuel + 1, n, acc =>
    if n / 10 = 0 then digit_char (n % 10) :: acc
    else to_digits fuel (n / 10) (digit_char (n % 10) :: acc)

/-- The call `std::to_string(seq_id)` on a `uint32_t`: a `uint32_t` has at most
ten decimal digits. -/
def to_string (n : Nat) : String := String.mk (to_digits 10 n [])

/-- The predicate `isspace` of the C locale. -/
def isspace (c : Char) : Bool :=
  c = ' ' || c = Char.ofNat 9 || c = Char.ofNat 10 || c = Char.ofNat 11 || c = Char.ofNat 12
    || c = Char.ofNat 13

/-- The value of a string of decimal digits. -/
def digits_value (ds : List Char) : Nat :=
  ds.foldl (fun a c => 10 * a + (c.toNat - 48)) 0

/-- The call `std::stoi(str)`: leading white space is skipped, a sign is
optional, the longest run of digits is read; `invalid_argument` when there is no
digit, `out_of_range` when the value is not an `int`. -/
def stoi (s : String) : Except Error Int :=
  let cs := s.data.dropWhile isspace
  let body := if cs.head? = some '-' ∨ cs.head? = some '+' then cs.tail else cs
  let ds := body.takeWhile Char.isDigit
  if ds = [] then .error .invalid_argument
  else
    let n : Int := if cs.head? = some '-' then -(digits_value ds : Int) else (digits_value ds : Int)
    if n < -2147483648 ∨ 2147483647 < n then .error .out_of_range else .ok n

/-- The transform of a token with `::tolower` (lines 47 and 420). -/
def tolower (s : String) : String := String.mk (s.data.map Char.toLower)

/-! ## JSON documents -/

/-- Modelled from the spec: a member of a JSON document as `add` reads it: a
string (`title`, `id`), a non-negative integer (`points`; the integer type of
the score is declared in a header that is not part of the sources, the value is
taken as it is), or a value of another kind. -/
inductive JVal
  | null
  | bool (b : Bool)
  | num (n : Nat)
  | str (s : String)
  | other
  deriving DecidableEq, Repr

/-- Modelled from the spec: a parsed `nlohmann::json` value: `null`, an object
(its members, the first entry of a key counts), or a value of another kind
(array, number, string, boolean). -/
inductive Json
  | null
  | obj (fields : List (String × JVal))
  | other
  deriving DecidableEq, Repr

/-- The member `key` of a document, when it is an object that has it. -/
def Json.field (d : Json) (key : String) : Option JVal :=
  match d with
  | .obj fields => (fields.find? (fun kv => kv.1 = key)).map (fun kv => kv.2)
  | _ => none

/-- The call `document.count(key)`: 1 for an object with that member, else 0. -/
def Json.count (d : Json) (key : String) : Nat :=
  if (d.field key).isSome then 1 else 0

/-- The assignment `document[key] = value`: `null` becomes an object, an object
gets the member, any other kind of value throws `type_error`. -/
def Json.set (d : Json) (key : String) (value : JVal) : Except Error Json :=
  match d with
  | .null => .ok (.obj [(key, value)])
  | .obj fields => .ok (.obj ((key, value) :: fields))
  | .other => .error .type_error

/-- The conversion of `document[key]` to `std::string`: `type_error` unless the
member is there and is a string (a missing member reads as `null`). -/
def Json.get_string (d : Json) (key : String) : Except Error String :=
  match d.field key with
  | some (.str s) => .ok s
  | _ => .error .type_error

/-- The conversion of `document[key]` to the integer type of the score:
`type_error` unless the member is there and is a number. -/
def Json.get_number (d : Json) (key : String) : Except Error Nat :=
  match d.field key with
  | some (.num n) => .ok n
  | _ => .error .type_error

/-! ## The store, the trie and the collection -/

/-- Modelled from the spec: the key-value store, an opaque map from keys to
values with `get`, `insert` and `remove`. -/
abbrev Store := String → Option String

/-- The call `store->insert(key, value)`. -/
def Store.insert (s : Store) (key value : String) : Store :=
  fun k => if k = key then some value else s k

/-- The call `store->remove(key)`. -/
def Store.remove (s : Store) (key : String) : Store :=
  fun k => if k = key then none else s k

/-- The call `store->get(key, value)` on a fresh `value`: the stored value, and
the string left empty when the key is absent. -/
def Store.get (s : Store) (key : String) : String :=
  (s key).getD ""

/-- Modelled from the spec: the adaptive radix trie, a map from token strings
to leaves (the terminating NUL of a key is left out). -/
abbrev art_tree := String → Option art_leaf

/-- The call `art_search(&t, key, key_len)`. -/
def art_search (t : art_tree) (key : String) : Option art_leaf := t key

/-- The leaf that `art_insert` leaves under a key: the record of the document is
appended to the postings of the leaf that was there, or starts a new leaf. -/
def leaf_append (old : Option art_leaf) (doc : art_document) : art_leaf :=
  match old with
  | none =>
    { ids := [doc.id], offset_index := [0], offsets := doc.offsets, max_score := doc.score }
  | some leaf =>
    { ids := leaf.ids ++ [doc.id],
      offset_index := leaf.offset_index ++ [leaf.offsets.length],
      offsets := leaf.offsets ++ doc.offsets,
      max_score := max leaf.max_score doc.score }

/-- Modelled from the spec: `art_insert(&t, key, key_len, &art_doc, num_hits)`;
`num_hits` is a ranking hint for the fuzzy search and changes no posting. -/
def art_insert (t : art_tree) (key : String) (doc : art_document) (_num_hits : Nat) : art_tree :=
  fun k => if k = key then some (leaf_append (t key) doc) else t k

/-- Modelled from the spec: `art_delete(&t, key, key_len)`. -/
def art_delete (t : art_tree) (key : String) : art_tree :=
  fun k => if k = key then none else t k

/-- The write through the pointer `leaf`: the leaf under `key` is replaced. -/
def art_update (t : art_tree) (key : String) (leaf : art_leaf) : art_tree :=
  fun k => if k = key then some leaf else t k

/-- The members of `Collection` that `add` and `remove` read and write. -/
structure Collection where
  seq_id : Nat
  store : Store
  t : art_tree
  doc_scores : Nat → Option Nat

/-- The parts of the program that are not in the sources, and what the language
leaves open: the JSON parser and printer, the tokenizer
`StringUtils::tokenize(str, tokens, " ", true)`, the value read outside a
compressed array, and whether the left operand of the assignment of line 78 is
evaluated before the right one (unspecified before C++17). -/
structure Env where
  parse : String → Option Json
  dump : Json → String
  tokenize : String → List String
  junk : Nat → Nat
  assign_lhs_first : Bool

/-- Modelled from the spec: the constant `SEQ_ID_PREFIX`. -/
def SEQ_ID_PREFIX : String := "S"

/-- Modelled from the spec: the constant `ID_PREFIX`. -/
def ID_PREFIX : String := "I"

/-- The function `Collection::get_seq_id_key`. -/
def get_seq_id_key (seq_id : Nat) : String := SEQ_ID_PREFIX ++ to_string seq_id

/-- The function `Collection::get_id_key`. -/
def get_id_key (id : String) : String := ID_PREFIX ++ id

/-- The function `Collection::next_seq_id`: `++seq_id` on a `uint32_t`. -/
def Collection.next_seq_id (c : Collection) : Nat × Collection :=
  ((c.seq_id + 1) % U32, { c with seq_id := (c.seq_id + 1) % U32 })

/-! ## `Collection::add` -/

/-- The statement `token_to_offsets[token].push_back(i)` on a map kept as a list
of entries in order of first insertion. -/
def push_offset : List (String × List Nat) → String → Nat → List (String × List Nat)
  | [], token, i => [(token, [i])]
  | (k, v) :: rest, token, i =>
    if k = token then (k, v ++ [i]) :: rest else (k, v) :: push_offset rest token i

/-- The loop of lines 45-49 from word index `i` on. The index is a `uint32_t`
in the code; a title has fewer than `2^32` words and the index is read as a
natural number. -/
def token_to_offsets_from : List String → Nat → List (String × List Nat) →
    List (String × List Nat)
  | [], _, m => m
  | token :: rest, i, m => token_to_offsets_from rest (i + 1) (push_offset m (tolower token) i)

/-- The map `token_to_offsets` of `add` (lines 44-49): each lowercased token
with the word indices where it occurs. -/
def token_to_offsets (tokens : List String) : List (String × List Nat) :=
  token_to_offsets_from tokens 0 []

/-- The loop of lines 51-76 over the entries of `token_to_offsets`: each turn
reads `document["points"]`, looks the leaf up for `num_hits` and calls
`art_insert`. An exception ends the loop and leaves the trie as it is then. -/
def index_tokens (document : Json) (seq_id : Nat) :
    List (String × List Nat) → art_tree → Except Error Unit × art_tree
  | [], t => (.ok (), t)
  | (token, positions) :: rest, t =>
    match document.get_number "points" with
    | .error e => (.error e, t)
    | .ok score =>
      index_tokens document seq_id rest
        (art_insert t token { id := seq_id, score := score, offsets := positions }
          ((match art_search t token with
            | some leaf => leaf.ids.length
            | none => 0) + 1))

/-- The document that `add` stores: the parsed one, with `id` set to the decimal
sequence id when it has none (lines 34-36). -/
def with_id (document : Json) (seq_id_str : String) : Except Error Json :=
  if document.count "id" = 0 then document.set "id" (.str seq_id_str) else .ok document

/-- The function `Collection::add`: the returned id or the exception, and the
state of the collection afterwards. In line 78 the conversion of
`document["points"]` can throw; when `doc_scores[seq_id]` is evaluated first, it
has by then made a value-initialised entry for `seq_id`. -/
def Collection.add (env : Env) (c : Collection) (json_str : String) :
    Except Error String × Collection :=
  match env.parse json_str with
  | none => (.error .parse_error, c)
  | some parsed =>
    let c1 := c.next_seq_id.2
    let seq_id := c.next_seq_id.1
    match with_id parsed (to_string seq_id) with
    | .error e => (.error e, c1)
    | .ok document =>
      let c2 := { c1 with store := c1.store.insert (get_seq_id_key seq_id) (env.dump document) }
      match document.get_string "id" with
      | .error e => (.error e, c2)
      | .ok id =>
        let c3 := { c2 with store := c2.store.insert (get_id_key id) (to_string seq_id) }
        match document.get_string "title" with
        | .error e => (.error e, c3)
        | .ok title =>
          match index_tokens document seq_id (token_to_offsets (env.tokenize title)) c3.t with
          | (.error e, t) => (.error e, { c3 with t := t })
          | (.ok _, t) =>
            match document.get_number "points" with
            | .error e =>
              (.error e, { c3 with t := t,
                                   doc_scores :=
                                     if env.assign_lhs_first then
                                       fun k => if k = seq_id
                                                then some ((c3.doc_scores seq_id).getD 0)
                                                else c3.doc_scores k
                                     else c3.doc_scores })
            | .ok points =>
              (.ok id, { c3 with t := t,
                                 doc_scores := fun k => if k = seq_id then some points
                                                        else c3.doc_scores k })

/-! ## `_remove_and_shift_offset_index` and `Collection::remove` -/

/-- The loop of `_remove_and_shift_offset_index` (lines 383-397) on the state
`new_array`, `curr_index`, `indices_counter`, `shift_value`; every turn advances
`curr_index` or `indices_counter`, and `fuel` bounds the number of turns. -/
def shift_loop (junk : Nat → Nat) (offset_index indices_sorted : List Nat) :
    Nat → List Nat → Nat → Nat → Nat → List Nat
  | 0, new_array, _, _, _ => new_array
  | fuel + 1, new_array, curr_index, indices_counter, shift_value =>
    if curr_index < offset_index.length then
      if indices_counter < indices_sorted.length
          ∧ forarray_at junk indices_sorted indices_counter ≤ curr_index then
        if curr_index = forarray_at junk indices_sorted indices_counter then
          shift_loop junk offset_index indices_sorted fuel new_array (curr_index + 1)
            (indices_counter + 1)
            ((shift_value
              + (if curr_index + 1 = offset_index.length then 0
                 else (forarray_at junk offset_index (curr_index + 1) + U32
                        - forarray_at junk offset_index curr_index) % U32)) % U32)
        else
          shift_loop junk offset_index indices_sorted fuel new_array curr_index
            (indices_counter + 1) shift_value
      else
        shift_loop junk offset_index indices_sorted fuel
          (new_array ++ [(forarray_at junk offset_index curr_index + U32 - shift_value) % U32])
          (curr_index + 1) indices_counter shift_value
    else new_array

/-- The function `_remove_and_shift_offset_index`: the array that
`load_sorted(new_array, new_index)` puts in place of `offset_index`. -/
def _remove_and_shift_offset_index (junk : Nat → Nat) (offset_index indices_sorted : List Nat) :
    List Nat :=
  shift_loop junk offset_index indices_sorted
    (offset_index.length + indices_sorted.length + 1) [] 0 0 0

/-- The copy steps of the loop of `_remove_and_shift_offset_index`: the same
loop as `shift_loop`, recording at every turn that runs
`new_array[new_index++] = curr_array[curr_index++] - shift_value` (line 395) the
value `curr_array[curr_index]` that is copied and the value of `shift_value`. -/
def shift_loop_copies (junk : Nat → Nat) (offset_index indices_sorted : List Nat) :
    Nat → Nat → Nat → Nat → List (Nat × Nat)
  | 0, _, _, _ => []
  | fuel + 1, curr_index, indices_counter, shift_value =>
    if curr_index < offset_index.length then
      if indices_counter < indices_sorted.length
          ∧ forarray_at junk indices_sorted indices_counter ≤ curr_index then
        if curr_index = forarray_at junk indices_sorted indices_counter then
          shift_loop_copies junk offset_index indices_sorted fuel (curr_index + 1)
            (indices_counter + 1)
            ((shift_value
              + (if curr_index + 1 = offset_index.length then 0
                 else (forarray_at junk offset_index (curr_index + 1) + U32
                        - forarray_at junk offset_index curr_index) % U32)) % U32)
        else
          shift_loop_copies junk offset_index indices_sorted fuel curr_index
            (indices_counter + 1) shift_value
      else
        (forarray_at junk offset_index curr_index, shift_value)
          :: shift_loop_copies junk offset_index indices_sorted fuel (curr_index + 1)
              indices_counter shift_value
    else []

/-- The copy steps of a call of `_remove_and_shift_offset_index`, in order: the
value copied and `shift_value` at each. -/
def copy_steps (junk : Nat → Nat) (offset_index indices_sorted : List Nat) : List (Nat × Nat) :=
  shift_loop_copies junk offset_index indices_sorted
    (offset_index.length + indices_sorted.length + 1) 0 0 0

/-- The leaf after the step of `remove` for one token (lines 427-447). -/
def remove_from_leaf (junk : Nat → Nat) (seq_id : Nat) (leaf : art_leaf) : art_leaf :=
  { ids := remove_values_sorted leaf.ids seq_id,
    offset_index :=
      _remove_and_shift_offset_index junk leaf.offset_index [forarray_indexOf leaf.ids seq_id],
    offsets :=
      remove_index_unsorted leaf.offsets (start_offset junk leaf seq_id)
        (end_offset junk leaf seq_id),
    max_score := leaf.max_score }

/-- One turn of the loop of `remove` (lines 419-459) for the lowercased token
`key`. -/
def remove_token (junk : Nat → Nat) (seq_id : Nat) (t : art_tree) (key : String) : art_tree :=
  match art_search t key with
  | none => t
  | some leaf =>
    if (remove_from_leaf junk seq_id leaf).ids.length = 0 then art_delete t key
    else art_update t key (remove_from_leaf junk seq_id leaf)

/-- The loop of `remove` over the tokens of the title, in order, repeated tokens
included. -/
def remove_tokens (junk : Nat → Nat) (seq_id : Nat) : List String → art_tree → art_tree
  | [], t => t
  | token :: rest, t => remove_tokens junk seq_id rest (remove_token junk seq_id t (tolower token))

/-- The function `Collection::remove`: success or the exception, and the state
of the collection afterwards. -/
def Collection.remove (env : Env) (c : Collection) (id : String) :
    Except Error Unit × Collection :=
  match stoi (c.store.get (get_id_key id)) with
  | .error e => (.error e, c)
  | .ok n =>
    let seq_id := (n % (U32 : Int)).toNat
    match env.parse (c.store.get (get_seq_id_key seq_id)) with
    | none => (.error .parse_error, c)
    | some document =>
      match document.get_string "title" with
      | .error e => (.error e, c)
      | .ok title =>
        (.ok (), { c with t := remove_tokens env.junk seq_id (env.tokenize title) c.t,
                          store := (c.store.remove (get_id_key id)).remove
                                     (get_seq_id_key seq_id) })

/-! ## Sequences of calls, and notions used in the statements -/

/-- The sequence ids minted by a sequence of `add` calls, in order: an `add`
whose input parses mints one (line 31), an `add` whose input does not parse
throws before that. -/
def seq_ids_of_adds (env : Env) : Collection → List String → List Nat
  | _, [] => []
  | c, json_str :: rest =>
    (match env.parse json_str with
      | none => []
      | some _ => [c.next_seq_id.1])
      ++ seq_ids_of_adds env (Collection.add env c json_str).2 rest

/-- The entry of a token in the map `token_to_offsets`. -/
def offsets_of : List (String × List Nat) → String → Option (List Nat)
  | [], _ => none
  | (k, v) :: rest, token => if k = token then some v else offsets_of rest token

/-- The word indices, counted from `i`, at which `token` occurs in `words`. -/
def occurrences : List String → Nat → String → List Nat
  | [], _, _ => []
  | w :: rest, i, token =>
    if w = token then i :: occurrences rest (i + 1) token else occurrences rest (i + 1) token

/-- The split of a string on the space character, empty pieces dropped; `cur`
holds the characters of the word being read, last first. -/
def split_on_space : List Char → List Char → List String
  | [], cur => if cur = [] then [] else [String.mk cur.reverse]
  | ch :: rest, cur =>
    if ch = ' ' then
      (if cur = [] then split_on_space rest []
       else String.mk cur.reverse :: split_on_space rest [])
    else split_on_space rest (ch :: cur)

/-- What one turn of the loop of `remove` leaves under the key it looks up: no
leaf when there was none or when `ids` became empty (`art_delete`), the updated
leaf otherwise. -/
def purge (junk : Nat → Nat) (seq_id : Nat) (old : Option art_leaf) : Option art_leaf :=
  match old with
  | none => none
  | some leaf =>
    if (remove_from_leaf junk seq_id leaf).ids.length = 0 then none
    else some (remove_from_leaf junk seq_id leaf)

/-- A collection that has just been constructed (line 14): counter 0, nothing
stored, empty trie. -/
def Collection.fresh : Collection :=
  { seq_id := 0, store := fun _ => none, t := fun _ => none, doc_scores := fun _ => none }

/-- A collection whose counter stands at `INT_MAX = 2^31 - 1` and whose store
and trie are empty, as they are once every document added so far has been
removed again. -/
def Collection.at_int_max : Collection :=
  { seq_id := 2147483647, store := fun _ => none, t := fun _ => none,
    doc_scores := fun _ => none }

/-- An environment for examples: the input `new` parses to a document with a
title and points and no `id`, `given` to the same document with the id `a`,
`lacking` to a document without title; documents are printed as `stored` and
`stored` parses to the first document with its id filled in as `1`. -/
def demo_env : Env :=
  { parse := fun s =>
      if s = "new" then some (.obj [("title", .str "Hello hello World"), ("points", .num 5)])
      else if s = "given" then
        some (.obj [("id", .str "a"), ("title", .str "Hello hello World"), ("points", .num 5)])
      else if s = "stored" then
        some (.obj [("id", .str "1"), ("title", .str "Hello hello World"), ("points", .num 5)])
      else if s = "lacking" then some (.obj [("points", .num 5)])
      else none,
    dump := fun _ => "stored",
    tokenize := fun s => split_on_space s.data [],
    junk := fun _ => 0,
    assign_lhs_first := true }

/-! ## `Collection::next_suggestion` and `Collection::search_candidates` -/

/-- Number of values of a `size_t` (64 bits). -/
def SIZE_T : Nat := 18446744073709551616

/-- The conversion of a 64-bit unsigned value to `long long`: values from `2^63`
on wrap to the negative numbers. -/
def long_long_of (x : Nat) : Int :=
  if x % SIZE_T < 9223372036854775808 then ((x % SIZE_T : Nat) : Int)
  else ((x % SIZE_T : Nat) : Int) - (SIZE_T : Int)

/-- The lambda `product` (lines 87 and 183): `a * b.size()` is computed on
64-bit unsigned integers and comes back as a `long long`. -/
def product (a : Int) (size : Nat) : Int :=
  long_long_of ((a % (SIZE_T : Int)).toNat * size)

/-- The call `std::accumulate(begin, end, 1LL, product)` over a vector of
vectors. -/
def accumulate_product {α : Type} (lists : List (List α)) : Int :=
  lists.foldl (fun a b => product a b.length) 1

/-- The constant `combination_limit` (lines 86 and 182). -/
def combination_limit : Nat := 10

/-- Modelled from the spec: the constant `Collection::MAX_RESULTS`. -/
def MAX_RESULTS : Nat := 100

/-- The loop of lines 359-363 (and of lines 191-195): the digits of `n` in the
mixed radix given by the lengths of the lists, the last list being the least
significant; each digit picks an element of its list. `ldiv` is applied to a
number that is not negative. A list without elements (a division by zero in the
code) gives no element. -/
def pick_combination {α : Type} (lists : List (List α)) (n : Nat) : List α :=
  (lists.foldr (fun l (acc : Nat × List α) =>
    (acc.1 / l.length, (l.get? (acc.1 % l.length)).toList ++ acc.2)) (n, [])).2

/-- The order of `std::sort` in `next_suggestion` (lines 366-368): by the
number of documents of the leaf. -/
def fewer_ids (a b : art_leaf) : Prop := a.ids.length ≤ b.ids.length

instance fewer_ids_decidable : DecidableRel fewer_ids :=
  fun a b => Nat.decLe a.ids.length b.ids.length

/-- The function `Collection::next_suggestion`. The call of `std::sort` is
rendered by a stable sort; C++ leaves the order of leaves with equally many
documents open. -/
def next_suggestion (token_leaves : List (List art_leaf)) (n : Nat) : List art_leaf :=
  List.insertionSort fewer_ids (pick_combination token_leaves n)

/-- Modelled from the spec: `Intersection::scalar`, the sorted-merge
intersection of two ascending arrays: the elements of the first that are in the
second. -/
def Intersection_scalar (a b : List Nat) : List Nat :=
  a.filter (fun x => decide (x ∈ b))

/-- Modelled from the spec: the selector `Topster<100>`, its entries `(key,
score)` in order of insertion. -/
structure Topster where
  entries : List (Nat × Nat)
  deriving DecidableEq, Repr

/-- The entries with the first entry of the lowest score replaced. -/
def replace_minimum : List (Nat × Nat) → Nat × Nat → List (Nat × Nat)
  | [], _ => []
  | e :: rest, new_entry =>
    if rest.all (fun r => decide (e.2 ≤ r.2)) then new_entry :: rest
    else e :: replace_minimum rest new_entry

/-- Modelled from the spec: `Topster::add(key, score)`: inserted while there are
fewer than 100 entries, after that in place of the current minimum when the
score exceeds it. -/
def Topster.add (t : Topster) (key score : Nat) : Topster :=
  if t.entries.length < 100 then { entries := t.entries ++ [(key, score)] }
  else if t.entries.any (fun e => decide (e.2 < score)) then
    { entries := replace_minimum t.entries (key, score) }
  else t

/-- The order of `Topster::sort`: descending by score. -/
def higher_score (a b : Nat × Nat) : Prop := b.2 ≤ a.2

instance higher_score_decidable : DecidableRel higher_score :=
  fun a b => Nat.decLe b.2 a.2

/-- Modelled from the spec: `Topster::sort()` followed by `getKeyAt(i)` for
`i = 0 .. size - 1`: the keys in descending order of score, ties in the order of
insertion. -/
def Topster.sorted_keys (t : Topster) : List Nat :=
  (List.insertionSort higher_score t.entries).map Prod.fst

/-- The state that `search_candidates` updates: the documents returned so far,
each with the sequence id it was fetched under, their number, and the set
`dedup_seq_ids`. -/
structure Candidates where
  results : List (Nat × Json)
  total_results : Nat
  dedup_seq_ids : List Nat
  deriving DecidableEq, Repr

/-- The loop of lines 125-135 over the keys of the sorted selector. -/
def collect_results (env : Env) (c : Collection) (max_results : Nat) :
    List Nat → Candidates → Except Error Candidates
  | [], st => .ok st
  | seq_id :: rest, st =>
    if st.total_results < max_results then
      if seq_id ∈ st.dedup_seq_ids then collect_results env c max_results rest st
      else
        match env.parse (c.store.get (get_seq_id_key (seq_id % U32))) with
        | none => .error .parse_error
        | some document =>
          collect_results env c max_results rest
            { results := st.results ++ [(seq_id, document)],
              total_results := st.total_results + 1,
              dedup_seq_ids := seq_id :: st.dedup_seq_ids }
    else .ok st

/-- The enumeration `token_ordering`, the ranking hint of the fuzzy search. -/
inductive token_ordering
  | FREQUENCY
  | MAX_SCORE
  deriving DecidableEq, Repr

/-- The parts of `search` that are not in the sources: the fuzzy search of the
trie `art_fuzzy_search(t, key, key_len, max_cost, max_words, token_order, prefix)`,
the scorer `MatchScore::match_score`, the constant `MAX_SEARCH_TOKENS`, and what
is read outside a vector: `junk_cost` at `costs[token_index]`, `junk_token` at
`tokens[i]`. -/
structure SearchEnv where
  art_fuzzy_search :
    art_tree → String → Nat → Nat → Nat → token_ordering → Bool → List art_leaf
  match_score : Nat → List (List Nat) → MatchScore
  max_search_tokens : Nat
  junk_cost : Nat
  junk_token : String

/-- One turn of the loop of `search_candidates` (lines 93-138) for the
suggestion number `n`: the updated state, and whether the loop ends (`break`). -/
def candidates_step (env : Env) (senv : SearchEnv) (c : Collection)
    (token_leaves : List (List art_leaf)) (max_results : Nat) (n : Nat) (st : Candidates) :
    Except Error (Candidates × Bool) :=
  match next_suggestion token_leaves n with
  | [] => .ok (st, false)
  | first :: others =>
    if first.ids.length = 0 then .ok (st, false)
    else
      match score_results senv.match_score env.junk senv.max_search_tokens c.doc_scores
          (first :: others)
          (others.foldl (fun result_ids leaf => Intersection_scalar result_ids leaf.ids)
            first.ids) with
      | .error e => .error e
      | .ok adds =>
        match collect_results env c max_results
            (Topster.sorted_keys
              (adds.foldl (fun topster p => topster.add p.1 p.2) { entries := [] })) st with
        | .error e => .error e
        | .ok st2 => .ok (st2, decide (max_results ≤ st2.total_results))

/-- The loop of `search_candidates` with `k` turns left before `n` reaches
`combination_limit`. -/
def candidates_loop (env : Env) (senv : SearchEnv) (c : Collection)
    (token_leaves : List (List art_leaf)) (max_results : Nat) :
    Nat → Candidates → Except Error Candidates
  | 0, st => .ok st
  | k + 1, st =>
    if ((combination_limit - (k + 1) : Nat) : Int) < accumulate_product token_leaves then
      match candidates_step env senv c token_leaves max_results
          (combination_limit - (k + 1)) st with
      | .error e => .error e
      | .ok (st2, true) => .ok st2
      | .ok (st2, false) => candidates_loop env senv c token_leaves max_results k st2
    else .ok st

/-- The function `Collection::search_candidates`: `results` and `total_results`
afterwards, or the exception. -/
def Collection.search_candidates (env : Env) (senv : SearchEnv) (c : Collection)
    (token_leaves : List (List art_leaf)) (results : List (Nat × Json)) (total_results : Nat)
    (max_results : Nat) : Except Error (List (Nat × Json) × Nat) :=
  match candidates_loop env senv c token_leaves max_results combination_limit
      { results := results, total_results := total_results, dedup_seq_ids := [] } with
  | .error e => .error e
  | .ok st => .ok (st.results, st.total_results)

/-! ## `Collection::search` -/

/-- Modelled from the spec: `StringUtils::tokenize(query, tokens, " ", true)`:
the split on the space character with empty pieces dropped. -/
def StringUtils_tokenize (s : String) : List String := split_on_space s.data []

/-- The value of `max_cost` (line 157) for an `int` `num_typos`. -/
def max_cost_of (num_typos : Int) : Nat :=
  if num_typos < 0 ∨ num_typos > 2 then 2 else num_typos.toNat

/-- The vector `all_costs` (lines 170-174): the costs `0 .. max_cost`. -/
def all_costs (max_cost : Nat) : List Nat := List.range (max_cost + 1)

/-- The entry of a key in the map `token_cache`. -/
def cache_find : List (String × List art_leaf) → String → Option (List art_leaf)
  | [], _ => none
  | (k, v) :: rest, key => if k = key then some v else cache_find rest key

/-- The assignment `token_to_count[token] = count` on a map kept as a list of
entries in order of first insertion. -/
def count_set : List (String × Nat) → String → Nat → List (String × Nat)
  | [], token, count => [(token, count)]
  | (k, v) :: rest, token, count =>
    if k = token then (k, count) :: rest else (k, v) :: count_set rest token count

/-- The variables of `search` that its loops read and write, and a flag that
records whether a vector was read outside its bounds. -/
structure SearchState where
  tokens : List String
  token_to_costs : List (List Nat)
  token_cache : List (String × List art_leaf)
  token_to_count : List (String × Nat)
  n : Int
  N : Int
  costs : List Nat
  token_leaves : List (List art_leaf)
  token_index : Nat
  retry_with_larger_cost : Bool
  results : List (Nat × Json)
  total_results : Nat
  out_of_bounds : Bool
  deriving DecidableEq, Repr

/-- The read `costs[token_index]`; outside the vector the code reads whatever
the memory holds there, here `junk_cost`. -/
def read_cost (senv : SearchEnv) (costs : List Nat) (token_index : Nat) : Nat :=
  (costs.get? token_index).getD senv.junk_cost

/-- The leaves for the token at `token_index` (lines 203-217): from the cache,
or from the fuzzy search of the trie. -/
def token_candidates (senv : SearchEnv) (c : Collection) (token_order : token_ordering)
    (prefix_search : Bool)
    (st : SearchState) : List art_leaf :=
  match cache_find st.token_cache
      (st.tokens.getD st.token_index "" ++ to_string (read_cost senv st.costs st.token_index)) with
  | some leaves => leaves
  | none =>
    senv.art_fuzzy_search c.t (st.tokens.getD st.token_index "")
      (if prefix_search then (st.tokens.getD st.token_index "").utf8ByteSize
       else (st.tokens.getD st.token_index "").utf8ByteSize + 1)
      (read_cost senv st.costs st.token_index) 3 token_order prefix_search

/-- The token index after `token_index--`, on `size_t`. -/
def decrement (token_index : Nat) : Nat := (token_index + SIZE_T - 1) % SIZE_T

/-- The token index after `token_index++`, on `size_t`. -/
def increment (token_index : Nat) : Nat := (token_index + 1) % SIZE_T

/-- One turn of the loop over the tokens (lines 201-249), entered with
`token_index < tokens.size()`: the state afterwards, and whether the loop ends
(`break`). -/
def token_step (senv : SearchEnv) (c : Collection) (max_cost : Nat)
    (token_order : token_ordering) (prefix_search : Bool) (st : SearchState) : SearchState × Bool :=
  if token_candidates senv c token_order prefix_search st ≠ [] then
    ({ st with
        token_cache :=
          if (cache_find st.token_cache
                (st.tokens.getD st.token_index ""
                  ++ to_string (read_cost senv st.costs st.token_index))).isSome
          then st.token_cache
          else st.token_cache ++
            [(st.tokens.getD st.token_index ""
                ++ to_string (read_cost senv st.costs st.token_index),
              token_candidates senv c token_order prefix_search st)],
        token_leaves := st.token_leaves ++ [token_candidates senv c token_order prefix_search st],
        token_to_count :=
          count_set st.token_to_count (st.tokens.getD st.token_index "")
            (((token_candidates senv c token_order prefix_search st).head?.map
              (fun leaf => leaf.ids.length)).getD 0),
        token_index := increment st.token_index,
        out_of_bounds := st.out_of_bounds || decide (st.costs.length ≤ st.token_index) },
      false)
  else
    let cost := read_cost senv st.costs st.token_index
    let costs_here := st.token_to_costs.getD st.token_index []
    let found := decide (cost ∈ costs_here)
    let exhausted := found && decide (costs_here.erase cost = [])
    let token_to_costs :=
      if exhausted then st.token_to_costs.eraseIdx st.token_index
      else if found then st.token_to_costs.set st.token_index (costs_here.erase cost)
      else st.token_to_costs
    let tokens := if exhausted then st.tokens.eraseIdx st.token_index else st.tokens
    let token_index := if exhausted then decrement st.token_index else st.token_index
    let out_of_bounds :=
      st.out_of_bounds || decide (st.costs.length ≤ st.token_index)
        || decide (st.costs.length ≤ token_index)
    if read_cost senv st.costs token_index ≠ max_cost then
      ({ st with tokens := tokens, token_to_costs := token_to_costs, n := -1,
                 N := accumulate_product token_to_costs, token_index := token_index,
                 retry_with_larger_cost := true, out_of_bounds := out_of_bounds }, true)
    else
      ({ st with tokens := tokens, token_to_costs := token_to_costs, n := -1,
                 N := accumulate_product token_to_costs, token_index := increment token_index,
                 out_of_bounds := out_of_bounds }, false)

/-- The loop over the tokens (lines 201-249); `none` when `fuel` turns were not
enough. -/
def token_loop (senv : SearchEnv) (c : Collection) (max_cost : Nat)
    (token_order : token_ordering) (prefix_search : Bool) : Nat → SearchState → Option SearchState
  | 0, _ => none
  | fuel + 1, st =>
    if st.token_index < st.tokens.length then
      match token_step senv c max_cost token_order prefix_search st with
      | (st2, true) => some st2
      | (st2, false) => token_loop senv c max_cost token_order prefix_search fuel st2
    else some st

/-- One turn of the loop over the cost combinations (lines 187-263), entered
with `n < N` and `n < combination_limit`: the state afterwards and whether the
loop ends (`break`), the exception of `search_candidates`, or `none` when the
loop over the tokens ran out of fuel. -/
def cost_step (env : Env) (senv : SearchEnv) (c : Collection) (max_cost max_results : Nat)
    (token_order : token_ordering) (prefix_search : Bool) (st : SearchState) :
    Option (Except Error (SearchState × Bool)) :=
  match token_loop senv c max_cost token_order prefix_search (st.tokens.length + 1)
      { st with costs := pick_combination st.token_to_costs st.n.toNat,
                token_leaves := [], token_index := 0, retry_with_larger_cost := false } with
  | none => none
  | some st2 =>
    if st2.token_leaves.length ≠ 0 ∧ st2.retry_with_larger_cost = false then
      match Collection.search_candidates env senv c st2.token_leaves st2.results
          st2.total_results max_results with
      | .error e => some (.error e)
      | .ok (results, total_results) =>
        if 0 < total_results then
          some (.ok ({ st2 with results := results, total_results := total_results }, true))
        else
          some (.ok ({ st2 with results := results, total_results := total_results,
                                n := st2.n + 1 }, false))
    else some (.ok ({ st2 with n := st2.n + 1 }, false))

/-- The loop over the cost combinations (lines 187-263); `none` when `fuel`
turns were not enough. -/
def cost_loop (env : Env) (senv : SearchEnv) (c : Collection) (max_cost max_results : Nat)
    (token_order : token_ordering) (prefix_search : Bool) : Nat → SearchState → Option (Except Error SearchState)
  | 0, _ => none
  | fuel + 1, st =>
    if st.n < st.N ∧ st.n < (combination_limit : Int) then
      match cost_step env senv c max_cost max_results token_order prefix_search st with
      | none => none
      | some (.error e) => some (.error e)
      | some (.ok (st2, true)) => some (.ok st2)
      | some (.ok (st2, false)) =>
        cost_loop env senv c max_cost max_results token_order prefix_search fuel st2
    else some (.ok st)

/-- The order of `std::sort` in the fallback (lines 274-278): descending by
count. -/
def higher_count (a b : String × Nat) : Prop := b.2 ≤ a.2

instance higher_count_decidable : DecidableRel higher_count :=
  fun a b => Nat.decLe b.2 a.2

/-- The entries of `token_to_count` after `std::sort` (lines 269-278), rendered
by a stable sort. -/
def token_count_pairs (st : SearchState) : List (String × Nat) :=
  List.insertionSort higher_count st.token_to_count

/-- The loop of lines 280-284 from `i` on, with `k` turns left. -/
def truncate_loop (senv : SearchEnv) (st : SearchState) : Nat → Nat → String → String
  | 0, _, truncated_query => truncated_query
  | k + 1, i, truncated_query =>
    truncate_loop senv st k (i + 1)
      (if ((st.tokens.get? i).getD senv.junk_token) ∈ st.token_to_count.map Prod.fst
       then truncated_query ++ (" " ++ ((token_count_pairs st).getD i ("", 0)).1)
       else truncated_query)

/-- The query of the fallback (lines 267-284). -/
def truncated_query (senv : SearchEnv) (st : SearchState) : String :=
  truncate_loop senv st ((token_count_pairs st).length - 1) 0 ""

/-- The state in which `search` enters the loop over the cost combinations
(lines 154-185). -/
def initial_state (query : String) (max_cost : Nat) : SearchState :=
  { tokens := (StringUtils_tokenize query).map tolower,
    token_to_costs := (StringUtils_tokenize query).map (fun _ => all_costs max_cost),
    token_cache := [],
    token_to_count := [],
    n := 0,
    N := accumulate_product ((StringUtils_tokenize query).map (fun _ => all_costs max_cost)),
    costs := [],
    token_leaves := [],
    token_index := 0,
    retry_with_larger_cost := false,
    results := [],
    total_results := 0,
    out_of_bounds := false }

/-- The function `Collection::search`: the documents returned, each with the
sequence id it was fetched under, or the exception; `none` when `fuel` was not
enough. The recursive call of line 286 leaves `token_order` and `prefix` at
their defaults, `FREQUENCY` and `false`. -/
def Collection.search (env : Env) (senv : SearchEnv) (c : Collection) :
    Nat → String → Int → Nat → token_ordering → Bool →
      Option (Except Error (List (Nat × Json)))
  | 0, _, _, _, _, _ => none
  | fuel + 1, query, num_typos, num_results, token_order, prefix_search =>
    match cost_loop env senv c (max_cost_of num_typos) (min num_results MAX_RESULTS)
        token_order prefix_search fuel (initial_state query (max_cost_of num_typos)) with
    | none => none
    | some (.error e) => some (.error e)
    | some (.ok st) =>
      if st.results.length = 0 ∧ st.token_to_count.length ≠ 0 then
        Collection.search env senv c fuel (truncated_query senv st) num_typos num_results
          .FREQUENCY false
      else some (.ok st.results)

/-! ## Concrete inputs for `search` -/

/-- An environment for examples in which every input parses to a document with
that input as its title and 0 points, and a document is printed as its title;
a read past the end of a compressed array at index `i` yields `i - 1`. -/
def title_env : Env :=
  { parse := fun s => some (.obj [("title", .str s), ("points", .num 0)]),
    dump := fun d =>
      match d.get_string "title" with
      | .ok title => title
      | .error _ => "",
    tokenize := fun s => split_on_space s.data [],
    junk := fun i => i - 1,
    assign_lhs_first := true }

/-- The collection after `add` of each of the given titles, in order, to a new
collection. -/
def collection_of (titles : List String) : Collection :=
  titles.foldl (fun c title => (Collection.add title_env c title).2) Collection.fresh

/-- A table of edit distances between a few words; every other pair is far
apart. -/
def word_distance (a b : String) : Nat :=
  if a = b then 0
  else if (a = "helo" ∧ b = "hello") ∨ (a = "word" ∧ b = "words") ∨ (a = "words" ∧ b = "word")
  then 1
  else if a = "alpxx" ∧ b = "alpha" then 2
  else 3

/-- The order by number of documents, descending. -/
def more_ids (a b : art_leaf) : Prop := b.ids.length ≤ a.ids.length

instance more_ids_decidable : DecidableRel more_ids :=
  fun a b => Nat.decLe b.ids.length a.ids.length

/-- A fuzzy search for examples, over the words `hello`, `word`, `words`,
`quick`, `brown`, `fox`, `alpha`, `bravo` and `charlie`: the leaves of the words
within `max_cost` edits of the key, most frequent first, at most `max_words` of
them. -/
def demo_fuzzy_search (t : art_tree) (key : String) (_key_len : Nat) (max_cost max_words : Nat)
    (_token_order : token_ordering) (_prefix_search : Bool) : List art_leaf :=
  (List.insertionSort more_ids
    ((["hello", "word", "words", "quick", "brown", "fox", "alpha", "bravo", "charlie"].filter
        (fun w => decide (word_distance key w ≤ max_cost))).filterMap t)).take max_words

/-- An environment of `search` for examples: the fuzzy search
`demo_fuzzy_search`, a scorer that always answers `(1, 1)`, and the value 0 read
at `costs[token_index]` outside the vector. -/
def demo_search_env : SearchEnv :=
  { art_fuzzy_search := demo_fuzzy_search,
    match_score := fun _ _ => { words_present := 1, distance := 1 },
    max_search_tokens := 20,
    junk_cost := 0,
    junk_token := "" }

/-- A query of 58 tokens: `alpxx`, `zzzzzz`, `yyyyyy`, and then `bravo` and
`charlie` in turn, 55 of them. -/
def long_query : String :=
  "alpxx zzzzzz yyyyyy bravo charlie bravo charlie bravo charlie bravo charlie "
    ++ "bravo charlie bravo charlie bravo charlie bravo charlie bravo charlie bravo "
    ++ "charlie bravo charlie bravo charlie bravo charlie bravo charlie bravo charlie "
    ++ "bravo charlie bravo charlie bravo charlie bravo charlie bravo charlie bravo "
    ++ "charlie bravo charlie bravo charlie bravo charlie bravo charlie bravo charlie "
    ++ "bravo charlie bravo"

/-! ## Notions used in the statements about the offset index -/

/-- The amount by which the entry at position `k` is shifted, in the words of the
specification: the sum, over the removed positions `r < k`, of
`offset_index[r+1] - offset_index[r]`. -/
def shift_before (offset_index removed : List Nat) (k : Nat) : Nat :=
  (((List.range k).filter (fun r => decide (r ∈ removed))).map
    (fun r => offset_index.getD (r + 1) 0 - offset_index.getD r 0)).sum

/-- The compacted offset index in the words of the specification: the entries at
the surviving positions, in their order, each lowered by `shift_before`. -/
def compacted (offset_index removed : List Nat) : List Nat :=
  ((List.range offset_index.length).filter (fun k => decide (k ∉ removed))).map
    (fun k => offset_index.getD k 0 - shift_before offset_index removed k)

/-- The positions of a document in a leaf: the slice of `offsets` from
`start_offset` up to `end_offset`. -/
def doc_slice (junk : Nat → Nat) (leaf : art_leaf) (doc_id : Nat) : List Nat :=
  (leaf.offsets.drop (start_offset junk leaf doc_id)).take
    (end_offset junk leaf doc_id - start_offset junk leaf doc_id)

/-! ## Notions used in the statements about `next_suggestion` -/

/-- The mixed-radix digits of `n` for the radices `sizes`, the last radix the
least significant: digit `i` is `n` divided by the product of the radices after
`i`, modulo radix `i`. -/
def mixed_radix_digits : List Nat → Nat → List Nat
  | [], _ => []
  | s :: rest, n => (n / rest.prod) % s :: mixed_radix_digits rest n

/-- The number with the mixed-radix digits `q` for the radices `sizes`: the sum
of each digit times the product of the radices after it. -/
def mixed_radix_value : List Nat → List Nat → Nat
  | _ :: rest, q :: qs => q * rest.prod + mixed_radix_value rest qs
  | _, _ => 0

/-! ## Notions used in the statements about the loops of `search` -/

/-- The total number of costs still to try, over all tokens. -/
def cost_sum (token_to_costs : List (List Nat)) : Nat := (token_to_costs.map List.length).sum

/-- A measure of the work left in the loop over the cost combinations: it gets
smaller with every turn that does not end the loop. -/
def cost_measure (st : SearchState) : Nat :=
  11 * cost_sum st.token_to_costs + (10 - st.n).toNat

/-- What holds of the variables of `search` between the turns of its loops, for
a query with the lowercased tokens `toks0`: `tokens` and `token_to_costs` have
the same length, which fits a `size_t`; no cost list is empty; the tokens and the
keys of `token_to_count` are tokens of the query; the keys are distinct. -/
def search_inv (toks0 : List String) (st : SearchState) : Prop :=
  st.tokens.length = st.token_to_costs.length
  ∧ (∀ l ∈ st.token_to_costs, l ≠ [])
  ∧ st.tokens.length < SIZE_T
  ∧ (∀ t ∈ st.tokens, t ∈ toks0)
  ∧ (∀ key ∈ st.token_to_count.map Prod.fst, key ∈ toks0)
  ∧ (st.token_to_count.map Prod.fst).Nodup

/-! ## Scoring: theorems -/

/-- The score in closed form: when the composite term is not negative and fits
32 bits and the static score is a 32-bit value, no 64-bit operation wraps and
the score is the composite term times `2^32 - 1` plus the static score. -/
theorem final_score_of_composite (max_search_tokens : Nat) (m : MatchScore) (s c : Nat)
    (hcomp : composite max_search_tokens m = (c : Int)) (hc : c < U32) (hs : s < U32) :
    final_score max_search_tokens m s = c * 4294967295 + s := by
  unfold final_score
  rw [hcomp]
  unfold U32 at hc hs
  unfold U64 UINT32_MAX
  have h1 : ((c : Int) % ((18446744073709551616 : Nat) : Int)).toNat = c := by
    rw [← Int.natCast_mod, Int.toNat_natCast]
    exact Nat.mod_eq_of_lt (by omega)
  rw [h1]
  have h2 : c * 4294967295 % 18446744073709551616 = c * 4294967295 :=
    Nat.mod_eq_of_lt (by omega)
  rw [h2, Nat.mod_eq_of_lt (by omega)]

/-- The composite term of a match score with `distance ≤ MAX_SEARCH_TOKENS`. -/
theorem composite_of_le (max_search_tokens : Nat) (m : MatchScore)
    (hd : m.distance ≤ max_search_tokens) :
    composite max_search_tokens m
      = ((m.words_present * 32 + (max_search_tokens - m.distance) : Nat) : Int) := by
  unfold composite
  push_cast [Nat.cast_sub hd]
  ring

/-- The score that the code computes for a match score within its ranges: the
multiplier of the composite term is `UINT32_MAX = 2^32 - 1`. -/
theorem final_score_eq (max_search_tokens : Nat) (m : MatchScore) (s : Nat)
    (hd : m.distance ≤ max_search_tokens)
    (hc : m.words_present * 32 + (max_search_tokens - m.distance) < U32) (hs : s < U32) :
    final_score max_search_tokens m s
      = (m.words_present * 32 + (max_search_tokens - m.distance)) * (2 ^ 32 - 1) + s := by
  rw [final_score_of_composite max_search_tokens m s _ (composite_of_le _ _ hd) hc hs]
  norm_num

/-- The order that the code does keep between two different composite terms:
the greater term never gets the smaller score, and it gets a strictly greater one
unless the terms differ by one, its own static score is 0 and the other static
score is `2^32 - 1`. -/
theorem final_score_composite_order (max_search_tokens : Nat) (m1 m2 : MatchScore)
    (s1 s2 c1 c2 : Nat) (h1 : composite max_search_tokens m1 = (c1 : Int))
    (h2 : composite max_search_tokens m2 = (c2 : Int)) (hc1 : c1 < U32) (hc2 : c2 < U32)
    (hs1 : s1 < U32) (hs2 : s2 < U32) (hlt : c2 < c1) :
    final_score max_search_tokens m2 s2 ≤ final_score max_search_tokens m1 s1
    ∧ (c2 + 1 < c1 ∨ 0 < s1 ∨ s2 < UINT32_MAX →
        final_score max_search_tokens m2 s2 < final_score max_search_tokens m1 s1) := by
  rw [final_score_of_composite _ _ _ _ h1 hc1 hs1, final_score_of_composite _ _ _ _ h2 hc2 hs2]
  unfold U32 at hc1 hc2 hs1 hs2
  unfold UINT32_MAX
  constructor
  · omega
  · intro h
    omega

/-- The loop of `score_results` succeeds when every document has a static score,
and then hands one pair per document to the selector. -/
theorem score_results_ok (match_score : Nat → List (List Nat) → MatchScore) (junk : Nat → Nat)
    (max_search_tokens : Nat) (doc_scores : Nat → Option Nat) (qs : List art_leaf)
    (result_ids : List Nat) (hall : ∀ d ∈ result_ids, (doc_scores d).isSome = true) :
    score_results match_score junk max_search_tokens doc_scores qs result_ids
      = .ok (result_ids.map (fun d =>
          (d, final_score max_search_tokens (mscore_of match_score junk qs d)
                ((doc_scores d).getD 0)))) := by
  induction result_ids with
  | nil => rfl
  | cons d ds ih =>
    have hd : (doc_scores d).isSome = true := hall d (List.mem_cons_self _ _)
    obtain ⟨s, hs⟩ := Option.isSome_iff_exists.mp hd
    have ih2 := ih (fun x hx => hall x (List.mem_cons_of_mem _ hx))
    simp only [score_results, score_one, hs, ih2, List.map_cons, Option.getD_some]

/-- C1, at a failing input: for the match score `(1, 1)`, `MAX_SEARCH_TOKENS =
20` and the static score 10, `score_results` hands the selector
`51 * (2^32 - 1) + 10 = 219043332055`, which is not the value
`51 * 2^32 + 10` of the claimed formula: the multiplier in the code is
`UINT32_MAX`. -/
theorem score_results_multiplier_failing_input :
    score_results (fun _ _ => { words_present := 1, distance := 1 }) (fun _ => 0) 20
        (fun _ => some 10)
        [{ ids := [7], offset_index := [0], offsets := [0], max_score := 10 }] [7]
      = .ok [(7, 219043332055)]
    ∧ 219043332055 ≠ (1 * 32 + (20 - 1)) * 2 ^ 32 + 10 := by
  refine ⟨?_, by norm_num⟩
  rw [score_results_ok _ _ _ _ _ _ (by simp)]
  simp only [List.map_cons, List.map_nil, Option.getD_some]
  rw [final_score_eq _ _ _ (by simp [mscore_of]) (by simp [mscore_of, U32]) (by simp [U32])]
  simp [mscore_of]

/-- C2, at a failing input: two documents scored in one suggestion of two
leaves, document 1 with match score `(2, 1)` and static score 0, document 2 with
match score `(2, 2)` and static score `2^32 - 1`. The composite term of
document 1 is strictly greater, and both get the same final score: the static
score equalises the order of two different composite terms. -/
theorem score_results_composite_order_failing_input :
    composite 20 { words_present := 2, distance := 2 }
        < composite 20 { words_present := 2, distance := 1 }
    ∧ score_results
        (fun doc_id _ => if doc_id = 1 then { words_present := 2, distance := 1 }
                         else { words_present := 2, distance := 2 })
        (fun _ => 0) 20 (fun doc_id => if doc_id = 1 then some 0 else some 4294967295)
        [{ ids := [1, 2], offset_index := [0, 1], offsets := [0, 0], max_score := 0 },
         { ids := [1, 2], offset_index := [0, 1], offsets := [1, 2], max_score := 0 }] [1, 2]
      = .ok [(1, 356482285485), (2, 356482285485)] := by
  refine ⟨by decide, ?_⟩
  rw [score_results_ok _ _ _ _ _ _ (by simp)]
  simp only [List.map_cons, List.map_nil]
  rw [final_score_eq _ _ _ (by simp [mscore_of]) (by simp [mscore_of, U32]) (by simp [U32]),
    final_score_eq _ _ _ (by simp [mscore_of]) (by simp [mscore_of, U32]) (by simp [U32])]
  simp [mscore_of]

/-- C3: two documents `a` and `b` scored in one query suggestion with equal
match scores (composite term within 32 bits) get final scores in the strict
order of their static scores; a suggestion of one leaf always has the shortcut
match score `(1, 1)`, whatever the scorer is, so there the order of the static
scores always decides. -/
theorem score_results_static_score_decides
    (match_score : Nat → List (List Nat) → MatchScore) (junk : Nat → Nat)
    (max_search_tokens : Nat) (doc_scores : Nat → Option Nat) (qs : List art_leaf)
    (result_ids : List Nat) (a b sa sb : Nat)
    (hmax : max_search_tokens < 2147483648)
    (hall : ∀ d ∈ result_ids, (doc_scores d).isSome = true)
    (ha : a ∈ result_ids) (hb : b ∈ result_ids)
    (hsa : doc_scores a = some sa) (hsb : doc_scores b = some sb)
    (h32 : sa < U32) (hlt : sb < sa)
    (hshape : qs.length = 1 ∨
      (mscore_of match_score junk qs a = mscore_of match_score junk qs b
        ∧ 0 ≤ composite max_search_tokens (mscore_of match_score junk qs a)
        ∧ composite max_search_tokens (mscore_of match_score junk qs a) < (U32 : Int))) :
    (qs.length = 1 → ∀ scorer d,
        mscore_of scorer junk qs d = { words_present := 1, distance := 1 })
    ∧ ∃ ps fa fb,
        score_results match_score junk max_search_tokens doc_scores qs result_ids = .ok ps
        ∧ (a, fa) ∈ ps ∧ (b, fb) ∈ ps ∧ fb < fa := by
  refine ⟨fun h1 scorer d => by simp [mscore_of, h1], ?_⟩
  refine ⟨_, _, _, score_results_ok _ _ _ _ _ _ hall,
    List.mem_map.mpr ⟨a, ha, rfl⟩, List.mem_map.mpr ⟨b, hb, rfl⟩, ?_⟩
  have key : ∃ c : Nat, c < U32
      ∧ composite max_search_tokens (mscore_of match_score junk qs a) = (c : Int)
      ∧ composite max_search_tokens (mscore_of match_score junk qs b) = (c : Int) := by
    rcases hshape with h1 | ⟨hm, h0, hlt32⟩
    · refine ⟨32 + max_search_tokens - 1, by unfold U32; omega, ?_, ?_⟩ <;>
        simp only [mscore_of, h1, if_true, composite] <;> omega
    · refine ⟨(composite max_search_tokens (mscore_of match_score junk qs a)).toNat, ?_, ?_, ?_⟩
      · have := Int.toNat_of_nonneg h0
        omega
      · exact (Int.toNat_of_nonneg h0).symm
      · rw [← hm]
        exact (Int.toNat_of_nonneg h0).symm
  obtain ⟨c, hc, hca, hcb⟩ := key
  have hsb32 : sb < U32 := lt_trans hlt h32
  rw [hsa, hsb, Option.getD_some, Option.getD_some,
    final_score_of_composite _ _ _ _ hca hc h32, final_score_of_composite _ _ _ _ hcb hc hsb32]
  omega

/-- C3, witness: a suggestion of one leaf holding documents 1 and 2 with static
scores 50 and 10. -/
theorem score_results_static_score_decides_witness :
    (([{ ids := [1, 2], offset_index := [0, 1], offsets := [0, 0], max_score := 50 }] :
        List art_leaf).length = 1 → ∀ (scorer : Nat → List (List Nat) → MatchScore) d,
        mscore_of scorer (fun _ => 0)
          [{ ids := [1, 2], offset_index := [0, 1], offsets := [0, 0], max_score := 50 }] d
          = { words_present := 1, distance := 1 })
    ∧ ∃ ps fa fb,
        score_results (fun _ _ => { words_present := 0, distance := 0 }) (fun _ => 0) 20
          (fun d => if d = 1 then some 50 else some 10)
          [{ ids := [1, 2], offset_index := [0, 1], offsets := [0, 0], max_score := 50 }] [1, 2]
          = .ok ps
        ∧ (1, fa) ∈ ps ∧ (2, fb) ∈ ps ∧ fb < fa :=
  score_results_static_score_decides (fun _ _ => { words_present := 0, distance := 0 })
    (fun _ => 0) 20 (fun d => if d = 1 then some 50 else some 10)
    [{ ids := [1, 2], offset_index := [0, 1], offsets := [0, 0], max_score := 50 }] [1, 2]
    1 2 50 10 (by decide) (by decide) (by decide) (by decide) rfl rfl (by decide) (by decide)
    (Or.inl rfl)

/-! ## Strings: lemmas -/

theorem data_get_seq_id_key (n : Nat) :
    (get_seq_id_key n).data = 'S' :: (to_string n).data := by
  simp [get_seq_id_key, SEQ_ID_PREFIX, String.data_append]

theorem data_get_id_key (id : String) : (get_id_key id).data = 'I' :: id.data := by
  simp [get_id_key, ID_PREFIX, String.data_append]

/-- The two kinds of store keys never collide. -/
theorem get_id_key_ne_get_seq_id_key (id : String) (n : Nat) :
    get_id_key id ≠ get_seq_id_key n := by
  intro h
  have h2 := congrArg String.data h
  rw [data_get_id_key, data_get_seq_id_key] at h2
  simp at h2

theorem get_id_key_injective (a b : String) (h : get_id_key a = get_id_key b) : a = b := by
  have h2 := congrArg String.data h
  rw [data_get_id_key, data_get_id_key] at h2
  exact String.ext (List.cons.inj h2).2

/-! ## `Collection::add`: what a successful call did -/

/-- A call of `add` that returns an id went through every step: the input
parsed, the id and the title are strings, the points are a number, the loop over
the tokens ended without exception; and the state afterwards is the one these
steps build. -/
theorem add_ok_elim (env : Env) (c : Collection) (json_str id : String)
    (h : (Collection.add env c json_str).1 = .ok id) :
    ∃ parsed document title points t,
      env.parse json_str = some parsed
      ∧ with_id parsed (to_string ((c.seq_id + 1) % U32)) = .ok document
      ∧ document.get_string "id" = .ok id
      ∧ document.get_string "title" = .ok title
      ∧ document.get_number "points" = .ok points
      ∧ index_tokens document ((c.seq_id + 1) % U32) (token_to_offsets (env.tokenize title)) c.t
          = (.ok (), t)
      ∧ (Collection.add env c json_str).2.seq_id = (c.seq_id + 1) % U32
      ∧ (Collection.add env c json_str).2.store
          = (c.store.insert (get_seq_id_key ((c.seq_id + 1) % U32)) (env.dump document)).insert
              (get_id_key id) (to_string ((c.seq_id + 1) % U32))
      ∧ (Collection.add env c json_str).2.t = t
      ∧ (Collection.add env c json_str).2.doc_scores
          = fun k => if k = (c.seq_id + 1) % U32 then some points else c.doc_scores k := by
  unfold Collection.add at h ⊢
  cases hp : env.parse json_str with
  | none => simp [hp] at h
  | some parsed =>
    simp only [hp, Collection.next_seq_id] at h ⊢
    cases hw : with_id parsed (to_string ((c.seq_id + 1) % U32)) with
    | error e => simp [hw] at h
    | ok document =>
      simp only [hw] at h ⊢
      cases hid : document.get_string "id" with
      | error e => simp [hid] at h
      | ok id2 =>
        simp only [hid] at h ⊢
        cases htitle : document.get_string "title" with
        | error e => simp [htitle] at h
        | ok title =>
          simp only [htitle] at h ⊢
          cases hidx : index_tokens document ((c.seq_id + 1) % U32)
              (token_to_offsets (env.tokenize title)) c.t with
          | mk r t =>
            cases r with
            | error e => simp [hidx] at h
            | ok u =>
              simp only [hidx] at h ⊢
              cases hpts : document.get_number "points" with
              | error e => simp [hpts] at h
              | ok points =>
                simp only [hpts] at h ⊢
                have hidd : id2 = id := by simpa using h
                subst hidd
                exact ⟨parsed, document, title, points, t, rfl, hw, hid, htitle, hpts, hidx,
                  trivial, rfl, rfl, rfl⟩

theorem count_eq_zero_iff (d : Json) (key : String) :
    d.count key = 0 ↔ d.field key = none := by
  unfold Json.count
  cases d.field key <;> simp

theorem get_string_ok_iff (d : Json) (key s : String) :
    d.get_string key = .ok s ↔ d.field key = some (.str s) := by
  unfold Json.get_string
  cases hf : d.field key with
  | none => simp
  | some v => cases v <;> simp

theorem get_number_ok_iff (d : Json) (key : String) (n : Nat) :
    d.get_number key = .ok n ↔ d.field key = some (.num n) := by
  unfold Json.get_number
  cases hf : d.field key with
  | none => simp
  | some v => cases v <;> simp

/-- The document that `add` stores: the parsed one when it has an `id`;
otherwise the parsed one with the member `id` added and every other member
unchanged. -/
theorem with_id_ok (parsed document : Json) (s : String)
    (h : with_id parsed s = .ok document) :
    (parsed.field "id" ≠ none ∧ document = parsed)
    ∨ (parsed.field "id" = none ∧ document.field "id" = some (.str s)
        ∧ ∀ key, key ≠ "id" → document.field key = parsed.field key) := by
  unfold with_id at h
  by_cases hc : parsed.count "id" = 0
  · right
    refine ⟨(count_eq_zero_iff _ _).mp hc, ?_⟩
    rw [if_pos hc] at h
    cases parsed with
    | null =>
      simp only [Json.set, Except.ok.injEq] at h
      subst h
      refine ⟨by simp [Json.field], fun key hk => ?_⟩
      simp [Json.field, Ne.symm hk]
    | obj fields =>
      simp only [Json.set, Except.ok.injEq] at h
      subst h
      refine ⟨by simp [Json.field], fun key hk => ?_⟩
      simp [Json.field, List.find?_cons, Ne.symm hk]
    | other => simp [Json.set] at h
  · left
    rw [if_neg hc] at h
    refine ⟨fun hn => hc ((count_eq_zero_iff _ _).mpr hn), ?_⟩
    simpa using h.symm

/-- C4: when `add` accepts a document, it returns the document's own `id` when
the document has one, and otherwise the decimal string of the sequence id it has
just minted, which it also writes into the `id` member of the stored document
(the other members stay as they were); afterwards the store maps
`SEQ_ID_PREFIX + decimal(seq_id)` to the printed document and `ID_PREFIX + id`
to `decimal(seq_id)`. -/
theorem add_returns_id_and_persists (env : Env) (c : Collection) (json_str id : String)
    (h : (Collection.add env c json_str).1 = .ok id) :
    ∃ parsed document,
      env.parse json_str = some parsed
      ∧ (∀ own, parsed.field "id" = some own → own = JVal.str id ∧ document = parsed)
      ∧ (parsed.field "id" = none →
          id = to_string ((c.seq_id + 1) % U32)
          ∧ document.field "id" = some (.str (to_string ((c.seq_id + 1) % U32)))
          ∧ ∀ key, key ≠ "id" → document.field key = parsed.field key)
      ∧ (Collection.add env c json_str).2.store (get_seq_id_key ((c.seq_id + 1) % U32))
          = some (env.dump document)
      ∧ (Collection.add env c json_str).2.store (get_id_key id)
          = some (to_string ((c.seq_id + 1) % U32)) := by
  obtain ⟨parsed, document, title, points, t, hp, hw, hid, -, -, -, -, hstore, -, -⟩ :=
    add_ok_elim env c json_str id h
  have hidf := (get_string_ok_iff _ _ _).mp hid
  refine ⟨parsed, document, hp, ?_, ?_, ?_, ?_⟩
  · intro own hown
    rcases with_id_ok _ _ _ hw with ⟨-, hdoc⟩ | ⟨hnone, -, -⟩
    · subst hdoc
      rw [hown] at hidf
      exact ⟨Option.some.inj hidf, rfl⟩
    · rw [hnone] at hown
      cases hown
  · intro hnone
    rcases with_id_ok _ _ _ hw with ⟨hsome, -⟩ | ⟨-, hfield, hrest⟩
    · exact absurd hnone hsome
    · rw [hfield] at hidf
      have : to_string ((c.seq_id + 1) % U32) = id := by simpa using hidf
      exact ⟨this.symm, hfield, hrest⟩
  · rw [hstore]
    simp [Store.insert, (get_id_key_ne_get_seq_id_key _ _).symm]
  · rw [hstore]
    simp [Store.insert]

/-- C4, witness: a document without `id` added to a new collection gets the id
`1`. -/
theorem add_returns_id_and_persists_witness :
    (Collection.add demo_env Collection.fresh "new").1 = .ok "1"
    ∧ ∃ parsed document,
      demo_env.parse "new" = some parsed
      ∧ (∀ own, parsed.field "id" = some own → own = JVal.str "1" ∧ document = parsed)
      ∧ (parsed.field "id" = none →
          "1" = to_string ((Collection.fresh.seq_id + 1) % U32)
          ∧ document.field "id" = some (.str (to_string ((Collection.fresh.seq_id + 1) % U32)))
          ∧ ∀ key, key ≠ "id" → document.field key = parsed.field key)
      ∧ (Collection.add demo_env Collection.fresh "new").2.store
            (get_seq_id_key ((Collection.fresh.seq_id + 1) % U32))
          = some (demo_env.dump document)
      ∧ (Collection.add demo_env Collection.fresh "new").2.store (get_id_key "1")
          = some (to_string ((Collection.fresh.seq_id + 1) % U32)) :=
  ⟨by decide, add_returns_id_and_persists demo_env Collection.fresh "new" "1" (by decide)⟩

/-! ## The map `token_to_offsets` -/

theorem offsets_of_push_offset (m : List (String × List Nat)) (token : String) (i : Nat)
    (t : String) :
    offsets_of (push_offset m token i) t
      = if t = token then some ((offsets_of m t).getD [] ++ [i]) else offsets_of m t := by
  induction m with
  | nil =>
    by_cases h : t = token
    · simp [push_offset, offsets_of, h]
    · simp [push_offset, offsets_of, h, Ne.symm h]
  | cons e rest ih =>
    obtain ⟨k, v⟩ := e
    by_cases hk : k = token
    · subst hk
      by_cases h : t = k
      · simp [push_offset, offsets_of, h]
      · simp [push_offset, offsets_of, h, Ne.symm h]
    · by_cases h : t = token
      · subst h
        simp [push_offset, offsets_of, hk, ih]
      · by_cases h2 : k = t
        · simp [push_offset, offsets_of, hk, h, h2]
        · simp [push_offset, offsets_of, hk, h, h2, ih]

theorem offsets_of_isSome_iff (m : List (String × List Nat)) (t : String) :
    (offsets_of m t).isSome = true ↔ t ∈ m.map Prod.fst := by
  induction m with
  | nil => simp [offsets_of]
  | cons e rest ih =>
    obtain ⟨k, v⟩ := e
    by_cases hk : k = t
    · simp [offsets_of, hk]
    · simp [offsets_of, hk, ih, Ne.symm hk]

theorem offsets_of_eq_none_iff (m : List (String × List Nat)) (t : String) :
    offsets_of m t = none ↔ t ∉ m.map Prod.fst := by
  rw [← offsets_of_isSome_iff]
  cases offsets_of m t <;> simp

theorem mem_of_offsets_of (m : List (String × List Nat)) (t : String) (offs : List Nat)
    (h : offsets_of m t = some offs) : (t, offs) ∈ m := by
  induction m with
  | nil => simp [offsets_of] at h
  | cons e rest ih =>
    obtain ⟨k, v⟩ := e
    by_cases hk : k = t
    · simp only [offsets_of, hk, if_true, Option.some.injEq] at h
      simp [hk, h]
    · simp only [offsets_of, hk, if_false] at h
      exact List.mem_cons_of_mem _ (ih h)

theorem offsets_of_of_mem (m : List (String × List Nat)) (t : String) (offs : List Nat)
    (hnd : (m.map Prod.fst).Nodup) (h : (t, offs) ∈ m) : offsets_of m t = some offs := by
  induction m with
  | nil => simp at h
  | cons e rest ih =>
    obtain ⟨k, v⟩ := e
    simp only [List.map_cons, List.nodup_cons] at hnd
    rcases List.mem_cons.mp h with heq | hmem
    · cases heq
      simp [offsets_of]
    · have hk : k ≠ t := by
        intro hkt
        subst hkt
        exact hnd.1 (List.mem_map.mpr ⟨(k, offs), hmem, rfl⟩)
      simp only [offsets_of, hk, if_false]
      exact ih hnd.2 hmem

theorem nodup_push_offset (m : List (String × List Nat)) (token : String) (i : Nat)
    (hnd : (m.map Prod.fst).Nodup) : ((push_offset m token i).map Prod.fst).Nodup := by
  induction m with
  | nil => simp [push_offset]
  | cons e rest ih =>
    obtain ⟨k, v⟩ := e
    simp only [List.map_cons, List.nodup_cons] at hnd
    by_cases hk : k = token
    · simp only [push_offset, hk, if_true, List.map_cons, List.nodup_cons]
      rw [← hk]
      exact hnd
    · simp only [push_offset, hk, if_false, List.map_cons, List.nodup_cons]
      refine ⟨?_, ih hnd.2⟩
      rw [← offsets_of_isSome_iff, offsets_of_push_offset]
      simp only [hk, if_false]
      rw [offsets_of_isSome_iff]
      exact hnd.1

theorem occurrences_ge (words : List String) (i : Nat) (t : String) :
    ∀ j ∈ occurrences words i t, i ≤ j := by
  induction words generalizing i with
  | nil => simp [occurrences]
  | cons w rest ih =>
    intro j hj
    unfold occurrences at hj
    split at hj
    · rcases List.mem_cons.mp hj with h | h
      · omega
      · have := ih (i + 1) j h
        omega
    · have := ih (i + 1) j hj
      omega

theorem occurrences_eq_nil (words : List String) (i : Nat) (t : String) (h : t ∉ words) :
    occurrences words i t = [] := by
  induction words generalizing i with
  | nil => rfl
  | cons w rest ih =>
    simp only [List.mem_cons, not_or] at h
    simp [occurrences, Ne.symm h.1, ih (i + 1) h.2]

/-- The list `occurrences words i t` is strictly ascending. -/
theorem occurrences_pairwise (words : List String) (i : Nat) (t : String) :
    (occurrences words i t).Pairwise (fun a b => a < b) := by
  induction words generalizing i with
  | nil => simp [occurrences]
  | cons w rest ih =>
    unfold occurrences
    split
    · refine List.pairwise_cons.mpr ⟨fun j hj => ?_, ih (i + 1)⟩
      have := occurrences_ge rest (i + 1) t j hj
      omega
    · exact ih (i + 1)

/-- The list `occurrences words i t` holds exactly the indices, counted from
`i`, of the words equal to `t`. -/
theorem mem_occurrences (words : List String) (i : Nat) (t : String) (j : Nat) :
    j ∈ occurrences words i t ↔ i ≤ j ∧ words.get? (j - i) = some t := by
  induction words generalizing i with
  | nil => simp [occurrences]
  | cons w rest ih =>
    unfold occurrences
    by_cases hw : w = t
    · simp only [hw, if_true, List.mem_cons, ih (i + 1)]
      constructor
      · rintro (h | ⟨h1, h2⟩)
        · subst h
          simp
        · refine ⟨by omega, ?_⟩
          have : j - i = (j - (i + 1)) + 1 := by omega
          rw [this, List.get?_cons_succ]
          exact h2
      · rintro ⟨h1, h2⟩
        by_cases hji : j = i
        · exact Or.inl hji
        · right
          refine ⟨by omega, ?_⟩
          have : j - i = (j - (i + 1)) + 1 := by omega
          rw [this, List.get?_cons_succ] at h2
          exact h2
    · simp only [hw, if_false, ih (i + 1)]
      constructor
      · rintro ⟨h1, h2⟩
        refine ⟨by omega, ?_⟩
        have : j - i = (j - (i + 1)) + 1 := by omega
        rw [this, List.get?_cons_succ]
        exact h2
      · rintro ⟨h1, h2⟩
        have hji : j ≠ i := by
          intro hji
          subst hji
          simp at h2
          exact hw h2
        refine ⟨by omega, ?_⟩
        have : j - i = (j - (i + 1)) + 1 := by omega
        rw [this, List.get?_cons_succ] at h2
        exact h2

theorem nodup_token_to_offsets_from (tokens : List String) (i : Nat)
    (m : List (String × List Nat)) (hnd : (m.map Prod.fst).Nodup) :
    ((token_to_offsets_from tokens i m).map Prod.fst).Nodup := by
  induction tokens generalizing i m with
  | nil => exact hnd
  | cons w rest ih => exact ih (i + 1) _ (nodup_push_offset m _ i hnd)

theorem offsets_of_token_to_offsets_from (tokens : List String) (i : Nat)
    (m : List (String × List Nat)) (t : String) :
    offsets_of (token_to_offsets_from tokens i m) t
      = if t ∈ tokens.map tolower
        then some ((offsets_of m t).getD [] ++ occurrences (tokens.map tolower) i t)
        else offsets_of m t := by
  induction tokens generalizing i m with
  | nil => simp [token_to_offsets_from]
  | cons w rest ih =>
    simp only [token_to_offsets_from, ih, offsets_of_push_offset, List.map_cons, List.mem_cons,
      occurrences]
    by_cases h1 : t = tolower w
    · subst h1
      by_cases h2 : tolower w ∈ rest.map tolower
      · simp [h2]
      · simp [h2, occurrences_eq_nil _ _ _ h2]
    · simp [h1, Ne.symm h1]

/-- The entry of a token in `token_to_offsets`: the word indices where the
token occurs among the lowercased words, and no entry for any other string. -/
theorem offsets_of_token_to_offsets (tokens : List String) (t : String) :
    offsets_of (token_to_offsets tokens) t
      = if t ∈ tokens.map tolower then some (occurrences (tokens.map tolower) 0 t) else none := by
  unfold token_to_offsets
  rw [offsets_of_token_to_offsets_from]
  simp [offsets_of]

/-! ## The loop over the entries of `token_to_offsets` -/

/-- When `document["points"]` is a number, the loop makes one call of
`art_insert` per entry of the map, in order, and ends without exception. -/
theorem index_tokens_ok (document : Json) (seq_id points : Nat)
    (hpts : document.get_number "points" = .ok points)
    (m : List (String × List Nat)) (t : art_tree) :
    index_tokens document seq_id m t
      = (.ok (), m.foldl (fun tree e =>
          art_insert tree e.1 { id := seq_id, score := points, offsets := e.2 } 0) t) := by
  induction m generalizing t with
  | nil => rfl
  | cons e rest ih =>
    obtain ⟨k, v⟩ := e
    simp only [index_tokens, hpts, List.foldl_cons]
    rw [ih]
    rfl

/-- When `document["points"]` is not a number, the loop leaves the trie as it
is: it throws in its first turn, before any insert. -/
theorem index_tokens_error (document : Json) (seq_id : Nat) (e : Error)
    (hpts : document.get_number "points" = .error e)
    (m : List (String × List Nat)) (t : art_tree) :
    (index_tokens document seq_id m t).2 = t := by
  cases m with
  | nil => rfl
  | cons entry rest =>
    obtain ⟨k, v⟩ := entry
    simp only [index_tokens, hpts]

/-- The trie after one insert per entry of a map without repeated keys: the leaf
of each key of the map got the record of the document appended once, every
other key is as before. -/
theorem foldl_art_insert_apply (seq_id points : Nat) (m : List (String × List Nat))
    (hnd : (m.map Prod.fst).Nodup) (t : art_tree) (k : String) :
    (m.foldl (fun tree e =>
        art_insert tree e.1 { id := seq_id, score := points, offsets := e.2 } 0) t) k
      = match offsets_of m k with
        | some offs => some (leaf_append (t k) { id := seq_id, score := points, offsets := offs })
        | none => t k := by
  induction m generalizing t with
  | nil => rfl
  | cons e rest ih =>
    obtain ⟨k0, v0⟩ := e
    simp only [List.map_cons, List.nodup_cons] at hnd
    rw [List.foldl_cons, ih hnd.2]
    by_cases hk : k0 = k
    · subst hk
      rw [(offsets_of_eq_none_iff rest k0).mpr hnd.1]
      simp [offsets_of, art_insert]
    · simp only [offsets_of, hk, if_false, art_insert, Ne.symm hk]

/-- C5: when `add` accepts a document with title words `w_0 .. w_(n-1)`, the map
it iterates has exactly one entry per distinct lowercased word, each entry
holding the strictly ascending list of all indices `i` with
`lowercase(w_i) = t`; `add` makes exactly one `art_insert` per entry, carrying
the new sequence id, the points as score and that list as offsets; so the
sequence id is appended once to the leaf of each of its tokens with these
positions, the other keys of the trie are untouched, and `doc_scores[seq_id]`
is the points. -/
theorem add_indexes_each_distinct_token_once (env : Env) (c : Collection)
    (json_str id : String) (h : (Collection.add env c json_str).1 = .ok id) :
    ∃ parsed title points,
      env.parse json_str = some parsed
      ∧ parsed.get_string "title" = .ok title
      ∧ parsed.get_number "points" = .ok points
      ∧ ((token_to_offsets (env.tokenize title)).map Prod.fst).Nodup
      ∧ (∀ t, t ∈ (token_to_offsets (env.tokenize title)).map Prod.fst
            ↔ t ∈ (env.tokenize title).map tolower)
      ∧ (∀ t offs, (t, offs) ∈ token_to_offsets (env.tokenize title) →
            offs.Pairwise (fun a b => a < b)
            ∧ ∀ i, i ∈ offs ↔ ((env.tokenize title).map tolower).get? i = some t)
      ∧ (Collection.add env c json_str).2.t
          = (token_to_offsets (env.tokenize title)).foldl (fun tree e =>
              art_insert tree e.1
                { id := (c.seq_id + 1) % U32, score := points, offsets := e.2 } 0) c.t
      ∧ (∀ t offs, (t, offs) ∈ token_to_offsets (env.tokenize title) →
            (Collection.add env c json_str).2.t t
              = some (leaf_append (c.t t)
                  { id := (c.seq_id + 1) % U32, score := points, offsets := offs }))
      ∧ (∀ t, t ∉ (env.tokenize title).map tolower →
            (Collection.add env c json_str).2.t t = c.t t)
      ∧ (Collection.add env c json_str).2.doc_scores ((c.seq_id + 1) % U32) = some points := by
  obtain ⟨parsed, document, title, points, t, hp, hw, -, htitle, hpts, hidx, -, -, ht, hds⟩ :=
    add_ok_elim env c json_str id h
  have hsame : ∀ key, key ≠ "id" → document.field key = parsed.field key := by
    intro key hkey
    rcases with_id_ok _ _ _ hw with ⟨-, hdoc⟩ | ⟨-, -, hrest⟩
    · rw [hdoc]
    · exact hrest key hkey
  have hnd : ((token_to_offsets (env.tokenize title)).map Prod.fst).Nodup :=
    nodup_token_to_offsets_from (env.tokenize title) 0 [] (by simp)
  have hkeys : ∀ t, t ∈ (token_to_offsets (env.tokenize title)).map Prod.fst
      ↔ t ∈ (env.tokenize title).map tolower := by
    intro t
    rw [← offsets_of_isSome_iff, offsets_of_token_to_offsets]
    by_cases hmem : t ∈ (env.tokenize title).map tolower <;> simp [hmem]
  have hentry : ∀ t offs, (t, offs) ∈ token_to_offsets (env.tokenize title) →
      offs = occurrences ((env.tokenize title).map tolower) 0 t := by
    intro t offs hmem
    have h1 := offsets_of_of_mem _ t offs hnd hmem
    rw [offsets_of_token_to_offsets] at h1
    split at h1
    · exact (Option.some.inj h1).symm
    · cases h1
  rw [index_tokens_ok document _ points hpts] at hidx
  have htree := (Prod.mk.inj hidx).2
  refine ⟨parsed, title, points, hp, ?_, ?_, hnd, hkeys, ?_, ?_, ?_, ?_, ?_⟩
  · rw [get_string_ok_iff] at htitle ⊢
    rw [← hsame "title" (by decide)]
    exact htitle
  · rw [get_number_ok_iff] at hpts ⊢
    rw [← hsame "points" (by decide)]
    exact hpts
  · intro t offs hmem
    rw [hentry t offs hmem]
    refine ⟨occurrences_pairwise _ _ _, fun i => ?_⟩
    rw [mem_occurrences]
    simp
  · rw [ht, ← htree]
  · intro t offs hmem
    rw [ht, ← htree, foldl_art_insert_apply _ _ _ hnd, offsets_of_of_mem _ t offs hnd hmem]
  · intro t hnot
    rw [ht, ← htree, foldl_art_insert_apply _ _ _ hnd,
      (offsets_of_eq_none_iff _ t).mpr (fun hmem => hnot ((hkeys t).mp hmem))]
  · rw [hds]
    simp

/-- C5, witness: the title `Hello hello World` added to a new collection. -/
theorem add_indexes_each_distinct_token_once_witness :
    (Collection.add demo_env Collection.fresh "new").1 = .ok "1"
    ∧ ∃ parsed title points,
      demo_env.parse "new" = some parsed
      ∧ parsed.get_string "title" = .ok title
      ∧ parsed.get_number "points" = .ok points
      ∧ ((token_to_offsets (demo_env.tokenize title)).map Prod.fst).Nodup
      ∧ (∀ t, t ∈ (token_to_offsets (demo_env.tokenize title)).map Prod.fst
            ↔ t ∈ (demo_env.tokenize title).map tolower)
      ∧ (∀ t offs, (t, offs) ∈ token_to_offsets (demo_env.tokenize title) →
            offs.Pairwise (fun a b => a < b)
            ∧ ∀ i, i ∈ offs ↔ ((demo_env.tokenize title).map tolower).get? i = some t)
      ∧ (Collection.add demo_env Collection.fresh "new").2.t
          = (token_to_offsets (demo_env.tokenize title)).foldl (fun tree e =>
              art_insert tree e.1
                { id := (Collection.fresh.seq_id + 1) % U32, score := points, offsets := e.2 } 0) Collection.fresh.t
      ∧ (∀ t offs, (t, offs) ∈ token_to_offsets (demo_env.tokenize title) →
            (Collection.add demo_env Collection.fresh "new").2.t t
              = some (leaf_append (Collection.fresh.t t)
                  { id := (Collection.fresh.seq_id + 1) % U32, score := points, offsets := offs }))
      ∧ (∀ t, t ∉ (demo_env.tokenize title).map tolower →
            (Collection.add demo_env Collection.fresh "new").2.t t = Collection.fresh.t t)
      ∧ (Collection.add demo_env Collection.fresh "new").2.doc_scores ((Collection.fresh.seq_id + 1) % U32) = some points :=
  ⟨by decide,
    add_indexes_each_distinct_token_once demo_env Collection.fresh "new" "1" (by decide)⟩

/-! ## The sequence counter -/

/-- The counter after a call of `add`: advanced by one on `uint32_t` when the
input parsed, untouched when it did not. -/
theorem add_seq_id (env : Env) (c : Collection) (json_str : String) :
    (Collection.add env c json_str).2.seq_id
      = match env.parse json_str with
        | none => c.seq_id
        | some _ => (c.seq_id + 1) % U32 := by
  unfold Collection.add
  cases hp : env.parse json_str with
  | none => rfl
  | some parsed =>
    simp only [Collection.next_seq_id]
    split
    · rfl
    · split
      · rfl
      · split
        · rfl
        · split
          · rfl
          · split <;> rfl

/-- The ids minted by a sequence of calls that keeps the counter below `2^32`
are strictly increasing, and lie above the counter the sequence started from. -/
theorem seq_ids_of_adds_increasing (env : Env) (docs : List String) (c : Collection)
    (hroom : c.seq_id + docs.length < U32) :
    (seq_ids_of_adds env c docs).Pairwise (fun a b => a < b)
    ∧ ∀ s ∈ seq_ids_of_adds env c docs, c.seq_id < s ∧ s ≤ c.seq_id + docs.length := by
  induction docs generalizing c with
  | nil => simp [seq_ids_of_adds]
  | cons j rest ih =>
    simp only [List.length_cons] at hroom
    have hnext := add_seq_id env c j
    have hmod : (c.seq_id + 1) % U32 = c.seq_id + 1 := Nat.mod_eq_of_lt (by omega)
    unfold seq_ids_of_adds
    cases hp : env.parse j with
    | none =>
      simp only [hp] at hnext
      have ih2 := ih (Collection.add env c j).2 (by rw [hnext]; omega)
      simp only [List.nil_append]
      refine ⟨ih2.1, fun s hs => ?_⟩
      have := ih2.2 s hs
      rw [hnext] at this
      simp only [List.length_cons]
      omega
    | some parsed =>
      simp only [hp] at hnext
      rw [hmod] at hnext
      have ih2 := ih (Collection.add env c j).2 (by rw [hnext]; omega)
      simp only [Collection.next_seq_id, hmod, List.singleton_append]
      refine ⟨List.pairwise_cons.mpr ⟨fun s hs => ?_, ih2.1⟩, fun s hs => ?_⟩
      · have := ih2.2 s hs
        rw [hnext] at this
        omega
      · simp only [List.length_cons]
        rcases List.mem_cons.mp hs with h | h
        · omega
        · have := ih2.2 s h
          rw [hnext] at this
          omega

/-- The ids minted by `n` calls of `add` on an input that parses: the counter
runs through `c.seq_id + 1`, `c.seq_id + 2`, ... modulo `2^32`. -/
theorem seq_ids_of_adds_replicate (env : Env) (json_str : String) (parsed : Json)
    (hp : env.parse json_str = some parsed) (n : Nat) (c : Collection) :
    seq_ids_of_adds env c (List.replicate n json_str)
      = (List.range n).map (fun k => (c.seq_id + 1 + k) % U32) := by
  induction n generalizing c with
  | zero => rfl
  | succ n ih =>
    have hnext := add_seq_id env c json_str
    simp only [hp] at hnext
    rw [List.replicate_succ, seq_ids_of_adds, ih, hnext, List.range_succ_eq_map]
    simp only [hp, Collection.next_seq_id, List.singleton_append, List.map_cons, List.map_map,
      Nat.add_zero]
    congr 1
    apply List.map_congr_left
    intro k _
    simp only [Function.comp, U32, Nat.succ_eq_add_one]
    rw [Nat.add_assoc ((c.seq_id + 1) % 4294967296), Nat.mod_add_mod]
    congr 1
    omega

/-- C6, as stated, fails: `2^32 + 1` calls of `add` on a new collection (counter
0) mint the id 1 twice, so the ids are neither pairwise distinct nor strictly
increasing. -/
theorem seq_ids_wrap_counterexample :
    ¬ (seq_ids_of_adds demo_env Collection.fresh (List.replicate 4294967297 "new")).Nodup
    ∧ ¬ (seq_ids_of_adds demo_env Collection.fresh
          (List.replicate 4294967297 "new")).Pairwise (fun a b => a < b) := by
  have hne : ¬ (seq_ids_of_adds demo_env Collection.fresh
      (List.replicate 4294967297 "new")).Nodup := by
    rw [seq_ids_of_adds_replicate demo_env "new" _ rfl]
    intro hnd
    have h := List.inj_on_of_nodup_map hnd (x := 0) (by simp) (y := 4294967296) (by simp)
      (by simp [Collection.fresh, U32])
    omega
  refine ⟨hne, fun hp => hne ?_⟩
  exact hp.imp (fun hab => Nat.ne_of_lt hab)

/-- C6, amended: for every sequence of `add` calls that keeps the counter below
`2^32` (the counter before the calls plus the number of calls is less than
`2^32`; on a new collection, fewer than `2^32` calls), the sequence ids assigned
are strictly increasing, hence pairwise distinct. -/
theorem seq_ids_strictly_increasing_below_wrap (env : Env) (c : Collection)
    (docs : List String) (hroom : c.seq_id + docs.length < U32) :
    (seq_ids_of_adds env c docs).Pairwise (fun a b => a < b)
    ∧ (seq_ids_of_adds env c docs).Nodup :=
  ⟨(seq_ids_of_adds_increasing env docs c hroom).1,
    (seq_ids_of_adds_increasing env docs c hroom).1.imp (fun hab => Nat.ne_of_lt hab)⟩

/-- C6, witness: three calls on a new collection, one of them on an input that
does not parse. -/
theorem seq_ids_strictly_increasing_below_wrap_witness :
    Collection.fresh.seq_id + ["new", "bad", "given"].length < U32
    ∧ (seq_ids_of_adds demo_env Collection.fresh ["new", "bad", "given"]).Pairwise
        (fun a b => a < b)
    ∧ (seq_ids_of_adds demo_env Collection.fresh ["new", "bad", "given"]).Nodup :=
  ⟨by decide,
    seq_ids_strictly_increasing_below_wrap demo_env Collection.fresh ["new", "bad", "given"]
      (by decide)⟩

/-! ## `Collection::add` on a bad document -/

/-- An input that does not parse leaves the collection as it was. -/
theorem add_parse_error (env : Env) (c : Collection) (json_str : String)
    (hp : env.parse json_str = none) :
    Collection.add env c json_str = (.error .parse_error, c) := by
  unfold Collection.add
  simp only [hp]

/-- A document that parses but whose `title` is not a string or whose `points`
is not a number makes `add` throw; the trie is then as before the call, and so
is `doc_scores` at every sequence id other than the one just minted. -/
theorem add_bad_fields (env : Env) (c : Collection) (json_str : String) (parsed : Json)
    (hp : env.parse json_str = some parsed)
    (hbad : (∃ e, parsed.get_string "title" = .error e)
      ∨ (∃ e, parsed.get_number "points" = .error e)) :
    (∃ e, (Collection.add env c json_str).1 = .error e)
    ∧ (Collection.add env c json_str).2.t = c.t
    ∧ ∀ k, k ≠ (c.seq_id + 1) % U32 →
        (Collection.add env c json_str).2.doc_scores k = c.doc_scores k := by
  unfold Collection.add
  simp only [hp, Collection.next_seq_id]
  cases hw : with_id parsed (to_string ((c.seq_id + 1) % U32)) with
  | error e => exact ⟨⟨e, rfl⟩, rfl, fun _ _ => rfl⟩
  | ok document =>
    have hsame : ∀ key, key ≠ "id" → document.field key = parsed.field key := by
      intro key hkey
      rcases with_id_ok _ _ _ hw with ⟨-, hdoc⟩ | ⟨-, -, hrest⟩
      · rw [hdoc]
      · exact hrest key hkey
    simp only []
    cases hid : document.get_string "id" with
    | error e => exact ⟨⟨e, rfl⟩, rfl, fun _ _ => rfl⟩
    | ok id =>
      simp only []
      cases htitle : document.get_string "title" with
      | error e => exact ⟨⟨e, rfl⟩, rfl, fun _ _ => rfl⟩
      | ok title =>
        simp only []
        have hpts : ∃ e, document.get_number "points" = .error e := by
          rcases hbad with ⟨e, he⟩ | ⟨e, he⟩
          · exfalso
            rw [get_string_ok_iff, hsame "title" (by decide), ← get_string_ok_iff, he] at htitle
            cases htitle
          · refine ⟨e, ?_⟩
            unfold Json.get_number at he ⊢
            rw [hsame "points" (by decide)]
            exact he
        obtain ⟨e, he⟩ := hpts
        have hkeep := index_tokens_error document ((c.seq_id + 1) % U32) e he
          (token_to_offsets (env.tokenize title)) c.t
        cases hidx : index_tokens document ((c.seq_id + 1) % U32)
            (token_to_offsets (env.tokenize title)) c.t with
        | mk r t =>
          rw [hidx] at hkeep
          simp only [] at hkeep
          subst hkeep
          cases r with
          | error e2 => exact ⟨⟨e2, rfl⟩, rfl, fun _ _ => rfl⟩
          | ok u =>
            simp only [he]
            refine ⟨⟨e, rfl⟩, trivial, fun k hk => ?_⟩
            cases env.assign_lhs_first
            · rfl
            · simp [hk]

/-- C7, as stated, fails: a document that parses but has no `title`, given to a
new collection, makes `add` throw after the counter has been advanced and after
both store entries have been written. -/
theorem add_bad_document_counterexample :
    demo_env.parse "lacking" = some (.obj [("points", .num 5)])
    ∧ (Collection.add demo_env Collection.fresh "lacking").1 = .error .type_error
    ∧ Collection.fresh.seq_id = 0
    ∧ (Collection.add demo_env Collection.fresh "lacking").2.seq_id = 1
    ∧ Collection.fresh.store (get_seq_id_key 1) = none
    ∧ (Collection.add demo_env Collection.fresh "lacking").2.store (get_seq_id_key 1)
        = some "stored"
    ∧ Collection.fresh.store (get_id_key "1") = none
    ∧ (Collection.add demo_env Collection.fresh "lacking").2.store (get_id_key "1")
        = some "1" := by
  decide

/-- C7, amended: on every input that fails to parse as JSON, or that parses but
lacks (or has an ill-typed) `title` or `points`, `add` reports an error and
leaves the trie exactly as it was, and `doc_scores` as it was at every sequence
id other than the one just minted; when the input fails to parse, the whole
collection, the sequence counter and the store included, is exactly as it was. -/
theorem add_bad_document_keeps_index (env : Env) (c : Collection) (json_str : String)
    (hbad : env.parse json_str = none
      ∨ ∃ parsed, env.parse json_str = some parsed
          ∧ ((∃ e, parsed.get_string "title" = .error e)
            ∨ (∃ e, parsed.get_number "points" = .error e))) :
    (∃ e, (Collection.add env c json_str).1 = .error e)
    ∧ (Collection.add env c json_str).2.t = c.t
    ∧ (∀ k, k ≠ (c.seq_id + 1) % U32 →
        (Collection.add env c json_str).2.doc_scores k = c.doc_scores k)
    ∧ (env.parse json_str = none → (Collection.add env c json_str).2 = c) := by
  rcases hbad with hp | ⟨parsed, hp, hfields⟩
  · rw [add_parse_error env c json_str hp]
    exact ⟨⟨_, rfl⟩, rfl, fun _ _ => rfl, fun _ => rfl⟩
  · obtain ⟨h1, h2, h3⟩ := add_bad_fields env c json_str parsed hp hfields
    refine ⟨h1, h2, h3, fun hnone => ?_⟩
    rw [hp] at hnone
    cases hnone

/-- C7, witness: the document without `title`. -/
theorem add_bad_document_keeps_index_witness :
    (demo_env.parse "lacking" = none
      ∨ ∃ parsed, demo_env.parse "lacking" = some parsed
          ∧ ((∃ e, parsed.get_string "title" = .error e)
            ∨ (∃ e, parsed.get_number "points" = .error e)))
    ∧ (∃ e, (Collection.add demo_env Collection.fresh "lacking").1 = .error e)
    ∧ (Collection.add demo_env Collection.fresh "lacking").2.t = Collection.fresh.t
    ∧ (∀ k, k ≠ (Collection.fresh.seq_id + 1) % U32 →
        (Collection.add demo_env Collection.fresh "lacking").2.doc_scores k
          = Collection.fresh.doc_scores k)
    ∧ (demo_env.parse "lacking" = none →
        (Collection.add demo_env Collection.fresh "lacking").2 = Collection.fresh) :=
  ⟨Or.inr ⟨_, rfl, Or.inl ⟨.type_error, rfl⟩⟩,
    add_bad_document_keeps_index demo_env Collection.fresh "lacking"
      (Or.inr ⟨_, rfl, Or.inl ⟨.type_error, rfl⟩⟩)⟩

/-! ## `Collection::remove` of an absent id -/

/-- C8: when the store has no entry under `ID_PREFIX + id`, `remove(id)` fails
with an error (the exception of `std::stoi` on the empty string) and leaves the
whole collection, its trie, store and `doc_scores`, unchanged. -/
theorem remove_absent_id (env : Env) (c : Collection) (id : String)
    (habsent : c.store (get_id_key id) = none) :
    Collection.remove env c id = (.error .invalid_argument, c) := by
  unfold Collection.remove
  have hget : c.store.get (get_id_key id) = "" := by
    unfold Store.get
    rw [habsent]
    rfl
  have hstoi : stoi "" = .error .invalid_argument := by decide
  simp only [hget, hstoi]

/-- C8, witness: removing the id `zz` from the collection that holds one
document with id `1`. -/
theorem remove_absent_id_witness :
    (Collection.add demo_env Collection.fresh "new").2.store (get_id_key "zz") = none
    ∧ Collection.remove demo_env (Collection.add demo_env Collection.fresh "new").2 "zz"
        = (.error .invalid_argument, (Collection.add demo_env Collection.fresh "new").2) :=
  ⟨by decide,
    remove_absent_id demo_env (Collection.add demo_env Collection.fresh "new").2 "zz"
      (by decide)⟩

/-! ## `std::to_string` followed by `std::stoi` -/

theorem digit_char_spec : ∀ d < 10, (digit_char d).toNat - 48 = d ∧ (digit_char d).isDigit = true := by
  decide

theorem digits_value_append (ds : List Char) (ch : Char) :
    digits_value (ds ++ [ch]) = 10 * digits_value ds + (ch.toNat - 48) := by
  simp [digits_value, List.foldl_append]

/-- The digits written by `to_digits`: a run of decimal digits, not empty, whose
value is the number, when `fuel` digits are enough for it. -/
theorem to_digits_spec (fuel : Nat) (n : Nat) (acc : List Char) (hf : 0 < fuel)
    (hn : n < 10 ^ fuel) :
    ∃ ds, to_digits fuel n acc = ds ++ acc ∧ ds ≠ []
      ∧ (∀ ch ∈ ds, ch.isDigit = true) ∧ digits_value ds = n := by
  induction fuel generalizing n acc with
  | zero => omega
  | succ k ih =>
    unfold to_digits
    have hd := digit_char_spec (n % 10) (Nat.mod_lt _ (by norm_num))
    by_cases h0 : n / 10 = 0
    · rw [if_pos h0]
      refine ⟨[digit_char (n % 10)], rfl, by simp, by simpa using hd.2, ?_⟩
      have : digits_value [digit_char (n % 10)] = (digit_char (n % 10)).toNat - 48 := by
        simp [digits_value]
      rw [this, hd.1]
      omega
    · rw [if_neg h0]
      have hk : 0 < k := by
        rcases Nat.eq_zero_or_pos k with hk0 | hk0
        · subst hk0
          simp at hn
          omega
        · exact hk0
      have hlt : n / 10 < 10 ^ k := by
        rw [pow_succ] at hn
        exact Nat.div_lt_of_lt_mul (by rw [Nat.mul_comm]; exact hn)
      obtain ⟨ds, hds, -, hall, hval⟩ := ih (n / 10) (digit_char (n % 10) :: acc) hk hlt
      refine ⟨ds ++ [digit_char (n % 10)], by rw [hds]; simp, by simp, ?_, ?_⟩
      · intro ch hch
        rcases List.mem_append.mp hch with h | h
        · exact hall ch h
        · rw [List.mem_singleton.mp h]
          exact hd.2
      · rw [digits_value_append, hval, hd.1]
        omega

theorem not_isspace_of_isDigit (ch : Char) (h : ch.isDigit = true) : isspace ch = false := by
  unfold isspace
  simp only [Bool.or_eq_false_iff, decide_eq_false_iff_not]
  refine ⟨⟨⟨⟨⟨?_, ?_⟩, ?_⟩, ?_⟩, ?_⟩, ?_⟩ <;>
    (intro hc; rw [hc] at h; exact absurd h (by decide))

/-- The value that `std::stoi` reads back from `std::to_string(n)` for a 32-bit
`n`: `n` itself when it fits an `int`, the exception `out_of_range` otherwise. -/
theorem stoi_to_string (n : Nat) (hn : n < U32) :
    stoi (to_string n)
      = if n < 2147483648 then .ok (n : Int) else .error .out_of_range := by
  obtain ⟨ds, hds, hne, hall, hval⟩ := to_digits_spec 10 n [] (by norm_num)
    (by unfold U32 at hn; omega)
  rw [List.append_nil] at hds
  obtain ⟨d0, rest, hcons⟩ := List.exists_cons_of_ne_nil hne
  have hd0 : d0.isDigit = true := hall d0 (by rw [hcons]; exact List.mem_cons_self _ _)
  have hdrop : List.dropWhile isspace ds = ds := by
    rw [hcons, List.dropWhile_cons, not_isspace_of_isDigit d0 hd0]
    rfl
  have hminus : ¬ (ds.head? = some '-') := by
    rw [hcons]
    intro hc
    simp only [List.head?_cons, Option.some.injEq] at hc
    rw [hc] at hd0
    exact absurd hd0 (by decide)
  have hplus : ¬ (ds.head? = some '+') := by
    rw [hcons]
    intro hc
    simp only [List.head?_cons, Option.some.injEq] at hc
    rw [hc] at hd0
    exact absurd hd0 (by decide)
  have htake : List.takeWhile Char.isDigit ds = ds :=
    List.takeWhile_eq_self_iff.mpr hall
  unfold stoi to_string
  simp only [hds, hdrop, hminus, hplus, or_self, if_false, htake, hne, hval]
  by_cases hlt : n < 2147483648
  · rw [if_pos hlt, if_neg (by omega)]
  · rw [if_neg hlt, if_pos (by omega)]

/-! ## The loop of `remove` over the tokens -/

theorem remove_token_apply (junk : Nat → Nat) (seq_id : Nat) (t : art_tree)
    (key k : String) :
    remove_token junk seq_id t key k = if k = key then purge junk seq_id (t key) else t k := by
  unfold remove_token purge art_search
  cases ht : t key with
  | none =>
    by_cases hk : k = key
    · simp [hk, ht]
    · simp [hk]
  | some leaf =>
    by_cases hlen : (remove_from_leaf junk seq_id leaf).ids.length = 0
    · simp only [hlen, if_true, art_delete]
    · simp only [hlen, if_false, art_update]

/-- The leaf under a key after the whole loop: one turn of the loop for each
occurrence of the key among the lowercased tokens. -/
theorem remove_tokens_apply (junk : Nat → Nat) (seq_id : Nat) (tokens : List String)
    (t : art_tree) (k : String) :
    remove_tokens junk seq_id tokens t k
      = (purge junk seq_id)^[(tokens.map tolower).count k] (t k) := by
  induction tokens generalizing t with
  | nil => rfl
  | cons w rest ih =>
    rw [remove_tokens, ih, remove_token_apply, List.map_cons, List.count_cons]
    by_cases hk : k = tolower w
    · subst hk
      simp only [if_true, beq_self_eq_true, Function.iterate_succ_apply]
    · have hne : (tolower w == k) = false := by
        rw [beq_eq_false_iff_ne]
        exact Ne.symm hk
      simp only [hk, if_false, hne, Nat.add_zero]
      rfl

theorem purge_iterate_none (junk : Nat → Nat) (seq_id : Nat) (n : Nat) :
    (purge junk seq_id)^[n] none = none := by
  induction n with
  | zero => rfl
  | succ n ih => rw [Function.iterate_succ_apply]; exact ih

theorem remove_index_unsorted_sublist (l : List Nat) (a b : Nat) :
    (remove_index_unsorted l a b).Sublist l := by
  induction l generalizing a b with
  | nil => simp [remove_index_unsorted]
  | cons x xs ih =>
    unfold remove_index_unsorted
    split
    · exact (ih _ _).cons₂ x
    · split
      · exact (ih _ _).cons x
      · exact List.Sublist.refl _

theorem not_mem_remove_values_sorted (ids : List Nat) (v : Nat) :
    v ∉ remove_values_sorted ids v := by
  simp [remove_values_sorted]

theorem remove_values_sorted_of_not_mem (ids : List Nat) (v : Nat) (h : v ∉ ids) :
    remove_values_sorted ids v = ids := by
  unfold remove_values_sorted
  rw [List.filter_eq_self]
  intro x hx
  simp only [ne_eq, decide_not, Bool.not_eq_true', decide_eq_false_iff_not]
  intro hxv
  exact h (hxv ▸ hx)

/-- Further turns of the loop on a leaf that does not hold the sequence id (the
second turn for a repeated token): `ids` stays as it is, so the leaf stays in the
trie, and `offsets` can only lose elements. -/
theorem purge_iterate_of_not_mem (junk : Nat → Nat) (seq_id : Nat) (leaf : art_leaf)
    (hnot : seq_id ∉ leaf.ids) (hne : leaf.ids ≠ []) (n : Nat) :
    ∃ leaf2, (purge junk seq_id)^[n] (some leaf) = some leaf2 ∧ leaf2.ids = leaf.ids
      ∧ leaf2.offsets.Sublist leaf.offsets := by
  induction n with
  | zero => exact ⟨leaf, rfl, rfl, List.Sublist.refl _⟩
  | succ n ih =>
    obtain ⟨leaf1, h1, hids, hsub⟩ := ih
    rw [Function.iterate_succ_apply', h1]
    have hids2 : (remove_from_leaf junk seq_id leaf1).ids = leaf.ids := by
      simp only [remove_from_leaf]
      rw [remove_values_sorted_of_not_mem _ _ (by rw [hids]; exact hnot), hids]
    refine ⟨remove_from_leaf junk seq_id leaf1, ?_, hids2, ?_⟩
    · simp only [purge, hids2, List.length_eq_zero, hne, if_false]
    · exact (remove_index_unsorted_sublist _ _ _).trans hsub

/-- The leaf under a token of the title after the loop, when there was a leaf
`old` before: it is deleted when `old.ids` held nothing but the sequence id;
otherwise its `ids` are `old.ids` without the sequence id, and its `offsets` are
drawn from `old.offsets` without the slice of the sequence id. -/
theorem purge_iterate_some (junk : Nat → Nat) (seq_id : Nat) (old : art_leaf) (n : Nat)
    (hn : 0 < n) :
    ((remove_values_sorted old.ids seq_id = []
        ∧ (purge junk seq_id)^[n] (some old) = none))
    ∨ (remove_values_sorted old.ids seq_id ≠ []
        ∧ ∃ leaf, (purge junk seq_id)^[n] (some old) = some leaf
          ∧ leaf.ids = remove_values_sorted old.ids seq_id
          ∧ leaf.offsets.Sublist
              (remove_index_unsorted old.offsets (start_offset junk old seq_id)
                (end_offset junk old seq_id))) := by
  obtain ⟨m, rfl⟩ : ∃ m, n = m + 1 := ⟨n - 1, by omega⟩
  rw [Function.iterate_succ_apply]
  by_cases hempty : remove_values_sorted old.ids seq_id = []
  · left
    refine ⟨hempty, ?_⟩
    have : purge junk seq_id (some old) = none := by
      simp [purge, remove_from_leaf, hempty]
    rw [this, purge_iterate_none]
  · right
    refine ⟨hempty, ?_⟩
    have hstep : purge junk seq_id (some old) = some (remove_from_leaf junk seq_id old) := by
      simp [purge, remove_from_leaf, hempty]
    rw [hstep]
    obtain ⟨leaf2, h2, hids, hsub⟩ := purge_iterate_of_not_mem junk seq_id
      (remove_from_leaf junk seq_id old) (not_mem_remove_values_sorted _ _) hempty m
    exact ⟨leaf2, h2, hids, hsub⟩

/-! ## `Collection::remove` of a live document -/

/-- The call `remove(id)` for a document whose sequence id fits an `int`: it
ends without exception, runs the loop over the tokens of the stored title and
removes both store keys. -/
theorem remove_ok (env : Env) (c : Collection) (id text title : String) (s : Nat)
    (document : Json) (hs : s < 2147483648)
    (hid : c.store (get_id_key id) = some (to_string s))
    (hdoc : c.store (get_seq_id_key s) = some text)
    (hparse : env.parse text = some document)
    (htitle : document.get_string "title" = .ok title) :
    Collection.remove env c id
      = (.ok (), { c with t := remove_tokens env.junk s (env.tokenize title) c.t,
                          store := (c.store.remove (get_id_key id)).remove
                                     (get_seq_id_key s) }) := by
  have hget : c.store.get (get_id_key id) = to_string s := by
    unfold Store.get
    rw [hid]
    rfl
  have hstoi := stoi_to_string s (by unfold U32; omega)
  rw [if_pos hs] at hstoi
  have hcast : ((s : Int) % ((U32 : Nat) : Int)).toNat = s := by
    rw [← Int.natCast_mod, Int.toNat_natCast]
    exact Nat.mod_eq_of_lt (by unfold U32; omega)
  have hget2 : c.store.get (get_seq_id_key s) = text := by
    unfold Store.get
    rw [hdoc]
    rfl
  unfold Collection.remove
  simp only [hget, hstoi, hcast, hget2, hparse, htitle]

/-- The call `remove(id)` for a document whose sequence id does not fit an
`int`: `std::stoi` throws `out_of_range` and nothing is removed. -/
theorem remove_out_of_range (env : Env) (c : Collection) (id : String) (s : Nat)
    (hlo : 2147483648 ≤ s) (hhi : s < U32)
    (hid : c.store (get_id_key id) = some (to_string s)) :
    Collection.remove env c id = (.error .out_of_range, c) := by
  have hget : c.store.get (get_id_key id) = to_string s := by
    unfold Store.get
    rw [hid]
    rfl
  have hstoi := stoi_to_string s hhi
  rw [if_neg (by omega)] at hstoi
  unfold Collection.remove
  simp only [hget, hstoi]

/-- The effect of `remove(id)` on a live document whose sequence id `s` fits an
`int`: the call succeeds; no leaf of a token of the title holds `s` or is left
with empty `ids`; such a leaf has the `ids` of the leaf before without `s`, and
`offsets` drawn from those before without the slice of `s`; every other key of
the trie is untouched; and the store has neither `ID_PREFIX + id` nor
`SEQ_ID_PREFIX + decimal(s)`. -/
theorem remove_purges_live_document (env : Env) (c : Collection) (id text title : String)
    (s : Nat) (document : Json) (hs : s < 2147483648)
    (hid : c.store (get_id_key id) = some (to_string s))
    (hdoc : c.store (get_seq_id_key s) = some text)
    (hparse : env.parse text = some document)
    (htitle : document.get_string "title" = .ok title) :
    (Collection.remove env c id).1 = .ok ()
    ∧ (∀ t ∈ (env.tokenize title).map tolower, ∀ leaf,
        (Collection.remove env c id).2.t t = some leaf →
          s ∉ leaf.ids ∧ leaf.ids ≠ []
          ∧ ∃ old, c.t t = some old ∧ leaf.ids = remove_values_sorted old.ids s
              ∧ leaf.offsets.Sublist
                  (remove_index_unsorted old.offsets (start_offset env.junk old s)
                    (end_offset env.junk old s)))
    ∧ (∀ t, t ∉ (env.tokenize title).map tolower → (Collection.remove env c id).2.t t = c.t t)
    ∧ (Collection.remove env c id).2.store (get_id_key id) = none
    ∧ (Collection.remove env c id).2.store (get_seq_id_key s) = none := by
  rw [remove_ok env c id text title s document hs hid hdoc hparse htitle]
  refine ⟨rfl, ?_, ?_, ?_, ?_⟩
  · intro t ht leaf hleaf
    simp only [] at hleaf
    rw [remove_tokens_apply] at hleaf
    have hcount : 0 < ((env.tokenize title).map tolower).count t := List.count_pos_iff.mpr ht
    cases hold : c.t t with
    | none =>
      rw [hold, purge_iterate_none] at hleaf
      cases hleaf
    | some old =>
      rw [hold] at hleaf
      rcases purge_iterate_some env.junk s old _ hcount with ⟨-, hnone⟩ | ⟨hne, leaf2, h2, hids, hsub⟩
      · rw [hnone] at hleaf
        cases hleaf
      · rw [h2] at hleaf
        cases hleaf
        refine ⟨?_, ?_, old, rfl, hids, hsub⟩
        · rw [hids]
          exact not_mem_remove_values_sorted _ _
        · rw [hids]
          exact hne
  · intro t ht
    simp only []
    rw [remove_tokens_apply, List.count_eq_zero_of_not_mem ht]
    rfl
  · simp [Store.remove]
  · simp [Store.remove]

/-! ## `add` followed by `remove` -/

theorem remove_values_sorted_append_self (ids : List Nat) (v : Nat) (h : v ∉ ids) :
    remove_values_sorted (ids ++ [v]) v = ids := by
  unfold remove_values_sorted
  rw [List.filter_append]
  have h1 := remove_values_sorted_of_not_mem ids v h
  unfold remove_values_sorted at h1
  rw [h1]
  simp

/-- Round trip, where the sequence id minted by `add` fits an `int`: on a
collection whose store has neither of the two new keys and whose leaves are not
empty and do not hold the new sequence id, `add` of a document followed by
`remove` of the returned id succeeds, leaves the same set of trie keys and
leaves the store as it was before the `add`. -/
theorem add_then_remove_restores (env : Env) (c : Collection) (json_str id : String)
    (parsed : Json) (hparse : env.parse json_str = some parsed)
    (hadd : (Collection.add env c json_str).1 = .ok id)
    (hs : (c.seq_id + 1) % U32 < 2147483648)
    (hfresh_id : c.store (get_id_key id) = none)
    (hfresh_seq : c.store (get_seq_id_key ((c.seq_id + 1) % U32)) = none)
    (hleaves : ∀ k leaf, c.t k = some leaf → leaf.ids ≠ [] ∧ (c.seq_id + 1) % U32 ∉ leaf.ids)
    (hround : ∀ document, with_id parsed (to_string ((c.seq_id + 1) % U32)) = .ok document →
      env.parse (env.dump document) = some document) :
    (Collection.remove env (Collection.add env c json_str).2 id).1 = .ok ()
    ∧ (∀ k, ((Collection.remove env (Collection.add env c json_str).2 id).2.t k).isSome
          = (c.t k).isSome)
    ∧ (∀ k, (Collection.remove env (Collection.add env c json_str).2 id).2.store k
          = c.store k) := by
  obtain ⟨parsed2, document, title, points, t1, hp, hw, -, htitle, hpts, hidx, -, hstore, ht, -⟩ :=
    add_ok_elim env c json_str id hadd
  rw [hparse] at hp
  cases hp
  have hnd : ((token_to_offsets (env.tokenize title)).map Prod.fst).Nodup :=
    nodup_token_to_offsets_from (env.tokenize title) 0 [] (by simp)
  rw [index_tokens_ok document _ points hpts] at hidx
  have htree := (Prod.mk.inj hidx).2
  have hstore_id : (Collection.add env c json_str).2.store (get_id_key id)
      = some (to_string ((c.seq_id + 1) % U32)) := by
    rw [hstore]
    simp [Store.insert]
  have hstore_seq : (Collection.add env c json_str).2.store
      (get_seq_id_key ((c.seq_id + 1) % U32)) = some (env.dump document) := by
    rw [hstore]
    simp [Store.insert, (get_id_key_ne_get_seq_id_key _ _).symm]
  rw [remove_ok env _ id _ title _ document hs hstore_id hstore_seq (hround document hw) htitle]
  refine ⟨rfl, ?_, ?_⟩
  · intro k
    simp only []
    rw [remove_tokens_apply, ht, ← htree, foldl_art_insert_apply _ _ _ hnd,
      offsets_of_token_to_offsets]
    by_cases hk : k ∈ (env.tokenize title).map tolower
    · have hcount : 0 < ((env.tokenize title).map tolower).count k := List.count_pos_iff.mpr hk
      simp only [hk, if_true]
      cases hold : c.t k with
      | none =>
        have hcases := purge_iterate_some env.junk ((c.seq_id + 1) % U32)
          (leaf_append none ⟨(c.seq_id + 1) % U32, points,
            occurrences ((env.tokenize title).map tolower) 0 k⟩) _ hcount
        rcases hcases with ⟨-, hnone⟩ | ⟨hne, -⟩
        · rw [hnone]
        · exact absurd (by simp [leaf_append, remove_values_sorted]) hne
      | some leaf =>
        obtain ⟨hne, hnot⟩ := hleaves k leaf hold
        have hcases := purge_iterate_some env.junk ((c.seq_id + 1) % U32)
          (leaf_append (some leaf) ⟨(c.seq_id + 1) % U32, points,
            occurrences ((env.tokenize title).map tolower) 0 k⟩) _ hcount
        rcases hcases with ⟨hempty, -⟩ | ⟨-, leaf2, h2, -, -⟩
        · exfalso
          simp only [leaf_append] at hempty
          rw [remove_values_sorted_append_self _ _ hnot] at hempty
          exact hne hempty
        · rw [h2]
          rfl
    · simp only [hk, if_false, List.count_eq_zero_of_not_mem hk]
      rfl
  · intro k
    simp only []
    rw [hstore]
    by_cases h1 : k = get_seq_id_key ((c.seq_id + 1) % U32)
    · subst h1
      simp [Store.remove, hfresh_seq]
    · by_cases h2 : k = get_id_key id
      · subst h2
        simp [Store.remove, hfresh_id]
      · simp [Store.remove, Store.insert, h1, h2]

/-! ## `Collection::remove` when the sequence id does not fit an `int` -/

/-- C9, at a failing input: in the collection whose counter stands at
`2^31 - 1`, `add` mints the sequence id `2^31 = 2147483648` for the document and
returns the id `2147483648`. The document is live, and `remove` of that id throws
`out_of_range` from `std::stoi` before it touches anything: afterwards the
leaves of the title's tokens still hold the sequence id and the store still has
both keys. -/
theorem remove_live_document_failing_input :
    (Collection.add demo_env Collection.at_int_max "new").1 = .ok "2147483648"
    ∧ (Collection.add demo_env Collection.at_int_max "new").2.store (get_id_key "2147483648")
        = some (to_string 2147483648)
    ∧ (Collection.add demo_env Collection.at_int_max "new").2.store (get_seq_id_key 2147483648)
        = some "stored"
    ∧ (Collection.remove demo_env (Collection.add demo_env Collection.at_int_max "new").2
          "2147483648").1 = .error .out_of_range
    ∧ ((Collection.remove demo_env (Collection.add demo_env Collection.at_int_max "new").2
          "2147483648").2.t "hello").map (fun leaf => leaf.ids) = some [2147483648]
    ∧ (Collection.remove demo_env (Collection.add demo_env Collection.at_int_max "new").2
          "2147483648").2.store (get_id_key "2147483648") = some "2147483648"
    ∧ (Collection.remove demo_env (Collection.add demo_env Collection.at_int_max "new").2
          "2147483648").2.store (get_seq_id_key 2147483648) = some "stored" := by
  decide

/-- C10, at a failing input: on the collection whose counter stands at
`2^31 - 1` and which holds nothing, `add` of a valid document followed by
`remove` of the returned id leaves a trie key (`hello`) and two store keys that
were not there before the `add`, because `remove` throws `out_of_range` from
`std::stoi`. -/
theorem add_then_remove_failing_input :
    (Collection.add demo_env Collection.at_int_max "new").1 = .ok "2147483648"
    ∧ (Collection.remove demo_env (Collection.add demo_env Collection.at_int_max "new").2
          "2147483648").1 = .error .out_of_range
    ∧ (Collection.at_int_max.t "hello").isSome = false
    ∧ ((Collection.remove demo_env (Collection.add demo_env Collection.at_int_max "new").2
          "2147483648").2.t "hello").isSome = true
    ∧ (Collection.at_int_max.store (get_id_key "2147483648")).isSome = false
    ∧ ((Collection.remove demo_env (Collection.add demo_env Collection.at_int_max "new").2
          "2147483648").2.store (get_id_key "2147483648")).isSome = true
    ∧ (Collection.at_int_max.store (get_seq_id_key 2147483648)).isSome = false
    ∧ ((Collection.remove demo_env (Collection.add demo_env Collection.at_int_max "new").2
          "2147483648").2.store (get_seq_id_key 2147483648)).isSome = true := by
  decide

/-! ## The compaction of the offset index -/

theorem forarray_at_of_lt (junk : Nat → Nat) (a : List Nat) (i : Nat) (h : i < a.length) :
    forarray_at junk a i = a.getD i 0 := by
  unfold forarray_at
  rw [List.getD_eq_getElem?_getD, List.get?_eq_getElem?, List.getElem?_eq_getElem h]
  rfl

theorem shift_before_zero (a removed : List Nat) : shift_before a removed 0 = 0 := by
  simp [shift_before]

theorem shift_before_succ (a removed : List Nat) (k : Nat) :
    shift_before a removed (k + 1)
      = shift_before a removed k
        + (if k ∈ removed then a.getD (k + 1) 0 - a.getD k 0 else 0) := by
  unfold shift_before
  rw [List.range_succ, List.filter_append, List.map_append, List.sum_append]
  by_cases h : k ∈ removed <;> simp [h]

/-- The shift never exceeds the entry it is subtracted from, when the array is
non-decreasing. -/
theorem shift_before_le (a removed : List Nat)
    (hmono : ∀ i, i + 1 < a.length → a.getD i 0 ≤ a.getD (i + 1) 0) :
    ∀ k, k < a.length → shift_before a removed k ≤ a.getD k 0 := by
  intro k
  induction k with
  | zero => intro _; rw [shift_before_zero]; exact Nat.zero_le _
  | succ k ih =>
    intro hk
    have h1 := ih (by omega)
    have h2 := hmono k hk
    rw [shift_before_succ]
    split <;> omega

theorem mem_iff_getD (l : List Nat) (x : Nat) :
    x ∈ l ↔ ∃ i, i < l.length ∧ l.getD i 0 = x := by
  rw [List.mem_iff_getElem]
  constructor
  · rintro ⟨i, h, hx⟩
    exact ⟨i, h, by rw [List.getD_eq_getElem _ _ h]; exact hx⟩
  · rintro ⟨i, h, hx⟩
    exact ⟨i, h, by rw [List.getD_eq_getElem _ _ h] at hx; exact hx⟩

theorem getD_mono_of_pairwise (l : List Nat) (h : l.Pairwise (fun x y => x ≤ y)) :
    ∀ i j, i ≤ j → j < l.length → l.getD i 0 ≤ l.getD j 0 := by
  intro i j hij hj
  rcases Nat.eq_or_lt_of_le hij with heq | hlt
  · rw [heq]
  · rw [List.getD_eq_getElem _ _ (by omega : i < l.length), List.getD_eq_getElem _ _ hj]
    exact List.pairwise_iff_getElem.mp h i j (by omega) hj hlt

/-- The loop of `_remove_and_shift_offset_index` from an intermediate state:
with enough fuel it appends to `new_array`, for each remaining position that is
not to be removed, the entry lowered by the shift, without wrapping. -/
theorem shift_loop_spec (junk : Nat → Nat) (a removed : List Nat)
    (hmono : ∀ i, i + 1 < a.length → a.getD i 0 ≤ a.getD (i + 1) 0)
    (h32 : ∀ i, i < a.length → a.getD i 0 < U32)
    (hsorted : ∀ i j, i ≤ j → j < removed.length → removed.getD i 0 ≤ removed.getD j 0) :
    ∀ fuel new_array curr counter, curr ≤ a.length → counter ≤ removed.length →
      (a.length - curr) + (removed.length - counter) < fuel →
      (∀ i, i < counter → removed.getD i 0 < curr) →
      shift_loop junk a removed fuel new_array curr counter (shift_before a removed curr)
        = new_array ++ ((List.range' curr (a.length - curr)).filter
            (fun k => decide (k ∉ removed))).map
              (fun k => a.getD k 0 - shift_before a removed k) := by
  intro fuel
  induction fuel with
  | zero => intro _ _ _ _ _ hfuel; omega
  | succ fuel ih =>
    intro new_array curr counter hcurr hcounter hfuel hdone
    unfold shift_loop
    by_cases hlt : curr < a.length
    · rw [if_pos hlt]
      have hrange : List.range' curr (a.length - curr)
          = curr :: List.range' (curr + 1) (a.length - (curr + 1)) := by
        have : a.length - curr = (a.length - (curr + 1)) + 1 := by omega
        rw [this, List.range'_succ]
      have hshift_le := shift_before_le a removed hmono curr hlt
      have hacurr := h32 curr hlt
      by_cases hcond : counter < removed.length ∧ forarray_at junk removed counter ≤ curr
      · rw [if_pos hcond]
        obtain ⟨hc, hle⟩ := hcond
        rw [forarray_at_of_lt junk removed counter hc] at hle
        rw [forarray_at_of_lt junk removed counter hc]
        by_cases heq : curr = removed.getD counter 0
        · rw [if_pos heq]
          have hmem : curr ∈ removed := (mem_iff_getD removed curr).mpr ⟨counter, hc, heq.symm⟩
          have hnext : (shift_before a removed curr
              + (if curr + 1 = a.length then 0
                 else (forarray_at junk a (curr + 1) + U32 - forarray_at junk a curr) % U32)) % U32
              = shift_before a removed (curr + 1) := by
            rw [shift_before_succ, if_pos hmem]
            by_cases hlast : curr + 1 = a.length
            · rw [if_pos hlast]
              have h0 : a.getD (curr + 1) 0 = 0 := by
                rw [List.getD_eq_default _ _ (by omega)]
              rw [h0, Nat.zero_sub, Nat.add_zero]
              exact Nat.mod_eq_of_lt (by omega)
            · rw [if_neg hlast]
              have hlt2 : curr + 1 < a.length := by omega
              rw [forarray_at_of_lt junk a (curr + 1) hlt2, forarray_at_of_lt junk a curr hlt]
              have hm := hmono curr hlt2
              have h2 := h32 (curr + 1) hlt2
              have hdiff : (a.getD (curr + 1) 0 + U32 - a.getD curr 0) % U32
                  = a.getD (curr + 1) 0 - a.getD curr 0 := by
                unfold U32 at *
                omega
              rw [hdiff]
              exact Nat.mod_eq_of_lt (by omega)
          rw [hnext, ih new_array (curr + 1) (counter + 1) (by omega) (by omega) (by omega)
            (fun i hi => by
              rcases Nat.lt_succ_iff_lt_or_eq.mp hi with h | h
              · have := hdone i h
                omega
              · rw [h, ← heq]
                omega)]
          rw [hrange, List.filter_cons]
          simp [hmem]
        · rw [if_neg heq]
          rw [ih new_array curr (counter + 1) hcurr (by omega) (by omega)
            (fun i hi => by
              rcases Nat.lt_succ_iff_lt_or_eq.mp hi with h | h
              · exact hdone i h
              · rw [h]
                omega)]
      · rw [if_neg hcond]
        have hnot : curr ∉ removed := by
          intro hmem
          obtain ⟨i, hi, hx⟩ := (mem_iff_getD removed curr).mp hmem
          by_cases hic : i < counter
          · have := hdone i hic
            omega
          · have hc : counter < removed.length := by omega
            have hgt : ¬ removed.getD counter 0 ≤ curr := by
              intro hle
              exact hcond ⟨hc, by rw [forarray_at_of_lt junk removed counter hc]; exact hle⟩
            have := hsorted counter i (by omega) hi
            omega
        have hsame : shift_before a removed (curr + 1) = shift_before a removed curr := by
          rw [shift_before_succ, if_neg hnot, Nat.add_zero]
        have hval : (forarray_at junk a curr + U32 - shift_before a removed curr) % U32
            = a.getD curr 0 - shift_before a removed curr := by
          rw [forarray_at_of_lt junk a curr hlt]
          unfold U32 at *
          omega
        rw [hval, ← hsame, ih _ (curr + 1) counter (by omega) hcounter (by omega)
          (fun i hi => by have := hdone i hi; omega)]
        rw [hrange, List.filter_cons]
        simp [hnot, hsame]
    · rw [if_neg hlt]
      have : a.length - curr = 0 := by omega
      rw [this]
      simp

/-- The number of surviving positions: the length of the array less the number
of distinct positions to remove. -/
theorem length_surviving (n : Nat) (removed : List Nat) (hbelow : ∀ r ∈ removed, r < n) :
    ((List.range n).filter (fun k => decide (k ∉ removed))).length
      = n - removed.dedup.length := by
  have hsplit := List.length_eq_length_filter_add (l := List.range n)
    (fun k => decide (k ∈ removed))
  have hperm : ((List.range n).filter (fun k => decide (k ∈ removed))).Perm removed.dedup := by
    rw [List.perm_ext_iff_of_nodup ((List.nodup_range n).filter _) (List.nodup_dedup _)]
    intro x
    simp only [List.mem_filter, List.mem_range, decide_eq_true_eq, List.mem_dedup]
    exact ⟨fun h => h.2, fun h => ⟨hbelow x h, h⟩⟩
  have hlen := hperm.length_eq
  have hnot : (List.range n).filter (fun k => decide (k ∉ removed))
      = (List.range n).filter (fun x => !(fun k => decide (k ∈ removed)) x) := by
    apply List.filter_congr
    intro x _
    simp
  rw [hnot]
  rw [List.length_range, hlen] at hsplit
  simp only [] at hsplit ⊢
  omega

/-- The function `_remove_and_shift_offset_index` on a non-decreasing array of
32-bit values and a sorted list of positions: the result is the compacted array
of the specification. -/
theorem remove_and_shift_eq_compacted (junk : Nat → Nat) (a removed : List Nat)
    (hmono : a.Pairwise (fun x y => x ≤ y)) (h32 : ∀ x ∈ a, x < U32)
    (hsorted : removed.Pairwise (fun x y => x ≤ y)) :
    _remove_and_shift_offset_index junk a removed = compacted a removed := by
  have hspec := shift_loop_spec junk a removed
    (fun i hi => getD_mono_of_pairwise a hmono i (i + 1) (by omega) hi)
    (fun i hi => h32 _ (by rw [List.getD_eq_getElem _ _ hi]; exact List.getElem_mem _))
    (getD_mono_of_pairwise removed hsorted)
    (a.length + removed.length + 1) [] 0 0 (Nat.zero_le _) (Nat.zero_le _) (by omega)
    (fun i hi => by omega)
  rw [shift_before_zero, List.nil_append, Nat.sub_zero, ← List.range_eq_range'] at hspec
  exact hspec

/-- C15: for every non-decreasing array `a` of 32-bit values and every sorted
list `removed` of positions below its length, `_remove_and_shift_offset_index`
puts in place of `a` the array that lists, in the original order, each surviving
position `k` (those not in `removed`) with the value `a[k]` less the sum over the
removed `r < k` of `a[r+1] - a[r]`; its length is the length of `a` less the
number of distinct positions in `removed`. -/
theorem remove_and_shift_offset_index_compacts (junk : Nat → Nat) (a removed : List Nat)
    (hmono : a.Pairwise (fun x y => x ≤ y)) (h32 : ∀ x ∈ a, x < U32)
    (hsorted : removed.Pairwise (fun x y => x ≤ y)) (hbelow : ∀ r ∈ removed, r < a.length) :
    _remove_and_shift_offset_index junk a removed
      = ((List.range a.length).filter (fun k => decide (k ∉ removed))).map
          (fun k => a.getD k 0
            - (((List.range k).filter (fun r => decide (r ∈ removed))).map
                (fun r => a.getD (r + 1) 0 - a.getD r 0)).sum)
    ∧ _remove_and_shift_offset_index junk a removed = compacted a removed
    ∧ (_remove_and_shift_offset_index junk a removed).length
        = a.length - removed.dedup.length := by
  have hres := remove_and_shift_eq_compacted junk a removed hmono h32 hsorted
  refine ⟨hres, hres, ?_⟩
  rw [hres, compacted, List.length_map, length_surviving _ _ hbelow]

/-- C15, witness: the positions 1 and 3 removed from an array of five entries. -/
theorem remove_and_shift_offset_index_compacts_witness :
    _remove_and_shift_offset_index (fun _ => 0) [0, 2, 5, 5, 9] [1, 3]
      = ((List.range [0, 2, 5, 5, 9].length).filter (fun k => decide (k ∉ [1, 3]))).map
          (fun k => [0, 2, 5, 5, 9].getD k 0
            - (((List.range k).filter (fun r => decide (r ∈ [1, 3]))).map
                (fun r => [0, 2, 5, 5, 9].getD (r + 1) 0 - [0, 2, 5, 5, 9].getD r 0)).sum)
    ∧ _remove_and_shift_offset_index (fun _ => 0) [0, 2, 5, 5, 9] [1, 3]
        = compacted [0, 2, 5, 5, 9] [1, 3]
    ∧ (_remove_and_shift_offset_index (fun _ => 0) [0, 2, 5, 5, 9] [1, 3]).length
        = [0, 2, 5, 5, 9].length - [1, 3].dedup.length :=
  remove_and_shift_offset_index_compacts (fun _ => 0) [0, 2, 5, 5, 9] [1, 3]
    (by decide) (by decide) (by decide) (by decide)

/-! ## One document removed from a leaf -/

theorem remove_index_unsorted_eq (l : List Nat) (a b : Nat) (hab : a ≤ b) :
    remove_index_unsorted l a b = l.take a ++ l.drop b := by
  induction l generalizing a b with
  | nil => simp [remove_index_unsorted]
  | cons x xs ih =>
    unfold remove_index_unsorted
    by_cases ha : 0 < a
    · rw [if_pos ha, ih (a - 1) (b - 1) (by omega)]
      obtain ⟨a2, rfl⟩ : ∃ a2, a = a2 + 1 := ⟨a - 1, by omega⟩
      obtain ⟨b2, rfl⟩ : ∃ b2, b = b2 + 1 := ⟨b - 1, by omega⟩
      simp
    · rw [if_neg ha]
      have ha0 : a = 0 := by omega
      subst ha0
      by_cases hb : 0 < b
      · rw [if_pos hb, ih 0 (b - 1) (by omega)]
        obtain ⟨b2, rfl⟩ : ∃ b2, b = b2 + 1 := ⟨b - 1, by omega⟩
        simp
      · rw [if_neg hb]
        have hb0 : b = 0 := by omega
        subst hb0
        simp

/-- A slice that lies before the removed range is where it was. -/
theorem slice_left (o : List Nat) (A B s e : Nat) (hA : A ≤ o.length) (he : e ≤ A) :
    ((o.take A ++ o.drop B).drop s).take (e - s) = (o.drop s).take (e - s) := by
  apply List.ext_getElem?
  intro i
  simp only [List.getElem?_take, List.getElem?_drop, List.getElem?_append, List.length_take]
  by_cases hi : i < e - s
  · simp only [hi, if_true]
    have h1 : s + i < min A o.length := by omega
    simp [h1]
    omega
  · simp [hi]

/-- A slice that lies after the removed range is found lower by the length of
that range. -/
theorem slice_right (o : List Nat) (A B s e : Nat) (hAB : A ≤ B) (hA : A ≤ o.length)
    (hs : B ≤ s) (hse : s ≤ e) :
    ((o.take A ++ o.drop B).drop (s - (B - A))).take ((e - (B - A)) - (s - (B - A)))
      = (o.drop s).take (e - s) := by
  apply List.ext_getElem?
  intro i
  simp only [List.getElem?_take, List.getElem?_drop, List.getElem?_append, List.length_take]
  have hlen : e - (B - A) - (s - (B - A)) = e - s := by omega
  rw [hlen]
  by_cases hi : i < e - s
  · simp only [hi, if_true]
    have h1 : ¬ (s - (B - A) + i < min A o.length) := by omega
    simp only [h1, if_false]
    congr 1
    omega
  · simp [hi]

theorem shift_before_single (a : List Nat) (d k : Nat) :
    shift_before a [d] k = if d < k then a.getD (d + 1) 0 - a.getD d 0 else 0 := by
  induction k with
  | zero => simp [shift_before_zero]
  | succ k ih =>
    rw [shift_before_succ, ih]
    by_cases h1 : d < k
    · have h2 : k ≠ d := by omega
      simp [h1, h2, Nat.lt_succ_of_lt h1]
    · by_cases h2 : k = d
      · subst h2
        simp
      · have h3 : ¬ d < k + 1 := by omega
        simp [h1, h2, h3]

theorem surviving_single (n d : Nat) (hd : d < n) :
    (List.range n).filter (fun k => decide (k ∉ [d]))
      = List.range d ++ List.range' (d + 1) (n - (d + 1)) := by
  have hsplit : List.range n = List.range d ++ (d :: List.range' (d + 1) (n - (d + 1))) := by
    have h1 := List.range'_append_1 0 d (n - d)
    have h2 : n - d + d = n := by omega
    have h3 : n - d = (n - (d + 1)) + 1 := by omega
    rw [h2, Nat.zero_add, h3, List.range'_succ] at h1
    rw [List.range_eq_range', List.range_eq_range', ← h1]
  rw [hsplit, List.filter_append, List.filter_cons]
  have h1 : (List.range d).filter (fun k => decide (k ∉ [d])) = List.range d := by
    rw [List.filter_eq_self]
    intro k hk
    have := List.mem_range.mp hk
    simp
    omega
  have h2 : (List.range' (d + 1) (n - (d + 1))).filter (fun k => decide (k ∉ [d]))
      = List.range' (d + 1) (n - (d + 1)) := by
    rw [List.filter_eq_self]
    intro k hk
    have := List.mem_range'_1.mp hk
    simp
    omega
  rw [h1, h2]
  simp

/-- The entry at position `j` of the array compacted at the single position
`d`. -/
theorem compacted_single_getD (a : List Nat) (d j : Nat) (hd : d < a.length)
    (hj : j + 1 < a.length) :
    (compacted a [d]).getD j 0
      = if j < d then a.getD j 0
        else a.getD (j + 1) 0 - (a.getD (d + 1) 0 - a.getD d 0) := by
  unfold compacted
  rw [surviving_single _ _ hd, List.getD_eq_getElem?_getD, List.getElem?_map,
    List.getElem?_append]
  by_cases hjd : j < d
  · have hdj : ¬ d < j := by omega
    simp [hjd, List.getElem?_range, shift_before_single, hdj]
  · have hlt : j - d < a.length - (d + 1) := by omega
    simp [hjd, List.getElem?_range', hlt, shift_before_single]
    have e1 : d + 1 + (j - d) = j + 1 := by omega
    rw [e1]
    simp [show d < j + 1 by omega]

theorem compacted_single_length (a : List Nat) (d : Nat) (hd : d < a.length) :
    (compacted a [d]).length = a.length - 1 := by
  unfold compacted
  rw [List.length_map, length_surviving _ _ (by simpa using hd)]
  simp

theorem pairwise_of_getD_mono (l : List Nat)
    (h : ∀ i j, i < j → j < l.length → l.getD i 0 ≤ l.getD j 0) :
    l.Pairwise (fun x y => x ≤ y) := by
  rw [List.pairwise_iff_getElem]
  intro i j hi hj hij
  have := h i j hij hj
  rw [List.getD_eq_getElem _ _ hi, List.getD_eq_getElem _ _ hj] at this
  exact this

theorem start_offset_eq (junk : Nat → Nat) (leaf : art_leaf) (x k : Nat)
    (hk : k < leaf.offset_index.length) (hidx : forarray_indexOf leaf.ids x = k) :
    start_offset junk leaf x = leaf.offset_index.getD k 0 := by
  unfold start_offset
  rw [hidx, forarray_at_of_lt junk _ k hk]

theorem end_offset_eq (junk : Nat → Nat) (leaf : art_leaf) (x k : Nat)
    (hlen : leaf.ids.length = leaf.offset_index.length) (h32 : leaf.ids.length < U32)
    (hk : k < leaf.ids.length) (hidx : forarray_indexOf leaf.ids x = k) :
    end_offset junk leaf x
      = if k + 1 = leaf.ids.length then leaf.offsets.length
        else leaf.offset_index.getD (k + 1) 0 := by
  unfold end_offset
  rw [hidx]
  have hwrap : (leaf.ids.length + U32 - 1) % U32 = leaf.ids.length - 1 := by
    unfold U32 at *
    omega
  rw [hwrap]
  by_cases hlast : k + 1 = leaf.ids.length
  · rw [if_pos (by omega), if_pos hlast]
  · rw [if_neg (by omega), if_neg hlast, forarray_at_of_lt junk _ (k + 1) (by omega)]

theorem remove_values_sorted_eq_eraseIdx (ids : List Nat) (s d : Nat) (hnd : ids.Nodup)
    (hd : ids.get? d = some s) : remove_values_sorted ids s = ids.eraseIdx d := by
  have hlt : d < ids.length := by
    rw [List.get?_eq_getElem?] at hd
    exact (List.getElem?_eq_some_iff.mp hd).1
  have hval : ids[d] = s := by
    rw [List.get?_eq_getElem?] at hd
    exact (List.getElem?_eq_some_iff.mp hd).2
  rw [← hval, ← List.Nodup.erase_getElem hnd d hlt, List.Nodup.erase_eq_filter hnd]
  unfold remove_values_sorted
  apply List.filter_congr
  intro x _
  by_cases hx : x = ids[d] <;> simp [hx]

/-- C11: the step of `remove` on one leaf keeps the leaf invariant and the data
of every other document. If `ids` and `offset_index` have the same length,
`offset_index` is non-decreasing with every entry at most the length of
`offsets`, and `seq_id` is at position `d` of the strictly ascending `ids`
(the lengths of `ids` and `offsets` fitting the 32-bit counters of the code),
then after the step the two arrays again have the same length, `offset_index` is
non-decreasing and bounded by the new length of `offsets`, and every other
document is still in `ids` and the slice of `offsets` selected for it holds
exactly the positions it held before. -/
theorem remove_from_leaf_keeps_invariant (junk : Nat → Nat) (seq_id d : Nat) (leaf : art_leaf)
    (hlen : leaf.ids.length = leaf.offset_index.length)
    (hmono : leaf.offset_index.Pairwise (fun x y => x ≤ y))
    (hbound : ∀ x ∈ leaf.offset_index, x ≤ leaf.offsets.length)
    (hd : leaf.ids.get? d = some seq_id)
    (hids : leaf.ids.Pairwise (fun x y => x < y))
    (hn32 : leaf.ids.length < U32) (ho32 : leaf.offsets.length < U32) :
    (remove_from_leaf junk seq_id leaf).ids.length
        = (remove_from_leaf junk seq_id leaf).offset_index.length
    ∧ (remove_from_leaf junk seq_id leaf).offset_index.Pairwise (fun x y => x ≤ y)
    ∧ (∀ x ∈ (remove_from_leaf junk seq_id leaf).offset_index,
        x ≤ (remove_from_leaf junk seq_id leaf).offsets.length)
    ∧ (∀ x ∈ leaf.ids, x ≠ seq_id →
        x ∈ (remove_from_leaf junk seq_id leaf).ids
        ∧ doc_slice junk (remove_from_leaf junk seq_id leaf) x = doc_slice junk leaf x) := by
  obtain ⟨ids, a, o, ms⟩ := leaf
  simp only [] at hlen hmono hbound hd hids hn32 ho32
  have hnd : ids.Nodup := hids.imp (fun h => Nat.ne_of_lt h)
  have hdL : d < ids.length := by
    rw [List.get?_eq_getElem?] at hd
    exact (List.getElem?_eq_some_iff.mp hd).1
  have hval : ids[d] = seq_id := by
    rw [List.get?_eq_getElem?] at hd
    exact (List.getElem?_eq_some_iff.mp hd).2
  have hidx : forarray_indexOf ids seq_id = d := by
    unfold forarray_indexOf
    rw [← hval]
    exact List.indexOf_getElem hnd d hdL
  have hm := getD_mono_of_pairwise a hmono
  have hb : ∀ i, i < a.length → a.getD i 0 ≤ o.length := by
    intro i hi
    rw [List.getD_eq_getElem _ _ hi]
    exact hbound _ (List.getElem_mem _)
  have h32 : ∀ x ∈ a, x < U32 := fun x hx => lt_of_le_of_lt (hbound x hx) ho32
  have hstart : start_offset junk ⟨ids, a, o, ms⟩ seq_id = a.getD d 0 :=
    start_offset_eq junk _ seq_id d (by simp only []; omega) hidx
  have hend : end_offset junk ⟨ids, a, o, ms⟩ seq_id
      = if d + 1 = ids.length then o.length else a.getD (d + 1) 0 :=
    end_offset_eq junk _ seq_id d hlen hn32 hdL hidx
  have hAB : a.getD d 0 ≤ (if d + 1 = ids.length then o.length else a.getD (d + 1) 0) := by
    split
    · exact hb d (by omega)
    · exact hm d (d + 1) (by omega) (by omega)
  have hB : (if d + 1 = ids.length then o.length else a.getD (d + 1) 0) ≤ o.length := by
    split
    · exact le_refl _
    · exact hb (d + 1) (by omega)
  have hA : a.getD d 0 ≤ o.length := hb d (by omega)
  have hleaf : remove_from_leaf junk seq_id ⟨ids, a, o, ms⟩
      = ⟨ids.eraseIdx d, compacted a [d],
          o.take (a.getD d 0)
            ++ o.drop (if d + 1 = ids.length then o.length else a.getD (d + 1) 0), ms⟩ := by
    simp only [remove_from_leaf]
    rw [hstart, hend, hidx, remove_values_sorted_eq_eraseIdx ids seq_id d hnd hd,
      remove_index_unsorted_eq _ _ _ hAB,
      remove_and_shift_eq_compacted junk a [d] hmono h32 (List.pairwise_singleton _ _)]
  rw [hleaf]
  simp only []
  have hlen1 : (ids.eraseIdx d).length = ids.length - 1 := List.length_eraseIdx_of_lt hdL
  have hlen2 : (compacted a [d]).length = a.length - 1 :=
    compacted_single_length a d (by omega)
  have hnd1 : (ids.eraseIdx d).Nodup := hnd.sublist (List.eraseIdx_sublist _ _)
  have holen : (o.take (a.getD d 0)
      ++ o.drop (if d + 1 = ids.length then o.length else a.getD (d + 1) 0)).length
      = a.getD d 0 + (o.length
          - (if d + 1 = ids.length then o.length else a.getD (d + 1) 0)) := by
    rw [List.length_append, List.length_take, List.length_drop, Nat.min_eq_left hA]
  refine ⟨by rw [hlen1, hlen2, hlen], ?_, ?_, ?_⟩
  · apply pairwise_of_getD_mono
    intro i j hij hj
    rw [hlen2] at hj
    rw [compacted_single_getD a d i (by omega) (by omega),
      compacted_single_getD a d j (by omega) (by omega)]
    have f1 := hm i j (by omega) (by omega)
    have f2 := hm (i + 1) (j + 1) (by omega) (by omega)
    have f3 := hm d (d + 1)
    have f4 := hm i d
    have f5 := hm (d + 1) (j + 1)
    have f6 := hm (d + 1) (i + 1)
    split <;> split <;> omega
  · intro x hx
    obtain ⟨j, hj, hxj⟩ := (mem_iff_getD _ x).mp hx
    rw [hlen2] at hj
    rw [compacted_single_getD a d j (by omega) (by omega)] at hxj
    rw [holen, ← hxj]
    have f1 := hm j d
    have f2 := hb (j + 1) (by omega)
    have f3 := hm d (d + 1)
    have f4 := hm (d + 1) (j + 1)
    split <;> split <;> omega
  · intro x hx hne
    obtain ⟨k, hk, hxk⟩ := (mem_iff_getD ids x).mp hx
    rw [List.getD_eq_getElem _ _ hk] at hxk
    have hkd : k ≠ d := by
      intro hkd
      subst hkd
      exact hne (hxk.symm.trans hval)
    have hidxk : forarray_indexOf ids x = k := by
      unfold forarray_indexOf
      rw [← hxk]
      exact List.indexOf_getElem hnd k hk
    have hs0 : start_offset junk ⟨ids, a, o, ms⟩ x = a.getD k 0 :=
      start_offset_eq junk _ x k (by simp only []; omega) hidxk
    have he0 : end_offset junk ⟨ids, a, o, ms⟩ x
        = if k + 1 = ids.length then o.length else a.getD (k + 1) 0 :=
      end_offset_eq junk _ x k hlen hn32 hk hidxk
    by_cases hlt : k < d
    · have hk1 : k < (ids.eraseIdx d).length := by omega
      have hx1 : (ids.eraseIdx d)[k] = x := by
        rw [List.getElem_eraseIdx_of_lt _ _ _ hk1 hlt]
        exact hxk
      have hidx1 : forarray_indexOf (ids.eraseIdx d) x = k := by
        unfold forarray_indexOf
        rw [← hx1]
        exact List.indexOf_getElem hnd1 k hk1
      refine ⟨hx1 ▸ List.getElem_mem _, ?_⟩
      have hs1 := start_offset_eq junk
        ⟨ids.eraseIdx d, compacted a [d],
          o.take (a.getD d 0)
            ++ o.drop (if d + 1 = ids.length then o.length else a.getD (d + 1) 0), ms⟩
        x k (by simp only []; omega) hidx1
      have he1 := end_offset_eq junk
        ⟨ids.eraseIdx d, compacted a [d],
          o.take (a.getD d 0)
            ++ o.drop (if d + 1 = ids.length then o.length else a.getD (d + 1) 0), ms⟩
        x k (by simp only []; omega) (by simp only []; omega) hk1 hidx1
      simp only [] at hs1 he1
      rw [compacted_single_getD a d k (by omega) (by omega), if_pos hlt] at hs1
      have he2 : end_offset junk
          ⟨ids.eraseIdx d, compacted a [d],
            o.take (a.getD d 0)
              ++ o.drop (if d + 1 = ids.length then o.length else a.getD (d + 1) 0), ms⟩ x
          = a.getD (k + 1) 0 := by
        rw [he1]
        by_cases hlast : k + 1 = (ids.eraseIdx d).length
        · rw [if_pos hlast, holen]
          have hdl : d + 1 = ids.length := by omega
          rw [if_pos hdl]
          have : k + 1 = d := by omega
          rw [this]
          omega
        · rw [if_neg hlast, compacted_single_getD a d (k + 1) (by omega) (by omega)]
          by_cases hk1d : k + 1 < d
          · rw [if_pos hk1d]
          · rw [if_neg hk1d]
            have hkd1 : k + 1 = d := by omega
            have f3 := hm d (d + 1) (by omega) (by omega)
            rw [hkd1]
            omega
      have hnl : ¬ k + 1 = ids.length := by omega
      have hle : a.getD (k + 1) 0 ≤ a.getD d 0 := hm (k + 1) d (by omega) (by omega)
      unfold doc_slice
      rw [hs1, he2, hs0, he0, if_neg hnl]
      simp only []
      exact slice_left o _ _ _ _ hA hle
    · have hgt : d < k := by omega
      have hk1 : k - 1 < (ids.eraseIdx d).length := by omega
      have hx1 : (ids.eraseIdx d)[k - 1] = x := by
        rw [List.getElem_eraseIdx_of_ge _ _ _ hk1 (by omega)]
        have : k - 1 + 1 = k := by omega
        simp only [this]
        exact hxk
      have hidx1 : forarray_indexOf (ids.eraseIdx d) x = k - 1 := by
        unfold forarray_indexOf
        rw [← hx1]
        exact List.indexOf_getElem hnd1 (k - 1) hk1
      refine ⟨hx1 ▸ List.getElem_mem _, ?_⟩
      have hdl : ¬ d + 1 = ids.length := by omega
      rw [if_neg hdl] at holen hAB hB
      simp only [if_neg hdl]
      have hs1 := start_offset_eq junk
        ⟨ids.eraseIdx d, compacted a [d],
          o.take (a.getD d 0) ++ o.drop (a.getD (d + 1) 0), ms⟩
        x (k - 1) (by simp only []; omega) hidx1
      have he1 := end_offset_eq junk
        ⟨ids.eraseIdx d, compacted a [d],
          o.take (a.getD d 0) ++ o.drop (a.getD (d + 1) 0), ms⟩
        x (k - 1) (by simp only []; omega) (by simp only []; omega) hk1 hidx1
      simp only [] at hs1 he1
      have hkk : k - 1 + 1 = k := by omega
      rw [compacted_single_getD a d (k - 1) (by omega) (by omega), if_neg (by omega), hkk] at hs1
      rw [hkk] at he1
      have he2 : end_offset junk
          ⟨ids.eraseIdx d, compacted a [d],
            o.take (a.getD d 0) ++ o.drop (a.getD (d + 1) 0), ms⟩ x
          = (if k + 1 = ids.length then o.length else a.getD (k + 1) 0)
            - (a.getD (d + 1) 0 - a.getD d 0) := by
        rw [he1]
        by_cases hlast : k + 1 = ids.length
        · rw [if_pos (by omega), if_pos hlast, holen]
          omega
        · rw [if_neg (by omega), if_neg hlast,
            compacted_single_getD a d k (by omega) (by omega), if_neg (by omega)]
      unfold doc_slice
      rw [hs1, he2, hs0, he0]
      simp only []
      apply slice_right o _ _ _ _ hAB hA (hm (d + 1) k (by omega) (by omega))
      split
      · exact hb k (by omega)
      · exact hm k (k + 1) (by omega) (by omega)


/-- C11, witness: document 2 removed from a leaf of three documents. -/
theorem remove_from_leaf_keeps_invariant_witness :
    (remove_from_leaf (fun _ => 0) 2
        { ids := [1, 2, 3], offset_index := [0, 2, 3], offsets := [0, 4, 1, 2, 5],
          max_score := 0 }).ids.length
      = (remove_from_leaf (fun _ => 0) 2
        { ids := [1, 2, 3], offset_index := [0, 2, 3], offsets := [0, 4, 1, 2, 5],
          max_score := 0 }).offset_index.length
    ∧ (remove_from_leaf (fun _ => 0) 2
        { ids := [1, 2, 3], offset_index := [0, 2, 3], offsets := [0, 4, 1, 2, 5],
          max_score := 0 }).offset_index.Pairwise (fun x y => x ≤ y)
    ∧ (∀ x ∈ (remove_from_leaf (fun _ => 0) 2
        { ids := [1, 2, 3], offset_index := [0, 2, 3], offsets := [0, 4, 1, 2, 5],
          max_score := 0 }).offset_index,
        x ≤ (remove_from_leaf (fun _ => 0) 2
          { ids := [1, 2, 3], offset_index := [0, 2, 3], offsets := [0, 4, 1, 2, 5],
            max_score := 0 }).offsets.length)
    ∧ (∀ x ∈ ({ ids := [1, 2, 3], offset_index := [0, 2, 3], offsets := [0, 4, 1, 2, 5],
                max_score := 0 } : art_leaf).ids, x ≠ 2 →
        x ∈ (remove_from_leaf (fun _ => 0) 2
          { ids := [1, 2, 3], offset_index := [0, 2, 3], offsets := [0, 4, 1, 2, 5],
            max_score := 0 }).ids
        ∧ doc_slice (fun _ => 0) (remove_from_leaf (fun _ => 0) 2
            { ids := [1, 2, 3], offset_index := [0, 2, 3], offsets := [0, 4, 1, 2, 5],
              max_score := 0 }) x
          = doc_slice (fun _ => 0)
              { ids := [1, 2, 3], offset_index := [0, 2, 3], offsets := [0, 4, 1, 2, 5],
                max_score := 0 } x) :=
  remove_from_leaf_keeps_invariant (fun _ => 0) 2 1
    { ids := [1, 2, 3], offset_index := [0, 2, 3], offsets := [0, 4, 1, 2, 5], max_score := 0 }
    (by decide) (by decide) (by decide) (by decide) (by decide) (by decide) (by decide)

/-! ## `Collection::remove` of a document whose title repeats a token -/

/-- C16, at a failing input: document 1 has the title `a a`, document 2 the
title `a`. The loop of `remove("1")` runs once per occurrence of the token: its
second turn finds the leaf again and looks the removed sequence id up a second
time (`indexOf` misses and yields the length), reads `offset_index` outside its
bounds and, with the values 0 and 1 read there, deletes the position of
document 2 from `offsets`. -/
theorem remove_repeated_token_failing_input :
    (collection_of ["a a", "a"]).t "a"
      = some { ids := [1, 2], offset_index := [0, 2], offsets := [0, 1, 0], max_score := 0 }
    ∧ doc_slice title_env.junk
        { ids := [1, 2], offset_index := [0, 2], offsets := [0, 1, 0], max_score := 0 } 2 = [0]
    ∧ (Collection.remove title_env (collection_of ["a a", "a"]) "1").1 = .ok ()
    ∧ remove_token title_env.junk 1 (collection_of ["a a", "a"]).t "a" "a"
      = some { ids := [2], offset_index := [0], offsets := [0], max_score := 0 }
    ∧ forarray_indexOf [2] 1 = [2].length
    ∧ (Collection.remove title_env (collection_of ["a a", "a"]) "1").2.t "a"
      = some { ids := [2], offset_index := [0], offsets := [], max_score := 0 }
    ∧ doc_slice title_env.junk
        { ids := [2], offset_index := [0], offsets := [], max_score := 0 } 2 = [] := by
  decide

/-! ## `Collection::search`: the clamp of `num_typos` -/

/-- C14: for every `int` `num_typos`, the maximum cost that `search` uses is
`num_typos` itself when `0 ≤ num_typos ≤ 2` and 2 for every other value,
negative ones included; and `search` starts with one cost list per token of the
query, each of them `[0, 1, .., max_cost]`. -/
theorem max_cost_and_initial_costs (num_typos : Int) (query : String) :
    (0 ≤ num_typos ∧ num_typos ≤ 2 → (max_cost_of num_typos : Int) = num_typos)
    ∧ (num_typos < 0 ∨ 2 < num_typos → max_cost_of num_typos = 2)
    ∧ (initial_state query (max_cost_of num_typos)).token_to_costs.length
        = (initial_state query (max_cost_of num_typos)).tokens.length
    ∧ (∀ costs ∈ (initial_state query (max_cost_of num_typos)).token_to_costs,
        costs.length = max_cost_of num_typos + 1
        ∧ ∀ i, i ≤ max_cost_of num_typos → costs.get? i = some i) := by
  refine ⟨?_, ?_, ?_, ?_⟩
  · rintro ⟨h0, h2⟩
    unfold max_cost_of
    rw [if_neg (by omega)]
    exact Int.toNat_of_nonneg h0
  · intro h
    unfold max_cost_of
    rw [if_pos (by omega)]
  · simp [initial_state]
  · intro costs hcosts
    simp only [initial_state, List.mem_map] at hcosts
    obtain ⟨_, _, rfl⟩ := hcosts
    refine ⟨by simp [all_costs], fun i hi => ?_⟩
    unfold all_costs
    rw [List.get?_eq_getElem?, List.getElem?_range (by omega)]

/-! ## `Collection::search`: a token without candidates -/

set_option maxRecDepth 100000 in
/-- C20, at a failing input: `search("nonexistent", 0, 10)` on an empty
collection. The only token has no candidate at cost 0, its last cost; it is
erased at `token_index = 0`, the decrement wraps `token_index` to `2^64 - 1`,
and line 242 reads `costs[token_index]` there, outside the vector of length
1. -/
theorem search_reads_costs_out_of_bounds :
    (initial_state "nonexistent" 0).tokens = ["nonexistent"]
    ∧ demo_fuzzy_search Collection.fresh.t "nonexistent" 12 0 3 .FREQUENCY false = []
    ∧ decrement 0 = 18446744073709551615
    ∧ (token_step demo_search_env Collection.fresh 0 .FREQUENCY false
        { initial_state "nonexistent" 0 with costs := [0] }).1.out_of_bounds = true
    ∧ (cost_loop title_env demo_search_env Collection.fresh 0 10 .FREQUENCY false 50
        (initial_state "nonexistent" 0)).map (fun r => r.map (fun st => st.out_of_bounds))
      = some (.ok true) := by
  decide

set_option maxRecDepth 100000 in
/-- C18, at a failing input: documents 1 `hello word`, 2 `hello words` and 3
`words`, `num_typos = 1`. The token `zzzzzz` has no candidate at cost 0 and at
cost 1. With it, `search("helo zzzzzz word", 1, 10)` returns documents 2 and 1;
without it, `search("helo word", 1, 10)` returns document 1 only: after the
erasure of `zzzzzz` the loop carries on with `word` under the cost 1 of the
erased token. -/
theorem search_ignored_token_failing_input :
    demo_fuzzy_search (collection_of ["hello word", "hello words", "words"]).t "zzzzzz" 7 0 3
        .FREQUENCY false = []
    ∧ demo_fuzzy_search (collection_of ["hello word", "hello words", "words"]).t "zzzzzz" 7 1 3
        .FREQUENCY false = []
    ∧ (Collection.search title_env demo_search_env
        (collection_of ["hello word", "hello words", "words"]) 50 "helo zzzzzz word" 1 10
        .FREQUENCY false).map (fun r => r.map (fun l => l.map Prod.fst)) = some (.ok [2, 1])
    ∧ (Collection.search title_env demo_search_env
        (collection_of ["hello word", "hello words", "words"]) 50 "helo word" 1 10
        .FREQUENCY false).map (fun r => r.map (fun l => l.map Prod.fst)) = some (.ok [1]) := by
  decide

/-! ## `Collection::next_suggestion` -/

theorem pick_combination_fold {α : Type} (lists : List (List α)) (n : Nat)
    (hne : ∀ l ∈ lists, l ≠ []) :
    (lists.foldr (fun l (acc : Nat × List α) =>
        (acc.1 / l.length, (l.get? (acc.1 % l.length)).toList ++ acc.2)) (n, [])).1
      = n / (lists.map List.length).prod
    ∧ (lists.foldr (fun l (acc : Nat × List α) =>
        (acc.1 / l.length, (l.get? (acc.1 % l.length)).toList ++ acc.2)) (n, [])).2.map some
      = List.zipWith (fun l q => l.get? q) lists
          (mixed_radix_digits (lists.map List.length) n) := by
  induction lists with
  | nil => simp [mixed_radix_digits]
  | cons l rest ih =>
    have ih := ih (fun x hx => hne x (List.mem_cons_of_mem _ hx))
    have hl : l ≠ [] := hne l (List.mem_cons_self _ _)
    have hpos : 0 < l.length := List.length_pos.mpr hl
    obtain ⟨ih1, ih2⟩ := ih
    refine ⟨?_, ?_⟩
    · simp only [List.foldr_cons, List.map_cons, List.prod_cons]
      rw [ih1, Nat.div_div_eq_div_mul, Nat.mul_comm]
    · simp only [List.foldr_cons, List.map_cons, mixed_radix_digits, List.zipWith_cons_cons,
        List.map_append]
      rw [ih1, ih2]
      have hlt : n / (rest.map List.length).prod % l.length < l.length := Nat.mod_lt _ hpos
      rw [List.get?_eq_getElem?, List.getElem?_eq_getElem hlt]
      simp

theorem mixed_radix_digits_lt (sizes : List Nat) (n : Nat) (hpos : ∀ s ∈ sizes, 0 < s) :
    List.Forall₂ (fun q s => q < s) (mixed_radix_digits sizes n) sizes := by
  induction sizes with
  | nil => exact List.Forall₂.nil
  | cons s rest ih =>
    exact List.Forall₂.cons (Nat.mod_lt _ (hpos s (List.mem_cons_self _ _)))
      (ih (fun x hx => hpos x (List.mem_cons_of_mem _ hx)))

theorem mixed_radix_value_digits (sizes : List Nat) (n : Nat) :
    mixed_radix_value sizes (mixed_radix_digits sizes n) = n % sizes.prod := by
  induction sizes with
  | nil => simp [mixed_radix_value, mixed_radix_digits, Nat.mod_one]
  | cons s rest ih =>
    simp only [mixed_radix_digits, mixed_radix_value, List.prod_cons]
    rw [ih, Nat.mul_comm s rest.prod, Nat.mod_mul, Nat.mul_comm, Nat.add_comm]

theorem mixed_radix_value_lt (sizes q : List Nat)
    (h : List.Forall₂ (fun q s => q < s) q sizes) :
    mixed_radix_value sizes q < sizes.prod := by
  induction h with
  | nil => simp [mixed_radix_value]
  | @cons a b l₁ l₂ hq _ ih =>
    simp only [mixed_radix_value, List.prod_cons]
    calc a * l₂.prod + mixed_radix_value l₂ l₁ < a * l₂.prod + l₂.prod := by omega
      _ = (a + 1) * l₂.prod := by ring
      _ ≤ b * l₂.prod := Nat.mul_le_mul_right _ hq

theorem mixed_radix_digits_add_mul (sizes : List Nat) (a v : Nat) :
    mixed_radix_digits sizes (a * sizes.prod + v) = mixed_radix_digits sizes v := by
  induction sizes generalizing a with
  | nil => simp [mixed_radix_digits]
  | cons s rest ih =>
    simp only [mixed_radix_digits, List.prod_cons]
    have h1 : a * (s * rest.prod) + v = (a * s) * rest.prod + v := by ring
    rw [h1, ih (a * s)]
    congr 1
    rcases Nat.eq_zero_or_pos rest.prod with h0 | hp
    · simp [h0]
    · rw [Nat.add_comm, Nat.add_mul_div_right _ _ hp, Nat.add_mul_mod_self_right]

theorem mixed_radix_digits_value (sizes q : List Nat)
    (h : List.Forall₂ (fun q s => q < s) q sizes) :
    mixed_radix_digits sizes (mixed_radix_value sizes q) = q := by
  induction h with
  | nil => simp [mixed_radix_digits]
  | @cons a b l₁ l₂ hq hrest ih =>
    have hv := mixed_radix_value_lt l₂ l₁ hrest
    simp only [mixed_radix_value, mixed_radix_digits]
    rw [mixed_radix_digits_add_mul, ih]
    congr 1
    rw [Nat.add_comm, Nat.add_mul_div_right _ _ (by omega), Nat.div_eq_of_lt hv, Nat.zero_add,
      Nat.mod_eq_of_lt hq]

/-- C19: for every list `token_leaves` of non-empty candidate lists and every
`n` (those below the product `N` of their lengths included),
`next_suggestion(token_leaves, n)` is a permutation of the leaves `token_leaves[i][q_i]`, where `q` are the
mixed-radix digits of `n` with the last list least significant, and it is
ordered by non-decreasing number of ids; and the digits map is a bijection from
`[0, N)` onto the tuples `q` with `q_i` below the length of list `i`. -/
theorem next_suggestion_enumerates (token_leaves : List (List art_leaf)) (n : Nat)
    (hne : ∀ l ∈ token_leaves, l ≠ []) :
    (∃ picks : List art_leaf,
        picks.map some = List.zipWith (fun l q => l.get? q) token_leaves
            (mixed_radix_digits (token_leaves.map List.length) n)
        ∧ (next_suggestion token_leaves n).Perm picks)
    ∧ (next_suggestion token_leaves n).Pairwise (fun a b => a.ids.length ≤ b.ids.length)
    ∧ Set.BijOn (mixed_radix_digits (token_leaves.map List.length))
        (Set.Iio (token_leaves.map List.length).prod)
        (setOf (fun q => List.Forall₂ (fun q s => q < s) q (token_leaves.map List.length))) := by
  have hpos : ∀ s ∈ token_leaves.map List.length, 0 < s := by
    intro s hs
    obtain ⟨l, hl, rfl⟩ := List.mem_map.mp hs
    exact List.length_pos.mpr (hne l hl)
  refine ⟨⟨pick_combination token_leaves n, (pick_combination_fold token_leaves n hne).2,
    List.perm_insertionSort _ _⟩, ?_, ?_⟩
  · haveI : IsTotal art_leaf fewer_ids := ⟨fun a b => Nat.le_total _ _⟩
    haveI : IsTrans art_leaf fewer_ids := ⟨fun a b c hab hbc => Nat.le_trans hab hbc⟩
    exact List.sorted_insertionSort fewer_ids (pick_combination token_leaves n)
  · refine Set.InvOn.bijOn
      (⟨?_, ?_⟩ : Set.InvOn (mixed_radix_value (token_leaves.map List.length))
        (mixed_radix_digits (token_leaves.map List.length)) _ _) ?_ ?_
    · intro m hm
      rw [mixed_radix_value_digits, Nat.mod_eq_of_lt hm]
    · intro q hq
      exact mixed_radix_digits_value _ q hq
    · intro m _
      exact mixed_radix_digits_lt _ m hpos
    · intro q hq
      exact mixed_radix_value_lt _ q hq

/-- C19, witness: two candidates for the first token, one for the second, and
`n = 1`. -/
theorem next_suggestion_enumerates_witness :
    (∃ picks : List art_leaf,
        picks.map some = List.zipWith (fun l q => l.get? q)
            [[{ ids := [1, 2], offset_index := [0, 1], offsets := [0, 0], max_score := 0 },
              { ids := [3, 4, 5], offset_index := [0, 1, 2], offsets := [0, 0, 0],
                max_score := 0 }],
             [{ ids := [4], offset_index := [0], offsets := [1], max_score := 0 }]]
            (mixed_radix_digits [2, 1] 1)
        ∧ (next_suggestion
            [[{ ids := [1, 2], offset_index := [0, 1], offsets := [0, 0], max_score := 0 },
              { ids := [3, 4, 5], offset_index := [0, 1, 2], offsets := [0, 0, 0],
                max_score := 0 }],
             [{ ids := [4], offset_index := [0], offsets := [1], max_score := 0 }]] 1).Perm picks)
    ∧ (next_suggestion
        [[{ ids := [1, 2], offset_index := [0, 1], offsets := [0, 0], max_score := 0 },
          { ids := [3, 4, 5], offset_index := [0, 1, 2], offsets := [0, 0, 0],
            max_score := 0 }],
         [{ ids := [4], offset_index := [0], offsets := [1], max_score := 0 }]] 1).Pairwise
          (fun a b => a.ids.length ≤ b.ids.length)
    ∧ Set.BijOn (mixed_radix_digits [2, 1]) (Set.Iio 2)
        (setOf (fun q => List.Forall₂ (fun q s => q < s) q [2, 1])) :=
  next_suggestion_enumerates
    [[{ ids := [1, 2], offset_index := [0, 1], offsets := [0, 0], max_score := 0 },
      { ids := [3, 4, 5], offset_index := [0, 1, 2], offsets := [0, 0, 0], max_score := 0 }],
     [{ ids := [4], offset_index := [0], offsets := [1], max_score := 0 }]] 1
    (by simp)

/-! ## `Collection::search`: the query of the fallback -/

set_option maxRecDepth 1000000 in
/-- C17, at a failing input: documents 1 `alpha`, 2 `bravo`, 3 `bravo`,
4 `bravo charlie`, 5 `charlie`, and `search(long_query, 2, 10)` with the 58
tokens of `long_query`. The cost loop ends without results and without a read
out of bounds; `token_to_count` sorted by count is `bravo` (3), `charlie` (2),
`alpxx` (1), so the claim has the fallback recurse on ` bravo charlie`, which
finds document 4. The code recurses on ` bravo` and returns documents 2, 3 and
4: `tokens[1]` is `yyyyyy`, which has no count, and the test of line 281 filters
`charlie` away. The token `yyyyyy`, which has no candidate at any cost, is still
in `tokens` because the loop ended when it had lost its costs 2 and 0 only: the
product `N` of the sizes, `3^55` in 64 bits, was negative then. -/
theorem search_fallback_query_failing_input :
    (initial_state long_query 2).tokens.length = 58
    ∧ (cost_loop title_env demo_search_env
        (collection_of ["alpha", "bravo", "bravo", "bravo charlie", "charlie"]) 2 10 .FREQUENCY
        false 50 (initial_state long_query 2)).map (fun r => r.map (fun st =>
          (st.results.length, st.out_of_bounds, st.n, st.N)))
      = some (.ok (0, false, 0, long_long_of (3 ^ 55)))
    ∧ long_long_of (3 ^ 55) < 0
    ∧ (cost_loop title_env demo_search_env
        (collection_of ["alpha", "bravo", "bravo", "bravo charlie", "charlie"]) 2 10 .FREQUENCY
        false 50 (initial_state long_query 2)).map (fun r => r.map (fun st =>
          (st.tokens.take 3, token_count_pairs st, truncated_query demo_search_env st)))
      = some (.ok (["alpxx", "yyyyyy", "bravo"], [("bravo", 3), ("charlie", 2), ("alpxx", 1)],
          " bravo"))
    ∧ (Collection.search title_env demo_search_env
        (collection_of ["alpha", "bravo", "bravo", "bravo charlie", "charlie"]) 50 long_query 2 10
        .FREQUENCY false).map (fun r => r.map (fun l => l.map Prod.fst)) = some (.ok [2, 3, 4])
    ∧ (Collection.search title_env demo_search_env
        (collection_of ["alpha", "bravo", "bravo", "bravo charlie", "charlie"]) 50 " bravo charlie"
        2 10 .FREQUENCY false).map (fun r => r.map (fun l => l.map Prod.fst)) = some (.ok [4]) := by
  refine ⟨by decide, by decide, by decide, by decide, by decide, by decide⟩

/-! ## `Collection::search`: termination and the bound on the results -/



theorem count_set_keys (l : List (String × Nat)) (token : String) (count : Nat) :
    (count_set l token count).map Prod.fst
      = if token ∈ l.map Prod.fst then l.map Prod.fst else l.map Prod.fst ++ [token] := by
  induction l with
  | nil => simp [count_set]
  | cons p rest ih =>
    obtain ⟨k, v⟩ := p
    unfold count_set
    by_cases hk : k = token
    · subst hk
      simp
    · rw [if_neg hk]
      simp only [List.map_cons, ih, List.mem_cons]
      have hk2 : ¬ token = k := fun h => hk h.symm
      by_cases hm : token ∈ rest.map Prod.fst
      · simp [hm]
      · simp [hm, hk2]

theorem cost_sum_eraseIdx (tcs : List (List Nat)) (i : Nat) (h : i < tcs.length) :
    cost_sum (tcs.eraseIdx i) + (tcs.getD i []).length = cost_sum tcs := by
  induction tcs generalizing i with
  | nil => simp at h
  | cons l rest ih =>
    cases i with
    | zero => simp [cost_sum, Nat.add_comm]
    | succ i =>
      have := ih i (by simpa using h)
      simp only [cost_sum, List.eraseIdx_cons_succ, List.map_cons, List.sum_cons,
        List.getD_cons_succ] at this ⊢
      omega

theorem cost_sum_set (tcs : List (List Nat)) (i : Nat) (l : List Nat) (h : i < tcs.length) :
    cost_sum (tcs.set i l) + (tcs.getD i []).length = cost_sum tcs + l.length := by
  induction tcs generalizing i with
  | nil => simp at h
  | cons l2 rest ih =>
    cases i with
    | zero => simp [cost_sum]; omega
    | succ i =>
      have := ih i (by simpa using h)
      simp only [cost_sum, List.set_cons_succ, List.map_cons, List.sum_cons,
        List.getD_cons_succ] at this ⊢
      omega

theorem increment_decrement (i : Nat) (h : i < SIZE_T) : increment (decrement i) = i := by
  unfold increment decrement SIZE_T at *
  omega

theorem increment_lt (i : Nat) (h : i + 1 < SIZE_T) : increment i = i + 1 := by
  unfold increment
  exact Nat.mod_eq_of_lt h

theorem token_step_hit (senv : SearchEnv) (c : Collection) (max_cost : Nat)
    (token_order : token_ordering) (prefix_search : Bool) (st : SearchState)
    (h : token_candidates senv c token_order prefix_search st ≠ []) :
    (token_step senv c max_cost token_order prefix_search st).2 = false
    ∧ (token_step senv c max_cost token_order prefix_search st).1.tokens = st.tokens
    ∧ (token_step senv c max_cost token_order prefix_search st).1.token_to_costs
        = st.token_to_costs
    ∧ (token_step senv c max_cost token_order prefix_search st).1.n = st.n
    ∧ (token_step senv c max_cost token_order prefix_search st).1.costs = st.costs
    ∧ (token_step senv c max_cost token_order prefix_search st).1.token_index
        = increment st.token_index
    ∧ (token_step senv c max_cost token_order prefix_search st).1.token_to_count
        = count_set st.token_to_count (st.tokens.getD st.token_index "")
            (((token_candidates senv c token_order prefix_search st).head?.map
              (fun leaf => leaf.ids.length)).getD 0) := by
  unfold token_step
  rw [if_pos h]
  exact ⟨rfl, rfl, rfl, rfl, rfl, rfl, rfl⟩

theorem token_step_miss (senv : SearchEnv) (c : Collection) (max_cost : Nat)
    (token_order : token_ordering) (prefix_search : Bool) (st : SearchState)
    (h : ¬ token_candidates senv c token_order prefix_search st ≠ []) :
    (token_step senv c max_cost token_order prefix_search st).1.tokens
        = (if (decide (read_cost senv st.costs st.token_index
                ∈ st.token_to_costs.getD st.token_index [])
              && decide ((st.token_to_costs.getD st.token_index []).erase
                (read_cost senv st.costs st.token_index) = []))
           then st.tokens.eraseIdx st.token_index else st.tokens)
    ∧ (token_step senv c max_cost token_order prefix_search st).1.token_to_costs
        = (if (decide (read_cost senv st.costs st.token_index
                ∈ st.token_to_costs.getD st.token_index [])
              && decide ((st.token_to_costs.getD st.token_index []).erase
                (read_cost senv st.costs st.token_index) = []))
           then st.token_to_costs.eraseIdx st.token_index
           else if decide (read_cost senv st.costs st.token_index
                ∈ st.token_to_costs.getD st.token_index [])
           then st.token_to_costs.set st.token_index
              ((st.token_to_costs.getD st.token_index []).erase
                (read_cost senv st.costs st.token_index))
           else st.token_to_costs)
    ∧ (token_step senv c max_cost token_order prefix_search st).1.n = -1
    ∧ (token_step senv c max_cost token_order prefix_search st).1.costs = st.costs
    ∧ (token_step senv c max_cost token_order prefix_search st).1.token_to_count
        = st.token_to_count
    ∧ ((token_step senv c max_cost token_order prefix_search st).2 = false →
        (token_step senv c max_cost token_order prefix_search st).1.token_index
          = increment (if (decide (read_cost senv st.costs st.token_index
                ∈ st.token_to_costs.getD st.token_index [])
              && decide ((st.token_to_costs.getD st.token_index []).erase
                (read_cost senv st.costs st.token_index) = []))
            then decrement st.token_index else st.token_index)) := by
  unfold token_step
  rw [if_neg h]
  dsimp only
  split_ifs <;> simp

theorem token_step_inv (senv : SearchEnv) (c : Collection) (max_cost : Nat)
    (token_order : token_ordering) (prefix_search : Bool) (toks0 : List String)
    (st : SearchState) (hinv : search_inv toks0 st) (hidx : st.token_index < st.tokens.length) :
    search_inv toks0 (token_step senv c max_cost token_order prefix_search st).1
    ∧ (token_step senv c max_cost token_order prefix_search st).1.costs = st.costs
    ∧ ((token_step senv c max_cost token_order prefix_search st).2 = false →
        (token_step senv c max_cost token_order prefix_search st).1.token_index
          ≤ (token_step senv c max_cost token_order prefix_search st).1.tokens.length
        ∧ (token_step senv c max_cost token_order prefix_search st).1.tokens.length
            - (token_step senv c max_cost token_order prefix_search st).1.token_index
          < st.tokens.length - st.token_index)
    ∧ (((token_step senv c max_cost token_order prefix_search st).1.token_to_costs
          = st.token_to_costs
        ∧ (token_step senv c max_cost token_order prefix_search st).1.n = st.n)
      ∨ ((token_step senv c max_cost token_order prefix_search st).1.n = -1
        ∧ cost_sum (token_step senv c max_cost token_order prefix_search st).1.token_to_costs
            ≤ cost_sum st.token_to_costs
        ∧ (read_cost senv st.costs st.token_index ∈ st.token_to_costs.getD st.token_index [] →
            cost_sum (token_step senv c max_cost token_order prefix_search st).1.token_to_costs
              < cost_sum st.token_to_costs))) := by
  obtain ⟨hlen, hne, hsize, htok, hkey, hnd⟩ := hinv
  have hidx2 : st.token_index < st.token_to_costs.length := by omega
  by_cases h : token_candidates senv c token_order prefix_search st ≠ []
  · obtain ⟨e1, e2, e3, e4, e5, e6, e7⟩ :=
      token_step_hit senv c max_cost token_order prefix_search st h
    have hinc : increment st.token_index = st.token_index + 1 := increment_lt _ (by omega)
    have hmem : st.tokens.getD st.token_index "" ∈ st.tokens := by
      rw [List.getD_eq_getElem _ _ hidx]
      exact List.getElem_mem _
    refine ⟨⟨?_, ?_, ?_, ?_, ?_, ?_⟩, e5, ?_, Or.inl ⟨e3, e4⟩⟩
    · rw [e2, e3]; exact hlen
    · rw [e3]; exact hne
    · rw [e2]; exact hsize
    · rw [e2]; exact htok
    · rw [e7, count_set_keys]
      intro key hk
      split_ifs at hk with hin
      · exact hkey key hk
      · rcases List.mem_append.mp hk with hk | hk
        · exact hkey key hk
        · rw [List.mem_singleton.mp hk]
          exact htok _ hmem
    · rw [e7, count_set_keys]
      split_ifs with hin
      · exact hnd
      · rw [List.nodup_append]
        refine ⟨hnd, by simp, ?_⟩
        intro a ha hb
        rw [List.mem_singleton.mp hb] at ha
        exact hin ha
    · intro _
      rw [e6, e2, hinc]
      omega
  · obtain ⟨e1, e2, e3, e4, e5, e6⟩ :=
      token_step_miss senv c max_cost token_order prefix_search st h
    have hsub : ∀ t ∈ st.tokens.eraseIdx st.token_index, t ∈ st.tokens :=
      fun t ht => (List.eraseIdx_sublist _ _).subset ht
    have hsub2 : ∀ l ∈ st.token_to_costs.eraseIdx st.token_index, l ∈ st.token_to_costs :=
      fun t ht => (List.eraseIdx_sublist _ _).subset ht
    have hl1 : (st.tokens.eraseIdx st.token_index).length = st.tokens.length - 1 :=
      List.length_eraseIdx_of_lt hidx
    have hl2 : (st.token_to_costs.eraseIdx st.token_index).length
        = st.token_to_costs.length - 1 := List.length_eraseIdx_of_lt hidx2
    have hs1 := cost_sum_eraseIdx st.token_to_costs st.token_index hidx2
    have hs2 := cost_sum_set st.token_to_costs st.token_index
      ((st.token_to_costs.getD st.token_index []).erase
        (read_cost senv st.costs st.token_index)) hidx2
    by_cases hm : read_cost senv st.costs st.token_index
        ∈ st.token_to_costs.getD st.token_index []
    · have hlen_erase : ((st.token_to_costs.getD st.token_index []).erase
          (read_cost senv st.costs st.token_index)).length
          = (st.token_to_costs.getD st.token_index []).length - 1 := List.length_erase_of_mem hm
      have hpos : 0 < (st.token_to_costs.getD st.token_index []).length :=
        List.length_pos_of_mem hm
      by_cases hx : (st.token_to_costs.getD st.token_index []).erase
          (read_cost senv st.costs st.token_index) = []
      · simp only [hm, hx, decide_True, Bool.and_self, if_true] at e1 e2 e6
        refine ⟨⟨?_, ?_, ?_, ?_, ?_, ?_⟩, e4, ?_, Or.inr ⟨e3, ?_, ?_⟩⟩
        · rw [e1, e2, hl1, hl2, hlen]
        · rw [e2]; exact fun l hl => hne l (hsub2 l hl)
        · rw [e1, hl1]; omega
        · rw [e1]; exact fun t ht => htok t (hsub t ht)
        · rw [e5]; exact hkey
        · rw [e5]; exact hnd
        · intro hb
          rw [e6 hb, e1, hl1, increment_decrement _ (by omega)]
          omega
        · rw [e2]; omega
        · intro _; rw [e2]; omega
      · simp only [hm, hx, decide_True, decide_False, Bool.and_false, Bool.false_eq_true,
          if_false, if_true] at e1 e2 e6
        have hinc : increment st.token_index = st.token_index + 1 := increment_lt _ (by omega)
        refine ⟨⟨?_, ?_, ?_, ?_, ?_, ?_⟩, e4, ?_, Or.inr ⟨e3, ?_, ?_⟩⟩
        · rw [e1, e2, List.length_set]; exact hlen
        · rw [e2]
          intro l hl
          rcases List.mem_or_eq_of_mem_set hl with hl | hl
          · exact hne l hl
          · rw [hl]; exact hx
        · rw [e1]; exact hsize
        · rw [e1]; exact htok
        · rw [e5]; exact hkey
        · rw [e5]; exact hnd
        · intro hb
          rw [e6 hb, e1, hinc]
          omega
        · rw [e2]; omega
        · intro _; rw [e2]; omega
    · simp only [hm, decide_False, Bool.false_and, Bool.false_eq_true, if_false] at e1 e2 e6
      have hinc : increment st.token_index = st.token_index + 1 := increment_lt _ (by omega)
      refine ⟨⟨?_, ?_, ?_, ?_, ?_, ?_⟩, e4, ?_, Or.inr ⟨e3, ?_, ?_⟩⟩
      · rw [e1, e2]; exact hlen
      · rw [e2]; exact hne
      · rw [e1]; exact hsize
      · rw [e1]; exact htok
      · rw [e5]; exact hkey
      · rw [e5]; exact hnd
      · intro hb
        rw [e6 hb, e1, hinc]
        omega
      · rw [e2]
      · intro hc; exact absurd hc hm

theorem token_loop_inv (senv : SearchEnv) (c : Collection) (max_cost : Nat)
    (token_order : token_ordering) (prefix_search : Bool) (toks0 : List String)
    (tcs0 : List (List Nat)) (n0 : Int) (costs0 : List Nat)
    (halign : ∀ i, i < tcs0.length → read_cost senv costs0 i ∈ tcs0.getD i []) (fuel : Nat) :
    ∀ st : SearchState, search_inv toks0 st → st.token_index ≤ st.tokens.length →
      st.tokens.length - st.token_index < fuel → st.costs = costs0 →
      ((st.token_to_costs = tcs0 ∧ st.n = n0)
        ∨ (st.n = -1 ∧ cost_sum st.token_to_costs < cost_sum tcs0)) →
      ∃ st2, token_loop senv c max_cost token_order prefix_search fuel st = some st2
        ∧ search_inv toks0 st2
        ∧ ((st2.token_to_costs = tcs0 ∧ st2.n = n0)
          ∨ (st2.n = -1 ∧ cost_sum st2.token_to_costs < cost_sum tcs0)) := by
  induction fuel with
  | zero => intro st _ _ hf; omega
  | succ fuel ih =>
    intro st hinv hidx hfuel hcosts hd
    unfold token_loop
    by_cases hlt : st.token_index < st.tokens.length
    · rw [if_pos hlt]
      obtain ⟨s1, s2, s3, s4⟩ :=
        token_step_inv senv c max_cost token_order prefix_search toks0 st hinv hlt
      have hd2 : ((token_step senv c max_cost token_order prefix_search st).1.token_to_costs
            = tcs0
          ∧ (token_step senv c max_cost token_order prefix_search st).1.n = n0)
          ∨ ((token_step senv c max_cost token_order prefix_search st).1.n = -1
            ∧ cost_sum (token_step senv c max_cost token_order prefix_search st).1.token_to_costs
              < cost_sum tcs0) := by
        rcases s4 with ⟨a1, a2⟩ | ⟨b1, b2, b3⟩
        · rcases hd with ⟨d1, d2⟩ | ⟨d1, d2⟩
          · exact Or.inl ⟨a1.trans d1, a2.trans d2⟩
          · exact Or.inr ⟨a2.trans d1, by rw [a1]; exact d2⟩
        · rcases hd with ⟨d1, d2⟩ | ⟨d1, d2⟩
          · refine Or.inr ⟨b1, ?_⟩
            have hi : st.token_index < tcs0.length := by
              rw [← d1, ← hinv.1]; exact hlt
            have := halign st.token_index hi
            rw [← hcosts, ← d1] at this
            rw [← d1]
            exact b3 this
          · exact Or.inr ⟨b1, by omega⟩
      cases hs : token_step senv c max_cost token_order prefix_search st with
      | mk st3 b =>
        rw [hs] at s1 s2 s3 hd2
        cases b with
        | true => exact ⟨st3, rfl, s1, hd2⟩
        | false =>
          have h3 := s3 rfl
          dsimp only at h3
          exact ih st3 s1 h3.1 (by omega) (s2.trans hcosts) hd2
    · rw [if_neg hlt]
      exact ⟨st, rfl, hinv, hd⟩

theorem pick_combination_cons {α : Type} (l : List α) (rest : List (List α)) (n : Nat) :
    ∃ k, pick_combination (l :: rest) n = (l.get? (k % l.length)).toList ++ pick_combination rest n :=
  ⟨_, rfl⟩

theorem pick_combination_mem {α : Type} (lists : List (List α)) (n : Nat)
    (hne : ∀ l ∈ lists, l ≠ []) :
    List.Forall₂ (fun x l => x ∈ l) (pick_combination lists n) lists := by
  induction lists with
  | nil => exact List.Forall₂.nil
  | cons l rest ih =>
    obtain ⟨k, hk⟩ := pick_combination_cons l rest n
    rw [hk]
    have hpos : 0 < l.length := List.length_pos.mpr (hne l (List.mem_cons_self _ _))
    have hlt : k % l.length < l.length := Nat.mod_lt _ hpos
    rw [List.get?_eq_getElem?, List.getElem?_eq_getElem hlt]
    exact List.Forall₂.cons (List.getElem_mem _)
      (ih (fun x hx => hne x (List.mem_cons_of_mem _ hx)))

theorem forall2_mem_getD {α : Type} (xs : List α) (ls : List (List α)) (junk : α)
    (h : List.Forall₂ (fun x l => x ∈ l) xs ls) :
    ∀ i, i < ls.length → (xs.get? i).getD junk ∈ ls.getD i [] := by
  induction h with
  | nil => intro i hi; simp at hi
  | @cons x l xs ls hx _ ih =>
    intro i hi
    cases i with
    | zero => simpa using hx
    | succ i =>
      have := ih i (by simpa using hi)
      simpa using this

theorem cost_step_inv (env : Env) (senv : SearchEnv) (c : Collection)
    (max_cost max_results : Nat) (token_order : token_ordering) (prefix_search : Bool)
    (toks0 : List String) (st : SearchState) (hinv : search_inv toks0 st)
    (hn0 : 0 ≤ st.n) (hn : st.n < 10) :
    ∃ r, cost_step env senv c max_cost max_results token_order prefix_search st = some r
      ∧ ∀ st2 b, r = .ok (st2, b) →
          search_inv toks0 st2
          ∧ (b = false → 0 ≤ st2.n ∧ st2.n ≤ 10 ∧ cost_measure st2 < cost_measure st) := by
  have halign := forall2_mem_getD _ _ senv.junk_cost
    (pick_combination_mem st.token_to_costs st.n.toNat hinv.2.1)
  obtain ⟨st2, hl, hinv2, hd⟩ := token_loop_inv senv c max_cost token_order prefix_search toks0
    st.token_to_costs st.n (pick_combination st.token_to_costs st.n.toNat) halign
    (st.tokens.length + 1)
    { st with costs := pick_combination st.token_to_costs st.n.toNat,
              token_leaves := [], token_index := 0, retry_with_larger_cost := false }
    hinv (Nat.zero_le _) (by simp) rfl (Or.inl ⟨rfl, rfl⟩)
  have hmeas : 0 ≤ st2.n + 1 ∧ st2.n + 1 ≤ 10
      ∧ 11 * cost_sum st2.token_to_costs + (10 - (st2.n + 1)).toNat < cost_measure st := by
    unfold cost_measure
    rcases hd with ⟨d1, d2⟩ | ⟨d1, d2⟩
    · rw [d1, d2]; omega
    · rw [d1]; omega
  unfold cost_step
  rw [hl]
  dsimp only
  split_ifs with hc
  · cases hsc : Collection.search_candidates env senv c st2.token_leaves st2.results
        st2.total_results max_results with
    | error e =>
      refine ⟨_, rfl, ?_⟩
      intro st3 b hb
      simp at hb
    | ok p =>
      obtain ⟨results, total_results⟩ := p
      dsimp only
      split_ifs with hpos
      · refine ⟨_, rfl, ?_⟩
        intro st3 b hb
        simp only [Except.ok.injEq, Prod.mk.injEq] at hb
        obtain ⟨rfl, rfl⟩ := hb
        exact ⟨hinv2, fun hf => by simp at hf⟩
      · refine ⟨_, rfl, ?_⟩
        intro st3 b hb
        simp only [Except.ok.injEq, Prod.mk.injEq] at hb
        obtain ⟨rfl, rfl⟩ := hb
        exact ⟨hinv2, fun _ => hmeas⟩
  · refine ⟨_, rfl, ?_⟩
    intro st3 b hb
    simp only [Except.ok.injEq, Prod.mk.injEq] at hb
    obtain ⟨rfl, rfl⟩ := hb
    exact ⟨hinv2, fun _ => hmeas⟩

theorem cost_loop_terminates (env : Env) (senv : SearchEnv) (c : Collection)
    (max_cost max_results : Nat) (token_order : token_ordering) (prefix_search : Bool)
    (toks0 : List String) (fuel : Nat) :
    ∀ st : SearchState, search_inv toks0 st → 0 ≤ st.n → st.n ≤ 10 → cost_measure st < fuel →
      ∃ r, cost_loop env senv c max_cost max_results token_order prefix_search fuel st = some r
        ∧ ∀ st2, r = .ok st2 → search_inv toks0 st2 := by
  induction fuel with
  | zero => intro st _ _ _ hf; omega
  | succ fuel ih =>
    intro st hinv hn0 hn10 hf
    unfold cost_loop
    by_cases hc : st.n < st.N ∧ st.n < (combination_limit : Int)
    · rw [if_pos hc]
      have hlt : st.n < 10 := by
        have := hc.2
        simpa [combination_limit] using this
      obtain ⟨r, hr, hprop⟩ := cost_step_inv env senv c max_cost max_results token_order
        prefix_search toks0 st hinv hn0 hlt
      rw [hr]
      cases r with
      | error e => exact ⟨_, rfl, fun st2 h => by simp at h⟩
      | ok p =>
        obtain ⟨st2, b⟩ := p
        have h2 := hprop st2 b rfl
        cases b with
        | true =>
          refine ⟨_, rfl, ?_⟩
          intro st3 h3
          simp only [Except.ok.injEq] at h3
          subst h3
          exact h2.1
        | false =>
          have h3 := h2.2 rfl
          exact ih st2 h2.1 h3.1 h3.2.1 (by omega)
    · rw [if_neg hc]
      refine ⟨_, rfl, ?_⟩
      intro st3 h3
      simp only [Except.ok.injEq] at h3
      subst h3
      exact hinv



theorem toLower_ne_space (ch : Char) (h : ch ≠ ' ') : ch.toLower ≠ ' ' := by
  unfold Char.toLower
  dsimp only
  split_ifs with hc
  · have : ∀ n : Nat, 65 ≤ n → n ≤ 90 → Char.ofNat (n + 32) ≠ ' ' := by
      intro n h1 h2
      interval_cases n <;> decide
    exact this _ hc.1 hc.2
  · exact h

theorem split_on_space_no_space (cs : List Char) :
    ∀ cur : List Char, (∀ ch ∈ cur, ch ≠ ' ') →
      ∀ w ∈ split_on_space cs cur, ∀ ch ∈ w.data, ch ≠ ' ' := by
  induction cs with
  | nil =>
    intro cur hcur w hw
    unfold split_on_space at hw
    split_ifs at hw with h0
    · simp at hw
    · rw [List.mem_singleton.mp hw]
      intro ch hch
      exact hcur ch (by simpa using hch)
  | cons c rest ih =>
    intro cur hcur w hw
    unfold split_on_space at hw
    split_ifs at hw with hsp h0
    · exact ih [] (by simp) w hw
    · rcases List.mem_cons.mp hw with hw | hw
      · rw [hw]
        intro ch hch
        exact hcur ch (by simpa using hch)
      · exact ih [] (by simp) w hw
    · refine ih (c :: cur) ?_ w hw
      intro ch hch
      rcases List.mem_cons.mp hch with hch | hch
      · rw [hch]; exact hsp
      · exact hcur ch hch

theorem tolower_no_space (w : String) (h : ∀ ch ∈ w.data, ch ≠ ' ') :
    ∀ ch ∈ (tolower w).data, ch ≠ ' ' := by
  intro ch hch
  simp only [tolower, List.mem_map] at hch
  obtain ⟨a, ha, rfl⟩ := hch
  exact toLower_ne_space a (h a ha)

theorem split_on_space_word (w : List Char) (hw : ∀ ch ∈ w, ch ≠ ' ') :
    ∀ (rest cur : List Char),
      split_on_space (w ++ rest) cur = split_on_space rest (w.reverse ++ cur) := by
  induction w with
  | nil => intro rest cur; rfl
  | cons c w ih =>
    intro rest cur
    have hc : c ≠ ' ' := hw c (List.mem_cons_self _ _)
    rw [List.cons_append, split_on_space, if_neg hc,
      ih (fun ch hch => hw ch (List.mem_cons_of_mem _ hch))]
    simp

theorem split_on_space_pieces (ws : List String)
    (hws : ∀ w ∈ ws, ∀ ch ∈ w.data, ch ≠ ' ') :
    ∀ cur : List Char,
      (split_on_space ((ws.map (fun w => ' ' :: w.data)).flatten) cur).length
        ≤ ws.length + (if cur = [] then 0 else 1) := by
  induction ws with
  | nil =>
    intro cur
    simp only [List.map_nil, List.flatten_nil, split_on_space]
    split_ifs <;> simp
  | cons w ws ih =>
    intro cur
    have h1 := ih (fun x hx => hws x (List.mem_cons_of_mem _ hx)) (w.data.reverse ++ [])
    have h2 : (if w.data.reverse ++ [] = [] then 0 else 1) ≤ 1 := by split_ifs <;> omega
    simp only [List.map_cons, List.flatten_cons, List.cons_append]
    rw [split_on_space, if_pos rfl,
      split_on_space_word w.data (hws w (List.mem_cons_self _ _))]
    split_ifs with h0
    · simp only [List.length_cons]; omega
    · simp only [List.length_cons]; omega

theorem truncate_loop_data (senv : SearchEnv) (st : SearchState) (k : Nat) :
    ∀ (i : Nat) (acc : String), ∃ ws : List String, ws.length ≤ k
      ∧ (∀ w ∈ ws, w ∈ (token_count_pairs st).map Prod.fst ∨ w = "")
      ∧ (truncate_loop senv st k i acc).data
          = acc.data ++ (ws.map (fun w => ' ' :: w.data)).flatten := by
  induction k with
  | zero => intro i acc; exact ⟨[], by simp, by simp, by simp [truncate_loop]⟩
  | succ k ih =>
    intro i acc
    unfold truncate_loop
    split_ifs with hc
    · obtain ⟨ws, h1, h2, h3⟩ := ih (i + 1)
        (acc ++ (" " ++ ((token_count_pairs st).getD i ("", 0)).1))
      refine ⟨((token_count_pairs st).getD i ("", 0)).1 :: ws, by simp; omega, ?_, ?_⟩
      · intro w hw
        rcases List.mem_cons.mp hw with hw | hw
        · rw [hw]
          by_cases hi : i < (token_count_pairs st).length
          · left
            rw [List.getD_eq_getElem _ _ hi]
            exact List.mem_map_of_mem _ (List.getElem_mem _)
          · right
            rw [List.getD_eq_default _ _ (by omega)]
        · exact h2 w hw
      · rw [h3]
        simp [String.data_append]
    · obtain ⟨ws, h1, h2, h3⟩ := ih (i + 1) acc
      exact ⟨ws, by omega, h2, h3⟩

theorem truncated_query_tokens (senv : SearchEnv) (st : SearchState) (toks0 : List String)
    (hkey : ∀ key ∈ st.token_to_count.map Prod.fst, key ∈ toks0)
    (hsp : ∀ w ∈ toks0, ∀ ch ∈ w.data, ch ≠ ' ') (hne : st.token_to_count.length ≠ 0) :
    (StringUtils_tokenize (truncated_query senv st)).length < st.token_to_count.length := by
  obtain ⟨ws, h1, h2, h3⟩ := truncate_loop_data senv st ((token_count_pairs st).length - 1) 0 ""
  have hperm : (token_count_pairs st).Perm st.token_to_count := List.perm_insertionSort _ _
  have hlen : (token_count_pairs st).length = st.token_to_count.length := hperm.length_eq
  have hws : ∀ w ∈ ws, ∀ ch ∈ w.data, ch ≠ ' ' := by
    intro w hw
    rcases h2 w hw with hin | h0
    · exact hsp w (hkey w ((hperm.map Prod.fst).subset hin))
    · rw [h0]; simp
  have := split_on_space_pieces ws hws []
  unfold StringUtils_tokenize truncated_query
  rw [h3]
  have he : ("" : String).data = [] := rfl
  rw [he, List.nil_append]
  simp only [if_true] at this
  omega

theorem keys_le_distinct (keys toks0 : List String) (hnd : keys.Nodup)
    (hsub : ∀ key ∈ keys, key ∈ toks0) : keys.length ≤ toks0.dedup.length :=
  (List.subperm_of_subset hnd (fun key hk => List.mem_dedup.mpr (hsub key hk))).length_le



theorem collect_results_inv (env : Env) (c : Collection) (max_results : Nat) (keys : List Nat) :
    ∀ (st st2 : Candidates), collect_results env c max_results keys st = .ok st2 →
      st.results.length = st.total_results → st.total_results ≤ max_results →
      (st.results.map Prod.fst).Nodup → (∀ x ∈ st.results.map Prod.fst, x ∈ st.dedup_seq_ids) →
      st2.results.length = st2.total_results ∧ st2.total_results ≤ max_results
      ∧ (st2.results.map Prod.fst).Nodup
      ∧ (∀ x ∈ st2.results.map Prod.fst, x ∈ st2.dedup_seq_ids) := by
  induction keys with
  | nil =>
    intro st st2 h h1 h2 h3 h4
    simp only [collect_results, Except.ok.injEq] at h
    subst h
    exact ⟨h1, h2, h3, h4⟩
  | cons seq_id rest ih =>
    intro st st2 h h1 h2 h3 h4
    unfold collect_results at h
    split_ifs at h with hlt hmem
    · exact ih st st2 h h1 h2 h3 h4
    · cases hp : env.parse (c.store.get (get_seq_id_key (seq_id % U32))) with
      | none => rw [hp] at h; simp at h
      | some document =>
        rw [hp] at h
        simp only at h
        refine ih _ st2 h ?_ ?_ ?_ ?_
        · simp [h1]
        · simp only; omega
        · simp only [List.map_append, List.map_cons, List.map_nil]
          rw [List.nodup_append]
          refine ⟨h3, by simp, ?_⟩
          intro a ha hb
          simp only [List.mem_singleton] at hb
          subst hb
          exact hmem (h4 a ha)
        · intro x hx
          simp only [List.map_append, List.map_cons, List.map_nil, List.mem_append,
            List.mem_singleton] at hx
          rcases hx with hx | hx
          · exact List.mem_cons_of_mem _ (h4 x hx)
          · subst hx; exact List.mem_cons_self _ _
    · simp only [Except.ok.injEq] at h
      subst h
      exact ⟨h1, h2, h3, h4⟩

theorem candidates_step_inv (env : Env) (senv : SearchEnv) (c : Collection)
    (token_leaves : List (List art_leaf)) (max_results n : Nat) (st st2 : Candidates) (b : Bool)
    (h : candidates_step env senv c token_leaves max_results n st = .ok (st2, b))
    (h1 : st.results.length = st.total_results) (h2 : st.total_results ≤ max_results)
    (h3 : (st.results.map Prod.fst).Nodup)
    (h4 : ∀ x ∈ st.results.map Prod.fst, x ∈ st.dedup_seq_ids) :
    st2.results.length = st2.total_results ∧ st2.total_results ≤ max_results
      ∧ (st2.results.map Prod.fst).Nodup
      ∧ (∀ x ∈ st2.results.map Prod.fst, x ∈ st2.dedup_seq_ids) := by
  unfold candidates_step at h
  split at h
  · simp only [Except.ok.injEq, Prod.mk.injEq] at h
    obtain ⟨rfl, _⟩ := h
    exact ⟨h1, h2, h3, h4⟩
  · split_ifs at h with h0
    · simp only [Except.ok.injEq, Prod.mk.injEq] at h
      obtain ⟨rfl, _⟩ := h
      exact ⟨h1, h2, h3, h4⟩
    · split at h
      · simp at h
      · split at h
        · simp at h
        · rename_i st3 hc
          simp only [Except.ok.injEq, Prod.mk.injEq] at h
          obtain ⟨rfl, _⟩ := h
          exact collect_results_inv env c max_results _ st st3 hc h1 h2 h3 h4

theorem candidates_loop_inv (env : Env) (senv : SearchEnv) (c : Collection)
    (token_leaves : List (List art_leaf)) (max_results : Nat) (k : Nat) :
    ∀ (st st2 : Candidates),
      candidates_loop env senv c token_leaves max_results k st = .ok st2 →
      st.results.length = st.total_results → st.total_results ≤ max_results →
      (st.results.map Prod.fst).Nodup → (∀ x ∈ st.results.map Prod.fst, x ∈ st.dedup_seq_ids) →
      st2.results.length = st2.total_results ∧ st2.total_results ≤ max_results
      ∧ (st2.results.map Prod.fst).Nodup
      ∧ (∀ x ∈ st2.results.map Prod.fst, x ∈ st2.dedup_seq_ids) := by
  induction k with
  | zero =>
    intro st st2 h h1 h2 h3 h4
    simp only [candidates_loop, Except.ok.injEq] at h
    subst h
    exact ⟨h1, h2, h3, h4⟩
  | succ k ih =>
    intro st st2 h h1 h2 h3 h4
    unfold candidates_loop at h
    split_ifs at h with hlt
    · cases hs : candidates_step env senv c token_leaves max_results
          (combination_limit - (k + 1)) st with
      | error e => rw [hs] at h; simp at h
      | ok p =>
        obtain ⟨st3, b⟩ := p
        rw [hs] at h
        have h5 := candidates_step_inv env senv c token_leaves max_results _ st st3 b hs h1 h2 h3 h4
        cases b with
        | true =>
          simp only [Except.ok.injEq] at h
          subst h
          exact h5
        | false =>
          exact ih st3 st2 h h5.1 h5.2.1 h5.2.2.1 h5.2.2.2
    · simp only [Except.ok.injEq] at h
      subst h
      exact ⟨h1, h2, h3, h4⟩

theorem search_candidates_inv (env : Env) (senv : SearchEnv) (c : Collection)
    (token_leaves : List (List art_leaf)) (max_results : Nat) (results : List (Nat × Json))
    (total_results : Nat)
    (h : Collection.search_candidates env senv c token_leaves [] 0 max_results
      = .ok (results, total_results)) :
    results.length = total_results ∧ total_results ≤ max_results
      ∧ (results.map Prod.fst).Nodup := by
  unfold Collection.search_candidates at h
  split at h
  · simp at h
  · rename_i st hl
    simp only [Except.ok.injEq, Prod.mk.injEq] at h
    obtain ⟨rfl, rfl⟩ := h
    have := candidates_loop_inv env senv c token_leaves max_results combination_limit _ st hl
      rfl (Nat.zero_le _) (by simp) (by simp)
    exact ⟨this.1, this.2.1, this.2.2.1⟩

theorem token_step_results (senv : SearchEnv) (c : Collection) (max_cost : Nat)
    (token_order : token_ordering) (prefix_search : Bool) (st : SearchState) :
    (token_step senv c max_cost token_order prefix_search st).1.results = st.results
    ∧ (token_step senv c max_cost token_order prefix_search st).1.total_results
        = st.total_results := by
  unfold token_step
  by_cases h : token_candidates senv c token_order prefix_search st ≠ []
  · rw [if_pos h]
    exact ⟨rfl, rfl⟩
  · rw [if_neg h]
    dsimp only
    split_ifs <;> exact ⟨rfl, rfl⟩

theorem token_loop_results (senv : SearchEnv) (c : Collection) (max_cost : Nat)
    (token_order : token_ordering) (prefix_search : Bool) (fuel : Nat) :
    ∀ (st st2 : SearchState),
      token_loop senv c max_cost token_order prefix_search fuel st = some st2 →
      st2.results = st.results ∧ st2.total_results = st.total_results := by
  induction fuel with
  | zero => intro st st2 h; simp [token_loop] at h
  | succ fuel ih =>
    intro st st2 h
    unfold token_loop at h
    split_ifs at h with hlt
    · have hr := token_step_results senv c max_cost token_order prefix_search st
      cases hs : token_step senv c max_cost token_order prefix_search st with
      | mk st3 b =>
        rw [hs] at h hr
        cases b with
        | true =>
          simp only [Option.some.injEq] at h
          subst h
          exact hr
        | false =>
          have := ih st3 st2 h
          exact ⟨this.1.trans hr.1, this.2.trans hr.2⟩
    · simp only [Option.some.injEq] at h
      subst h
      exact ⟨rfl, rfl⟩

theorem cost_step_results (env : Env) (senv : SearchEnv) (c : Collection)
    (max_cost max_results : Nat) (token_order : token_ordering) (prefix_search : Bool)
    (st st2 : SearchState) (b : Bool)
    (h : cost_step env senv c max_cost max_results token_order prefix_search st
      = some (.ok (st2, b)))
    (h1 : st.results = []) (h2 : st.total_results = 0) :
    (st2.results.length ≤ max_results ∧ (st2.results.map Prod.fst).Nodup)
    ∧ (b = false → st2.results = [] ∧ st2.total_results = 0) := by
  unfold cost_step at h
  split at h
  · simp at h
  · rename_i st3 hl
    have hr := token_loop_results senv c max_cost token_order prefix_search _ _ st3 hl
    simp only at hr
    rw [h1] at hr
    rw [h2] at hr
    split_ifs at h with hc
    · split at h
      · simp at h
      · rename_i results total_results hsc
        rw [hr.1, hr.2] at hsc
        have hi := search_candidates_inv env senv c _ max_results results total_results hsc
        split_ifs at h with hpos
        · simp only [Option.some.injEq, Except.ok.injEq, Prod.mk.injEq] at h
          obtain ⟨rfl, rfl⟩ := h
          simp only
          exact ⟨⟨by omega, hi.2.2⟩, by simp⟩
        · simp only [Option.some.injEq, Except.ok.injEq, Prod.mk.injEq] at h
          obtain ⟨rfl, rfl⟩ := h
          simp only
          have h0 : total_results = 0 := by omega
          have hnil : results = [] := List.length_eq_zero.mp (by omega)
          subst hnil
          exact ⟨⟨by simp, by simp⟩, fun _ => ⟨rfl, h0⟩⟩
    · simp only [Option.some.injEq, Except.ok.injEq, Prod.mk.injEq] at h
      obtain ⟨rfl, rfl⟩ := h
      simp only
      rw [hr.1, hr.2]
      exact ⟨⟨by simp, by simp⟩, fun _ => ⟨rfl, rfl⟩⟩

theorem cost_loop_results (env : Env) (senv : SearchEnv) (c : Collection)
    (max_cost max_results : Nat) (token_order : token_ordering) (prefix_search : Bool)
    (fuel : Nat) :
    ∀ (st st2 : SearchState),
      cost_loop env senv c max_cost max_results token_order prefix_search fuel st
        = some (.ok st2) →
      st.results = [] → st.total_results = 0 →
      st2.results.length ≤ max_results ∧ (st2.results.map Prod.fst).Nodup := by
  induction fuel with
  | zero => intro st st2 h; simp [cost_loop] at h
  | succ fuel ih =>
    intro st st2 h h1 h2
    unfold cost_loop at h
    split_ifs at h with hc
    · split at h
      · simp at h
      · simp at h
      · rename_i st3 hs
        simp only [Option.some.injEq, Except.ok.injEq] at h
        subst h
        exact (cost_step_results env senv c max_cost max_results token_order prefix_search
          st st3 true hs h1 h2).1
      · rename_i st3 hs
        have := (cost_step_results env senv c max_cost max_results token_order prefix_search
          st st3 false hs h1 h2).2 rfl
        exact ih st3 st2 h this.1 this.2
    · simp only [Option.some.injEq, Except.ok.injEq] at h
      subst h
      rw [h1]
      exact ⟨by simp, by simp⟩

theorem search_results_aux (env : Env) (senv : SearchEnv) (c : Collection) (fuel : Nat) :
    ∀ (query : String) (num_typos : Int) (num_results : Nat) (token_order : token_ordering)
      (prefix_search : Bool) (results : List (Nat × Json)),
      Collection.search env senv c fuel query num_typos num_results token_order prefix_search
        = some (.ok results) →
      results.length ≤ min num_results MAX_RESULTS ∧ (results.map Prod.fst).Nodup := by
  induction fuel with
  | zero => intro q t n o p r h; simp [Collection.search] at h
  | succ fuel ih =>
    intro q t n o p r h
    unfold Collection.search at h
    split at h
    · simp at h
    · simp at h
    · rename_i st hl
      have := cost_loop_results env senv c _ _ o p fuel _ st hl rfl rfl
      split_ifs at h with hc
      · exact ih _ t n _ _ r h
      · simp only [Option.some.injEq, Except.ok.injEq] at h
        subst h
        exact this

theorem cost_loop_inv (env : Env) (senv : SearchEnv) (c : Collection)
    (max_cost max_results : Nat) (token_order : token_ordering) (prefix_search : Bool)
    (toks0 : List String) (fuel : Nat) :
    ∀ st st2 : SearchState, search_inv toks0 st → 0 ≤ st.n → st.n ≤ 10 →
      cost_loop env senv c max_cost max_results token_order prefix_search fuel st
        = some (.ok st2) →
      search_inv toks0 st2 := by
  induction fuel with
  | zero => intro st st2 _ _ _ h; simp [cost_loop] at h
  | succ fuel ih =>
    intro st st2 hinv hn0 hn10 h
    unfold cost_loop at h
    by_cases hc : st.n < st.N ∧ st.n < (combination_limit : Int)
    · rw [if_pos hc] at h
      have hlt : st.n < 10 := by
        have := hc.2
        simpa [combination_limit] using this
      obtain ⟨r, hr, hprop⟩ := cost_step_inv env senv c max_cost max_results token_order
        prefix_search toks0 st hinv hn0 hlt
      rw [hr] at h
      cases r with
      | error e => simp at h
      | ok p =>
        obtain ⟨st3, b⟩ := p
        have h2 := hprop st3 b rfl
        cases b with
        | true =>
          simp only [Option.some.injEq, Except.ok.injEq] at h
          subst h
          exact h2.1
        | false =>
          have h3 := h2.2 rfl
          exact ih st3 st2 h2.1 h3.1 h3.2.1 h
    · rw [if_neg hc] at h
      simp only [Option.some.injEq, Except.ok.injEq] at h
      subst h
      exact hinv

theorem max_cost_of_le (num_typos : Int) : max_cost_of num_typos ≤ 2 := by
  unfold max_cost_of
  split_ifs with h
  · exact Nat.le_refl 2
  · omega

theorem initial_state_inv (query : String) (max_cost : Nat)
    (hsize : (StringUtils_tokenize query).length < SIZE_T) :
    search_inv ((StringUtils_tokenize query).map tolower) (initial_state query max_cost)
    ∧ (initial_state query max_cost).n = 0
    ∧ cost_measure (initial_state query max_cost)
        = 11 * ((StringUtils_tokenize query).length * (max_cost + 1)) + 10 := by
  refine ⟨⟨?_, ?_, ?_, ?_, ?_, ?_⟩, rfl, ?_⟩
  · simp [initial_state]
  · intro l hl
    simp only [initial_state, List.mem_map] at hl
    obtain ⟨_, _, rfl⟩ := hl
    simp [all_costs]
  · simpa [initial_state] using hsize
  · intro t ht; exact ht
  · intro key hk; simp [initial_state] at hk
  · simp [initial_state]
  · have : cost_sum ((StringUtils_tokenize query).map (fun _ => all_costs max_cost))
        = (StringUtils_tokenize query).length * (max_cost + 1) := by
      unfold cost_sum
      induction StringUtils_tokenize query with
      | nil => simp
      | cons w ws ih =>
        simp only [List.map_cons, List.sum_cons, List.length_cons, ih]
        simp only [all_costs, List.length_range]
        ring
    unfold cost_measure
    simp only [initial_state]
    rw [this]
    simp

theorem tokens_no_space (query : String) :
    ∀ w ∈ (StringUtils_tokenize query).map tolower, ∀ ch ∈ w.data, ch ≠ ' ' := by
  intro w hw
  obtain ⟨v, hv, rfl⟩ := List.mem_map.mp hw
  exact tolower_no_space v (split_on_space_no_space query.data [] (by simp) v hv)

theorem fallback_query_shorter (env : Env) (senv : SearchEnv) (c : Collection)
    (max_cost max_results : Nat) (token_order : token_ordering) (prefix_search : Bool)
    (query : String) (hsize : (StringUtils_tokenize query).length < SIZE_T)
    (fuel : Nat) (st : SearchState)
    (h : cost_loop env senv c max_cost max_results token_order prefix_search fuel
      (initial_state query max_cost) = some (.ok st))
    (hne : st.token_to_count.length ≠ 0) :
    (StringUtils_tokenize (truncated_query senv st)).length < st.token_to_count.length
    ∧ st.token_to_count.length ≤ ((StringUtils_tokenize query).map tolower).dedup.length := by
  obtain ⟨hinv0, hn, _⟩ := initial_state_inv query max_cost hsize
  have hinv := cost_loop_inv env senv c max_cost max_results token_order prefix_search _ fuel
    _ st hinv0 (by rw [hn]) (by rw [hn]; decide) h
  refine ⟨truncated_query_tokens senv st _ hinv.2.2.2.2.1 (tokens_no_space query) hne, ?_⟩
  have := keys_le_distinct _ _ hinv.2.2.2.2.2 hinv.2.2.2.2.1
  simpa using this

theorem search_terminates_aux (env : Env) (senv : SearchEnv) (c : Collection) (fuel : Nat) :
    ∀ (query : String) (num_typos : Int) (num_results : Nat) (token_order : token_ordering)
      (prefix_search : Bool), (StringUtils_tokenize query).length < SIZE_T →
      33 * (StringUtils_tokenize query).length + 12 ≤ fuel →
      ∃ r, Collection.search env senv c fuel query num_typos num_results token_order
        prefix_search = some r := by
  induction fuel with
  | zero => intro q t n o p _ hf; omega
  | succ fuel ih =>
    intro q t n o p hsize hf
    obtain ⟨hinv0, hn, hm⟩ := initial_state_inv q (max_cost_of t) hsize
    have hmc := max_cost_of_le t
    have hmeas : cost_measure (initial_state q (max_cost_of t)) < fuel := by
      rw [hm]
      have : (StringUtils_tokenize q).length * (max_cost_of t + 1)
          ≤ (StringUtils_tokenize q).length * 3 := Nat.mul_le_mul_left _ (by omega)
      omega
    obtain ⟨r, hr, _⟩ := cost_loop_terminates env senv c (max_cost_of t) (min n MAX_RESULTS)
      o p _ fuel _ hinv0 (by rw [hn]) (by rw [hn]; decide) hmeas
    unfold Collection.search
    rw [hr]
    cases r with
    | error e => exact ⟨_, rfl⟩
    | ok st =>
      dsimp only
      split_ifs with hc
      · have hs := fallback_query_shorter env senv c (max_cost_of t) (min n MAX_RESULTS) o p q
          hsize fuel st hr hc.2
        have hd : ((StringUtils_tokenize q).map tolower).dedup.length
            ≤ (StringUtils_tokenize q).length := by
          have := (List.dedup_sublist ((StringUtils_tokenize q).map tolower)).length_le
          simpa using this
        exact ih _ t n _ _ (by omega) (by omega)
      · exact ⟨_, rfl⟩

theorem cost_loop_terminates_initial (env : Env) (senv : SearchEnv) (c : Collection)
    (max_results : Nat) (token_order : token_ordering) (prefix_search : Bool)
    (query : String) (num_typos : Int) (hsize : (StringUtils_tokenize query).length < SIZE_T)
    (fuel : Nat) (hf : 33 * (StringUtils_tokenize query).length + 11 ≤ fuel) :
    ∃ r, cost_loop env senv c (max_cost_of num_typos) max_results token_order prefix_search fuel
      (initial_state query (max_cost_of num_typos)) = some r := by
  obtain ⟨hinv0, hn, hm⟩ := initial_state_inv query (max_cost_of num_typos) hsize
  have hmc := max_cost_of_le num_typos
  have hmeas : cost_measure (initial_state query (max_cost_of num_typos)) < fuel := by
    rw [hm]
    have : (StringUtils_tokenize query).length * (max_cost_of num_typos + 1)
        ≤ (StringUtils_tokenize query).length * 3 := Nat.mul_le_mul_left _ (by omega)
    omega
  obtain ⟨r, hr, _⟩ := cost_loop_terminates env senv c (max_cost_of num_typos) max_results
    token_order prefix_search _ fuel _ hinv0 (by rw [hn]) (by rw [hn]; decide) hmeas
  exact ⟨r, hr⟩

/-- C13: `search` terminates. For every corpus, query (with a number `k` of
tokens that fits a `size_t`), `num_typos` and `num_results`: the loop over the
cost combinations ends within `33 * k + 11` turns, whatever `n` is reset to;
`search` returns, or throws, with fuel `33 * k + 12`; and whenever the loop has
ended with `token_to_count` not empty, the query of the fallback has strictly
fewer tokens than `token_to_count` has entries, which are at most as many as
the distinct tokens of the query. -/
theorem search_terminates (env : Env) (senv : SearchEnv) (c : Collection) (query : String)
    (num_typos : Int) (num_results : Nat) (token_order : token_ordering) (prefix_search : Bool)
    (hsize : (StringUtils_tokenize query).length < SIZE_T) :
    (∀ fuel, 33 * (StringUtils_tokenize query).length + 12 ≤ fuel →
      ∃ r, Collection.search env senv c fuel query num_typos num_results token_order
        prefix_search = some r)
    ∧ (∀ fuel, 33 * (StringUtils_tokenize query).length + 11 ≤ fuel →
      ∃ r, cost_loop env senv c (max_cost_of num_typos) (min num_results MAX_RESULTS)
        token_order prefix_search fuel (initial_state query (max_cost_of num_typos)) = some r)
    ∧ (∀ fuel st,
        cost_loop env senv c (max_cost_of num_typos) (min num_results MAX_RESULTS)
          token_order prefix_search fuel (initial_state query (max_cost_of num_typos))
          = some (.ok st) →
        st.token_to_count.length ≠ 0 →
        (StringUtils_tokenize (truncated_query senv st)).length < st.token_to_count.length
        ∧ st.token_to_count.length
            ≤ ((StringUtils_tokenize query).map tolower).dedup.length) :=
  ⟨fun fuel hf => search_terminates_aux env senv c fuel query num_typos num_results token_order
      prefix_search hsize hf,
   fun fuel hf => cost_loop_terminates_initial env senv c _ token_order prefix_search query
      num_typos hsize fuel hf,
   fun fuel st h hne => fallback_query_shorter env senv c _ _ token_order prefix_search query
      hsize fuel st h hne⟩

/-- C13, witness: the query `helo zzzzzz word` on three documents. -/
theorem search_terminates_witness :
    (∀ fuel, 33 * (StringUtils_tokenize "helo zzzzzz word").length + 12 ≤ fuel →
      ∃ r, Collection.search title_env demo_search_env
        (collection_of ["hello word", "hello words", "words"]) fuel "helo zzzzzz word" 1 10
        .FREQUENCY false = some r)
    ∧ (∀ fuel, 33 * (StringUtils_tokenize "helo zzzzzz word").length + 11 ≤ fuel →
      ∃ r, cost_loop title_env demo_search_env
        (collection_of ["hello word", "hello words", "words"]) (max_cost_of 1)
        (min 10 MAX_RESULTS) .FREQUENCY false fuel
        (initial_state "helo zzzzzz word" (max_cost_of 1)) = some r)
    ∧ (∀ fuel st,
        cost_loop title_env demo_search_env
          (collection_of ["hello word", "hello words", "words"]) (max_cost_of 1)
          (min 10 MAX_RESULTS) .FREQUENCY false fuel
          (initial_state "helo zzzzzz word" (max_cost_of 1)) = some (.ok st) →
        st.token_to_count.length ≠ 0 →
        (StringUtils_tokenize (truncated_query demo_search_env st)).length
          < st.token_to_count.length
        ∧ st.token_to_count.length
            ≤ ((StringUtils_tokenize "helo zzzzzz word").map tolower).dedup.length) :=
  search_terminates title_env demo_search_env
    (collection_of ["hello word", "hello words", "words"]) "helo zzzzzz word" 1 10 .FREQUENCY
    false (by decide)

/-- C12: for every corpus, query (with a number of tokens that fits a `size_t`),
`num_typos` and `num_results`, `search` returns or throws; and the documents it
returns are at most `min(num_results, MAX_RESULTS)`, fetched under pairwise
distinct sequence ids. -/
theorem search_returns_bounded_distinct (env : Env) (senv : SearchEnv) (c : Collection)
    (query : String) (num_typos : Int) (num_results : Nat) (token_order : token_ordering)
    (prefix_search : Bool) (hsize : (StringUtils_tokenize query).length < SIZE_T) :
    (∃ r, Collection.search env senv c (33 * (StringUtils_tokenize query).length + 12) query
        num_typos num_results token_order prefix_search = some r)
    ∧ (∀ fuel results,
        Collection.search env senv c fuel query num_typos num_results token_order prefix_search
          = some (.ok results) →
        results.length ≤ min num_results MAX_RESULTS ∧ (results.map Prod.fst).Nodup) :=
  ⟨search_terminates_aux env senv c _ query num_typos num_results token_order prefix_search
      hsize (Nat.le_refl _),
   fun fuel results h => search_results_aux env senv c fuel query num_typos num_results
      token_order prefix_search results h⟩

/-- C12, witness: the query `helo word` on three documents, with at most one
result asked for. -/
theorem search_returns_bounded_distinct_witness :
    (∃ r, Collection.search title_env demo_search_env
        (collection_of ["hello word", "hello words", "words"])
        (33 * (StringUtils_tokenize "hello").length + 12) "hello" 1 1 .FREQUENCY false = some r)
    ∧ (∀ fuel results,
        Collection.search title_env demo_search_env
          (collection_of ["hello word", "hello words", "words"]) fuel "hello" 1 1 .FREQUENCY
          false = some (.ok results) →
        results.length ≤ min 1 MAX_RESULTS ∧ (results.map Prod.fst).Nodup) :=
  search_returns_bounded_distinct title_env demo_search_env
    (collection_of ["hello word", "hello words", "words"]) "hello" 1 1 .FREQUENCY false
    (by decide)

/-! ## The copy steps of the compaction of the offset index -/

/-- The array that `shift_loop` builds is made of the copy steps that
`shift_loop_copies` records, each value less the shift in 32 bits. -/
theorem shift_loop_eq_copies (junk : Nat → Nat) (a removed : List Nat) (fuel : Nat) :
    ∀ new_array curr counter shift,
      shift_loop junk a removed fuel new_array curr counter shift
        = new_array ++ (shift_loop_copies junk a removed fuel curr counter shift).map
            (fun p => (p.1 + U32 - p.2) % U32) := by
  induction fuel with
  | zero => intro new_array curr counter shift; simp [shift_loop, shift_loop_copies]
  | succ fuel ih =>
    intro new_array curr counter shift
    unfold shift_loop shift_loop_copies
    split_ifs
    all_goals first
      | exact ih _ _ _ _
      | (rw [ih]; simp)
      | simp

/-- The copy steps from an intermediate state: with enough fuel, one for each
remaining position that is not to be removed, with the entry at that position
and the shift of the specification. -/
theorem shift_loop_copies_spec (junk : Nat → Nat) (a removed : List Nat)
    (hmono : ∀ i, i + 1 < a.length → a.getD i 0 ≤ a.getD (i + 1) 0)
    (h32 : ∀ i, i < a.length → a.getD i 0 < U32)
    (hsorted : ∀ i j, i ≤ j → j < removed.length → removed.getD i 0 ≤ removed.getD j 0) :
    ∀ fuel curr counter, curr ≤ a.length → counter ≤ removed.length →
      (a.length - curr) + (removed.length - counter) < fuel →
      (∀ i, i < counter → removed.getD i 0 < curr) →
      shift_loop_copies junk a removed fuel curr counter (shift_before a removed curr)
        = ((List.range' curr (a.length - curr)).filter
            (fun k => decide (k ∉ removed))).map
              (fun k => (a.getD k 0, shift_before a removed k)) := by
  intro fuel
  induction fuel with
  | zero => intro _ _ _ _ hfuel; omega
  | succ fuel ih =>
    intro curr counter hcurr hcounter hfuel hdone
    unfold shift_loop_copies
    by_cases hlt : curr < a.length
    · rw [if_pos hlt]
      have hrange : List.range' curr (a.length - curr)
          = curr :: List.range' (curr + 1) (a.length - (curr + 1)) := by
        have : a.length - curr = (a.length - (curr + 1)) + 1 := by omega
        rw [this, List.range'_succ]
      have hshift_le := shift_before_le a removed hmono curr hlt
      have hacurr := h32 curr hlt
      by_cases hcond : counter < removed.length ∧ forarray_at junk removed counter ≤ curr
      · rw [if_pos hcond]
        obtain ⟨hc, hle⟩ := hcond
        rw [forarray_at_of_lt junk removed counter hc] at hle
        rw [forarray_at_of_lt junk removed counter hc]
        by_cases heq : curr = removed.getD counter 0
        · rw [if_pos heq]
          have hmem : curr ∈ removed := (mem_iff_getD removed curr).mpr ⟨counter, hc, heq.symm⟩
          have hnext : (shift_before a removed curr
              + (if curr + 1 = a.length then 0
                 else (forarray_at junk a (curr + 1) + U32 - forarray_at junk a curr) % U32)) % U32
              = shift_before a removed (curr + 1) := by
            rw [shift_before_succ, if_pos hmem]
            by_cases hlast : curr + 1 = a.length
            · rw [if_pos hlast]
              have h0 : a.getD (curr + 1) 0 = 0 := by
                rw [List.getD_eq_default _ _ (by omega)]
              rw [h0, Nat.zero_sub, Nat.add_zero]
              exact Nat.mod_eq_of_lt (by omega)
            · rw [if_neg hlast]
              have hlt2 : curr + 1 < a.length := by omega
              rw [forarray_at_of_lt junk a (curr + 1) hlt2, forarray_at_of_lt junk a curr hlt]
              have hm := hmono curr hlt2
              have h2 := h32 (curr + 1) hlt2
              have hdiff : (a.getD (curr + 1) 0 + U32 - a.getD curr 0) % U32
                  = a.getD (curr + 1) 0 - a.getD curr 0 := by
                unfold U32 at *
                omega
              rw [hdiff]
              exact Nat.mod_eq_of_lt (by omega)
          rw [hnext, ih (curr + 1) (counter + 1) (by omega) (by omega) (by omega)
            (fun i hi => by
              rcases Nat.lt_succ_iff_lt_or_eq.mp hi with h | h
              · have := hdone i h
                omega
              · rw [h, ← heq]
                omega)]
          rw [hrange, List.filter_cons]
          simp [hmem]
        · rw [if_neg heq]
          rw [ih curr (counter + 1) hcurr (by omega) (by omega)
            (fun i hi => by
              rcases Nat.lt_succ_iff_lt_or_eq.mp hi with h | h
              · exact hdone i h
              · rw [h]
                omega)]
      · rw [if_neg hcond]
        have hnot : curr ∉ removed := by
          intro hmem
          obtain ⟨i, hi, hx⟩ := (mem_iff_getD removed curr).mp hmem
          by_cases hic : i < counter
          · have := hdone i hic
            omega
          · have hc : counter < removed.length := by omega
            have hgt : ¬ removed.getD counter 0 ≤ curr := by
              intro hle
              exact hcond ⟨hc, by rw [forarray_at_of_lt junk removed counter hc]; exact hle⟩
            have := hsorted counter i (by omega) hi
            omega
        have hsame : shift_before a removed (curr + 1) = shift_before a removed curr := by
          rw [shift_before_succ, if_neg hnot, Nat.add_zero]
        have hstep := ih (curr + 1) counter (by omega) hcounter (by omega)
          (fun i hi => by have := hdone i hi; omega)
        rw [hsame] at hstep
        rw [hstep, forarray_at_of_lt junk a curr hlt, hrange, List.filter_cons]
        simp [hnot]
    · rw [if_neg hlt]
      have : a.length - curr = 0 := by omega
      rw [this]
      simp

theorem copy_steps_eq (junk : Nat → Nat) (a removed : List Nat)
    (hmono : a.Pairwise (fun x y => x ≤ y)) (h32 : ∀ x ∈ a, x < U32)
    (hsorted : removed.Pairwise (fun x y => x ≤ y)) :
    copy_steps junk a removed
      = ((List.range a.length).filter (fun k => decide (k ∉ removed))).map
          (fun k => (a.getD k 0, shift_before a removed k)) := by
  have hspec := shift_loop_copies_spec junk a removed
    (fun i hi => getD_mono_of_pairwise a hmono i (i + 1) (by omega) hi)
    (fun i hi => h32 _ (by rw [List.getD_eq_getElem _ _ hi]; exact List.getElem_mem _))
    (getD_mono_of_pairwise removed hsorted)
    (a.length + removed.length + 1) 0 0 (Nat.zero_le _) (Nat.zero_le _) (by omega)
    (fun i hi => by omega)
  rw [shift_before_zero, Nat.sub_zero, ← List.range_eq_range'] at hspec
  exact hspec

/-- C21: no unsigned underflow in the compaction of the offset index. For every
non-decreasing array `a` of 32-bit values and every sorted list `removed` of
positions below its length, the copy steps of `_remove_and_shift_offset_index`
are, in order, one for each surviving position `k`, copying `a[k]` with
`shift_value` the sum over the removed `r < k` of `a[r+1] - a[r]`; at each of
them `shift_value` is at most the value copied, so the 32-bit subtraction
`a[k] - shift_value` is the exact difference; and the array put in place of `a`
is made of these differences. -/
theorem copy_steps_no_underflow (junk : Nat → Nat) (a removed : List Nat)
    (hmono : a.Pairwise (fun x y => x ≤ y)) (h32 : ∀ x ∈ a, x < U32)
    (hsorted : removed.Pairwise (fun x y => x ≤ y)) (hbelow : ∀ r ∈ removed, r < a.length) :
    _remove_and_shift_offset_index junk a removed
      = (copy_steps junk a removed).map (fun p => (p.1 + U32 - p.2) % U32)
    ∧ copy_steps junk a removed
      = ((List.range a.length).filter (fun k => decide (k ∉ removed))).map
          (fun k => (a.getD k 0, shift_before a removed k))
    ∧ (copy_steps junk a removed).length = a.length - removed.dedup.length
    ∧ (∀ p ∈ copy_steps junk a removed, p.2 ≤ p.1 ∧ (p.1 + U32 - p.2) % U32 = p.1 - p.2) := by
  have heq := copy_steps_eq junk a removed hmono h32 hsorted
  have hm : ∀ i, i + 1 < a.length → a.getD i 0 ≤ a.getD (i + 1) 0 :=
    fun i hi => getD_mono_of_pairwise a hmono i (i + 1) (by omega) hi
  refine ⟨?_, heq, ?_, ?_⟩
  · have := shift_loop_eq_copies junk a removed (a.length + removed.length + 1) [] 0 0 0
    rw [List.nil_append] at this
    exact this
  · rw [heq, List.length_map, length_surviving _ _ hbelow]
  · intro p hp
    rw [heq] at hp
    obtain ⟨k, hk, rfl⟩ := List.mem_map.mp hp
    have hk2 : k < a.length := List.mem_range.mp (List.mem_filter.mp hk).1
    have hle := shift_before_le a removed hm k hk2
    have hlt : a.getD k 0 < U32 :=
      h32 _ (by rw [List.getD_eq_getElem _ _ hk2]; exact List.getElem_mem _)
    refine ⟨hle, ?_⟩
    dsimp only
    unfold U32 at *
    omega

/-- C21, witness: the positions 1 and 3 removed from an array of five entries;
the copy steps are `(0, 0)`, `(5, 3)` and `(9, 7)`. -/
theorem copy_steps_no_underflow_witness :
    _remove_and_shift_offset_index (fun _ => 0) [0, 2, 5, 5, 9] [1, 3]
      = (copy_steps (fun _ => 0) [0, 2, 5, 5, 9] [1, 3]).map (fun p => (p.1 + U32 - p.2) % U32)
    ∧ copy_steps (fun _ => 0) [0, 2, 5, 5, 9] [1, 3]
      = ((List.range [0, 2, 5, 5, 9].length).filter (fun k => decide (k ∉ [1, 3]))).map
          (fun k => ([0, 2, 5, 5, 9].getD k 0, shift_before [0, 2, 5, 5, 9] [1, 3] k))
    ∧ (copy_steps (fun _ => 0) [0, 2, 5, 5, 9] [1, 3]).length
        = [0, 2, 5, 5, 9].length - [1, 3].dedup.length
    ∧ (∀ p ∈ copy_steps (fun _ => 0) [0, 2, 5, 5, 9] [1, 3],
        p.2 ≤ p.1 ∧ (p.1 + U32 - p.2) % U32 = p.1 - p.2) :=
  copy_steps_no_underflow (fun _ => 0) [0, 2, 5, 5, 9] [1, 3]
    (by decide) (by decide) (by decide) (by decide)

end Typesense
